import Mathlib

/-!
csmsgp2go, the semantic core of package `parse`.

A shallow embedding of `src/parse/getast.go` and `src/parse/inline.go`.

* Go maps (`Specs`, `Identities`, the `linkset`) are association lists; the list
  order stands for the enumeration order of the map, so a statement over all
  lists is a statement over all enumeration orders.
* Elements (`gen.Elem`) are owned trees, so `Copy` is the identity on values and
  an in-place assignment through a pointer is a rebuilt tree.
* `uint16` values are natural numbers reduced modulo `65536` where the source
  increments them.
* Loops and recursions that the source does not bound take a fuel argument and
  return `none` (or `Outcome.diverge`) when it is exhausted.
-/

namespace Csmsgp2go

/-! ## Package gen (not under src/): the IR model -/

/-- Modelled from the spec: `gen.Primitive`, the scalar kinds of §3 (boolean, signed and
unsigned integers, floats, complex numbers, string, byte sequence, timestamp, any,
extension, unresolved identifier). -/
inductive Primitive
  | Invalid | Bytes | String | Float32 | Float64 | Complex64 | Complex128
  | Uint | Uint8 | Uint16 | Uint32 | Uint64
  | Int | Int8 | Int16 | Int32 | Int64
  | Bool | Intf | Time | Ext | IDENT
  deriving DecidableEq, Repr

/-- A `gen.StructField`: tag (an unsigned 16-bit index), name, element, raw annotation
text and annotation parts. -/
structure StructField (α : Type) where
  FieldTag : Nat
  FieldTagParts : List String
  RawTag : String
  FieldName : String
  FieldElem : α
  deriving Repr

/-- Modelled from the spec: `gen.Elem`, the IR element of §3. Every node carries its type
name (`aliasName`, empty when it has none). -/
inductive Elem
  | BaseElem (aliasName : String) (Value : Primitive)
  | Struct (aliasName : String) (Fields : List (StructField Elem))
  | Slice (aliasName : String) (Els : Elem)
  | Array (aliasName : String) (Size : String) (Els : Elem)
  | Map (aliasName : String) (Key : Elem) (Value : Elem)
  | Ptr (aliasName : String) (Value : Elem)
  | CsharpString (aliasName : String)
  | NilPlaceholder (aliasName : String)
  deriving Repr

/-- The field type used throughout. -/
abbrev SField := StructField Elem

/-- Modelled from the spec: the table of primitive type names behind `gen.Ident`
(the scalar kinds of §3 under their host-language names). -/
def primitives : List (String × Primitive) :=
  [("[]byte", .Bytes), ("string", .String), ("float32", .Float32), ("float64", .Float64),
   ("complex64", .Complex64), ("complex128", .Complex128),
   ("uint", .Uint), ("uint8", .Uint8), ("uint16", .Uint16), ("uint32", .Uint32),
   ("uint64", .Uint64),
   ("int", .Int), ("int8", .Int8), ("int16", .Int16), ("int32", .Int32), ("int64", .Int64),
   ("bool", .Bool), ("interface{}", .Intf), ("time.Time", .Time),
   ("msgp.Extension", .Ext)]

/-- Modelled from the spec: `gen.Ident`, a scalar of the primitive kind when the name is a
primitive, otherwise an unresolved-identifier placeholder carrying the name. -/
def Ident (id : String) : Elem :=
  match primitives.lookup id with
  | some p => .BaseElem "" p
  | none => .BaseElem id .IDENT

/-- Modelled from the spec: the host-language name of a primitive kind. -/
def BaseType : Primitive → String
  | .Invalid => "invalid" | .Bytes => "[]byte" | .String => "string"
  | .Float32 => "float32" | .Float64 => "float64"
  | .Complex64 => "complex64" | .Complex128 => "complex128"
  | .Uint => "uint" | .Uint8 => "uint8" | .Uint16 => "uint16" | .Uint32 => "uint32"
  | .Uint64 => "uint64"
  | .Int => "int" | .Int8 => "int8" | .Int16 => "int16" | .Int32 => "int32"
  | .Int64 => "int64"
  | .Bool => "bool" | .Intf => "interface{}" | .Time => "time.Time"
  | .Ext => "msgp.Extension" | .IDENT => ""

/-- Modelled from the spec: `Elem.TypeName`, the declared alias if any, otherwise the
host-language spelling of the shape. -/
def Elem.TypeName : Elem → String
  | .BaseElem a v => if a ≠ "" then a else BaseType v
  | .Struct a _ => if a ≠ "" then a else "struct{}"
  | .Slice a e => if a ≠ "" then a else "[]" ++ e.TypeName
  | .Array a sz e => if a ≠ "" then a else "[" ++ sz ++ "]" ++ e.TypeName
  | .Map a k v => if a ≠ "" then a else "map[" ++ k.TypeName ++ "]" ++ v.TypeName
  | .Ptr a v => if a ≠ "" then a else "*" ++ v.TypeName
  | .CsharpString a => if a ≠ "" then a else "string"
  | .NilPlaceholder a => a

/-- Modelled from the spec: `Elem.Alias`, which sets the type name of the node. -/
def Elem.Alias (name : String) : Elem → Elem
  | .BaseElem _ v => .BaseElem name v
  | .Struct _ fs => .Struct name fs
  | .Slice _ e => .Slice name e
  | .Array _ sz e => .Array name sz e
  | .Map _ k v => .Map name k v
  | .Ptr _ v => .Ptr name v
  | .CsharpString _ => .CsharpString name
  | .NilPlaceholder _ => .NilPlaceholder name

/-- Modelled from the spec: `Elem.Copy`, a deep independent copy; on owned trees this is
the same value. -/
def Elem.Copy (e : Elem) : Elem := e

mutual
/-- Modelled from the spec: `Elem.Complexity`, the structural size approximation of §4.5
(a scalar has a constant small cost, a container its own cost plus that of its child, a
struct the sum over its fields on top of its own cost). The costs are 1 for a scalar, a
slice, an array, an optional and a struct, and 2 for a map. -/
def Elem.Complexity : Elem → Nat
  | .BaseElem _ _ => 1
  | .Struct _ fs => 1 + fieldsComplexity fs
  | .Slice _ e => 1 + e.Complexity
  | .Array _ _ e => 1 + e.Complexity
  | .Map _ _ v => 2 + v.Complexity
  | .Ptr _ v => 1 + v.Complexity
  | .CsharpString _ => 1
  | .NilPlaceholder _ => 1
/-- Sum of the complexities of the elements of a field list. -/
def fieldsComplexity : List SField → Nat
  | [] => 0
  | f :: fs => f.FieldElem.Complexity + fieldsComplexity fs
end

/-- Modelled from the spec: the names of library builtins, resolved without a
declaration. -/
def builtins : List String := ["msgp.Raw", "msgp.Number"]

/-- Modelled from the spec: `Elem.Resolved`, true if the name denotes a known primitive or
builtin rather than a pending user-defined name. -/
def Elem.Resolved : Elem → Bool
  | .BaseElem a v => if v = .IDENT then decide (a ∈ builtins) else true
  | _ => true

/-- The inlining threshold, `maxComplex` of inline.go. -/
def maxComplex : Nat := 5

/-! ## Outcomes and errors -/

/-- The errors the passes return (the texts of the source, without the printed
fragment). -/
inductive Err
  | mapKey                      -- "map key only support string, int...,uint..."
  | mapValueParse (inner : Err) -- "map value parse failed,%w"
  | mapValueUnsupported         -- "not support map value type"
  | starExpr                    -- "not support star expr [%s]"
  | invalidInterface            -- "invalid interface type"
  | typesNotSupported           -- "types not supported"
  | invalidIndex (part : String) -- "invalid index %q: %w"
  | flattenNamed                -- "flatten field must be anonymous field"
  | notStructType (name : String) -- "%s not struct type"
  | embeddedStar                -- "%s not support StarExpr type"
  | embeddedOther               -- "%s. other possibilities are disallowed"
  | extensionCast               -- "couldn't cast to extension %s."
  | fieldParse (inner : Err)    -- "field %s parse failed,%w"
  | parseFailed (inner : Err)   -- "parse %s failed,%w"
  | unresolvedTypes (pending : List (String × String)) -- "couldn't resolve type. ..."
  | tagRepeated                 -- "tag value repeated"
  | unresolvedIdentifier (typ : String) -- "unresolved identifier: %s"
  | badElemType                 -- "bad elem type"
  | directiveError (chunks : List String) (inner : Err) -- "directive %v error: %w"
  | earlyDirectiveError (inner : Err) -- "early directive error: %w"
  deriving DecidableEq, Repr

/-- How a call of a function that may recurse without bound ends. -/
inductive Outcome (α : Type)
  | ret (a : α)   -- the call returned `a`
  | panic         -- a run-time panic aborted the program
  | diverge       -- the fuel ran out: the call has not returned
  deriving Repr

/-! ## getast.go: localized strings and the tag normaliser -/

mutual
/-- The value returned by `fixCsharpString(elem)`. -/
def fixCsharpString : Elem → Elem
  | .BaseElem a v => if v = .String then .CsharpString "" else .BaseElem a v
  | .Ptr a v => .Ptr a (fixCsharpString v)
  | .Map a k v => .Map a k (fixCsharpString v)
  | .Slice a e => .Slice a (fixCsharpString e)
  | .Array a sz e => .Array a sz (fixCsharpString e)
  | .Struct a fs => .Struct a (fixCsharpStringFields fs)
  | .CsharpString a => .CsharpString a
  | .NilPlaceholder a => .NilPlaceholder a
/-- The loop `for i := range v.Fields` of `fixCsharpString`, which assigns through the
index. -/
def fixCsharpStringFields : List SField → List SField
  | [] => []
  | f :: fs => { f with FieldElem := fixCsharpString f.FieldElem } :: fixCsharpStringFields fs
end

/-- What a holder of the pointer `elem` sees after `fixCsharpString(elem)` when the
returned value is not stored back: containers were rewritten in place, while for a
`*gen.BaseElem` the call only returns a fresh `CsharpString` and leaves the pointee as it
was. -/
def fixCsharpStringPointee : Elem → Elem
  | .BaseElem a v => .BaseElem a v
  | e => fixCsharpString e

/-- The first loop of `sortAndFillMsgFields` computes the largest tag. -/
def maxTag (fields : List SField) : Nat :=
  fields.foldl (fun m f => if f.FieldTag > m then f.FieldTag else m) 0

/-- The first loop of `sortAndFillMsgFields` on the fields: `for _, field := range
s.Fields` copies each `StructField`, so `field.FieldElem = fixCsharpString(...)` assigns
to the copy and `s.Fields[i].FieldElem` keeps its pointer. -/
def fixRangeCopy (fields : List SField) : List SField :=
  fields.map (fun f => { f with FieldElem := fixCsharpStringPointee f.FieldElem })

/-- The synthetic field appended for a missing tag. -/
def placeholderField (i : Nat) : SField :=
  { FieldTag := i, FieldTagParts := [], RawTag := "", FieldName := "",
    FieldElem := .NilPlaceholder "" }

/-- The loop `for i := uint16(0); i <= maxId; i++` that appends the placeholders; the
counter is a `uint16`, so `i++` wraps at `65536`. -/
def fillLoop (flagSet : List Nat) (maxId : Nat) : Nat → Nat → List SField → Option (List SField)
  | 0, _, _ => none
  | fuel + 1, i, fields =>
    if i ≤ maxId then
      if i ∈ flagSet then fillLoop flagSet maxId fuel ((i + 1) % 65536) fields
      else fillLoop flagSet maxId fuel ((i + 1) % 65536) (fields ++ [placeholderField i])
    else some fields

/-- Insertion of a field into a list ordered by tag. -/
def insertByTag (f : SField) : List SField → List SField
  | [] => [f]
  | g :: gs => if f.FieldTag ≤ g.FieldTag then f :: g :: gs else g :: insertByTag f gs

/-- The call `sort.Slice(s.Fields, less)` with `less` comparing tags. The library sort
need not be stable; this one is, which differs only on fields with equal tags. -/
def sortSlice : List SField → List SField
  | [] => []
  | f :: fs => insertByTag f (sortSlice fs)

/-- The body of the loop of `sortAndFillMsgFields` for one `*gen.Struct` with the given
fields: the new field list, or `none` when the body does not finish within the fuel. -/
def sortAndFillFields (fuel : Nat) (fields : List SField) : Option (List SField) :=
  if fields.length < 1 then some fields
  else
    let flagSet := fields.map (fun f => f.FieldTag)
    let maxId := maxTag fields
    let fields1 := fixRangeCopy fields
    if maxId + 1 = fields.length then some fields1
    else (fillLoop flagSet maxId fuel 0 fields1).map sortSlice

/-- The body of the loop of `sortAndFillMsgFields` for one entry of `Identities`. -/
def sortAndFillElem (fuel : Nat) : Elem → Option Elem
  | .Struct a fs => (sortAndFillFields fuel fs).map (Elem.Struct a)
  | e => some e

/-- The function `sortAndFillMsgFields` over the table of identities. -/
def sortAndFillMsgFields (fuel : Nat) : List (String × Elem) → Option (List (String × Elem))
  | [] => some []
  | (name, el) :: rest =>
    match sortAndFillElem fuel el with
    | none => none
    | some el1 =>
      match sortAndFillMsgFields fuel rest with
      | none => none
      | some rest1 => some ((name, el1) :: rest1)

/-! ## The declaration tree (package go/ast) -/

/-- A field tag literal (`*ast.BasicLit` of `ast.Field.Tag`): its raw text and the
key/value pairs that `reflect.StructTag` reads from it. -/
structure TagLit where
  Value : String
  pairs : List (String × String)
  deriving Repr

/-- An `ast.Field`: names, type and optional tag (`Typ` stands for the Go field
`Type`). -/
structure Field (ε : Type) where
  Names : List String
  Typ : ε
  Tag : Option TagLit
  deriving Repr

/-- The `ast.Expr` fragments of a type declaration; `Other` is any expression kind that
`parseExpr` does not list. An absent field list is the empty list. -/
inductive Expr
  | Ident (Name : String)
  | StarExpr (X : Expr)
  | SelectorExpr (X : Expr) (Sel : String)
  | ArrayType (Len : Option Expr) (Elt : Expr)
  | MapType (Key : Expr) (Value : Expr)
  | StructType (Fields : List (Field Expr))
  | InterfaceType (Methods : List (Field Expr))
  | BasicLit (Value : String)
  | Other
  deriving Repr

/-- The part of `FileSet` the passes read and write. -/
structure FileSet where
  Specs : List (String × Expr)
  Identities : List (String × Elem)
  Directives : List String
  tagName : String
  deriving Repr

/-- The map assignment `m[name] = v`: replaces the entry of an existing key, adds one
otherwise. -/
def mapSet {α : Type} (m : List (String × α)) (name : String) (v : α) : List (String × α) :=
  match m with
  | [] => [(name, v)]
  | (k, w) :: rest => if k = name then (k, v) :: rest else (k, w) :: mapSet rest name v

/-! ## Library functions used by the builder -/

/-- Splitting of a character list at a separator. -/
def splitChars (sep : Char) : List Char → List (List Char)
  | [] => [[]]
  | c :: cs =>
    if c = sep then [] :: splitChars sep cs
    else
      match splitChars sep cs with
      | [] => [[c]]
      | p :: ps => (c :: p) :: ps

/-- The call `strings.Split(s, ",")`. -/
def stringsSplitComma (s : String) : List String :=
  (splitChars ',' s.toList).map String.mk

/-- The call `strings.HasPrefix(s, p)`. -/
def stringsHasPrefix (s p : String) : Bool :=
  p.toList.isPrefixOf s.toList

/-- The call `strconv.ParseUint(s, 10, 16)`: a non-empty run of decimal digits whose
value fits sixteen bits. -/
def parseUint16 (s : String) : Option Nat :=
  let cs := s.toList
  if cs.isEmpty then none
  else if cs.all (fun c => decide (48 ≤ c.toNat ∧ c.toNat ≤ 57)) then
    let v := cs.foldl (fun acc c => acc * 10 + (c.toNat - 48)) 0
    if v < 65536 then some v else none
  else none

/-- The call `reflect.StructTag(...).Get(key)`. -/
def TagLit.Get (t : TagLit) (key : String) : String :=
  (t.pairs.lookup key).getD ""

/-- The annotation body `getField` reads: the tag named by `tagName`, else `msg`, else
`msgpack`. -/
def tagBody (tagName : String) (t : TagLit) : String :=
  let body := if tagName ≠ "" then t.Get tagName else ""
  let body := if body = "" then t.Get "msg" else body
  if body = "" then t.Get "msgpack" else body

/-! ## getast.go: the builder -/

/-- The function `embedded`: the name under which an anonymous field is known. -/
def embedded : Expr → String
  | .Ident n => n
  | .StarExpr x => embedded x
  | .SelectorExpr _ sel => sel
  | _ => ""

/-- The function `stringify`. -/
def stringify : Expr → String
  | .Ident n => n
  | .StarExpr x => "*" ++ stringify x
  | .SelectorExpr x sel => stringify x ++ "." ++ sel
  | .ArrayType none elt => "[]" ++ stringify elt
  | .ArrayType (some len) elt => "[" ++ stringify len ++ "]" ++ stringify elt
  | .InterfaceType [] => "interface{}"
  | _ => "<BAD>"

/-- What the tag part of `getField` (lines 467-522) leaves behind. -/
inductive TagStep
  | skip                                   -- part 0 is "-": `sf = nil; return`
  | fail (e : Err) (maxIdx : Nat)          -- an early error return
  | go (sf0 : SField) (extension flatten : Bool) (maxIdx : Nat)
  deriving Repr

/-- The field `sf[0]` right after `make([]gen.StructField, 1)`; its element is still
unset. -/
def emptyField : SField :=
  { FieldTag := 0, FieldTagParts := [], RawTag := "", FieldName := "",
    FieldElem := .BaseElem "" .Invalid }

/-- The tag part of `getField` (lines 467-522): reads the annotation, assigns the tag of
`sf[0]` and moves the counter `*maxIdx`. -/
def getFieldTag (fs : FileSet) (f : Field Expr) (maxIdx : Nat) : TagStep :=
  match f.Tag with
  | some t =>
    let tags := stringsSplitComma (tagBody fs.tagName t)
    let tag1 := tags.tail.head?
    let extension := decide (tag1 = some "extension")
    let flatten := decide (tag1 = some "flatten")
    let tag0 := tags.headD ""
    if tag0 = "-" then .skip
    else if !flatten then
      if tag0.length > 0 then
        match parseUint16 tag0 with
        | none => .fail (.invalidIndex tag0) maxIdx
        | some idx =>
          .go { emptyField with FieldTag := idx, FieldTagParts := tags, RawTag := t.Value }
            extension flatten ((idx + 1) % 65536)
      else
        .go { emptyField with FieldTag := maxIdx, FieldTagParts := tags, RawTag := t.Value }
          extension flatten ((maxIdx + 1) % 65536)
    else
      if tag0.length > 0 then
        match parseUint16 tag0 with
        | none => .fail (.invalidIndex tag0) maxIdx
        | some idx =>
          if f.Names.length ≠ 0 then .fail .flattenNamed idx
          else .go emptyField extension flatten idx
      else
        if f.Names.length ≠ 0 then .fail .flattenNamed maxIdx
        else .go emptyField extension flatten maxIdx
  | none => .go { emptyField with FieldTag := maxIdx } false false ((maxIdx + 1) % 65536)

/-- The extension cast at the end of `getField` (lines 568-583). -/
def castExtension : Elem → Except Err Elem
  | .Ptr a (.BaseElem b _) => .ok (.Ptr a (.BaseElem b .Ext))
  | .Ptr _ _ => .error .extensionCast
  | .BaseElem a _ => .ok (.BaseElem a .Ext)
  | _ => .error .extensionCast

/-- The loop of `getField` for a declaration with several names (lines 546-555): each
name takes the counter as its tag and a copy of the element. -/
def multiNameFields (ex : Elem) : List String → Nat → List SField × Nat
  | [], maxIdx => ([], maxIdx)
  | nm :: rest, maxIdx =>
    let r := multiNameFields ex rest ((maxIdx + 1) % 65536)
    ({ emptyField with FieldTag := maxIdx, FieldName := nm, FieldElem := ex.Copy } :: r.1, r.2)

/-- The end of `getField` for a single field (lines 557-584): stores the element in
`sf[0]` and applies the extension cast. -/
def getFieldFinish (sf0 : SField) (ex : Elem) (extension : Bool) (maxIdx : Nat) :
    Option (Nat × Except Err (List SField)) :=
  if extension then
    match castExtension ex with
    | .ok ex1 => some (maxIdx, .ok [{ sf0 with FieldElem := ex1 }])
    | .error err => some (maxIdx, .error err)
  else some (maxIdx, .ok [{ sf0 with FieldElem := ex }])

/-- The map-key test of `parseExpr` (line 676). -/
def mapKeyOk (kname : String) : Bool :=
  kname == "string" || stringsHasPrefix kname "uint" || stringsHasPrefix kname "int"

mutual
/-- The function `parseExpr`: `none` when the fuel runs out, otherwise the pair
`(gen.Elem, error)` with a nil element as `.ok none`. -/
def parseExpr (fs : FileSet) : Nat → Expr → Option (Except Err (Option Elem))
  | 0, _ => none
  | fuel + 1, e =>
    match e with
    | .MapType key value =>
      match parseExpr fs fuel key with
      | none => none
      | some (.error err) => some (.error err)
      | some (.ok none) => some (.ok none)
      | some (.ok (some kt)) =>
        if !mapKeyOk kt.TypeName then some (.error .mapKey)
        else
          match parseExpr fs fuel value with
          | none => none
          | some (.error err) => some (.error (.mapValueParse err))
          | some (.ok (some v)) => some (.ok (some (.Map "" kt v)))
          | some (.ok none) => some (.error .mapValueUnsupported)
    | .Ident name => some (.ok (some (Ident name)))
    | .ArrayType none (.Ident "byte") => some (.ok (some (.BaseElem "" .Bytes)))
    | .ArrayType len elt =>
      match parseExpr fs fuel elt with
      | none => none
      | some (.error err) => some (.error err)
      | some (.ok none) => some (.ok none)
      | some (.ok (some els)) =>
        match len with
        | some (.BasicLit v) => some (.ok (some (.Array "" v els)))
        | some (.Ident n) => some (.ok (some (.Array "" n els)))
        | some (.SelectorExpr x sel) =>
          some (.ok (some (.Array "" (stringify (.SelectorExpr x sel)) els)))
        | some _ => some (.ok none)
        | none => some (.ok (some (.Slice "" els)))
    | .StarExpr _ => some (.error .starExpr)
    | .StructType fields =>
      match parseFieldList fs fuel fields 0 with
      | none => none
      | some (_, .error err) => some (.error err)
      | some (_, .ok fds) => some (.ok (some (.Struct "" fds)))
    | .SelectorExpr x sel => some (.ok (some (Ident (stringify (.SelectorExpr x sel)))))
    | .InterfaceType methods =>
      if methods.length = 0 then some (.ok (some (.BaseElem "" .Intf)))
      else some (.error .invalidInterface)
    | _ => some (.error .typesNotSupported)
/-- The function `parseFieldList` on the list `fl.List`, with the counter `*maxIdx` passed
in and returned. -/
def parseFieldList (fs : FileSet) : Nat → List (Field Expr) → Nat →
    Option (Nat × Except Err (List SField))
  | 0, _, _ => none
  | _ + 1, [], maxIdx => some (maxIdx, .ok [])
  | fuel + 1, field :: rest, maxIdx =>
    match getField fs fuel field maxIdx with
    | none => none
    | some (c, .error err) => some (c, .error (.fieldParse err))
    | some (c, .ok fds) =>
      match parseFieldList fs fuel rest c with
      | none => none
      | some (c1, .error err) => some (c1, .error err)
      | some (c1, .ok out) => some (c1, .ok (fds ++ out))
/-- The function `getField`, with the counter `*maxIdx` passed in and returned. -/
def getField (fs : FileSet) : Nat → Field Expr → Nat →
    Option (Nat × Except Err (List SField))
  | 0, _, _ => none
  | fuel + 1, f, maxIdx =>
    match getFieldTag fs f maxIdx with
    | .skip => some (maxIdx, .ok [])
    | .fail err c => some (c, .error err)
    | .go sf0 extension flatten c =>
      match parseExpr fs fuel f.Typ with
      | none => none
      | some (.error err) => some (c, .error err)
      | some (.ok none) => some (c, .ok [])
      | some (.ok (some ex)) =>
        match f.Names with
        | [] =>
          if flatten then getFieldsFromEmbeddedStruct fs fuel f.Typ c
          else getFieldFinish { sf0 with FieldName := embedded f.Typ } ex extension c
        | [nm] => getFieldFinish { sf0 with FieldName := nm } ex extension c
        | names =>
          let r := multiNameFields ex names c
          some (r.2, .ok r.1)
/-- The function `getFieldsFromEmbeddedStruct`. -/
def getFieldsFromEmbeddedStruct (fs : FileSet) : Nat → Expr → Nat →
    Option (Nat × Except Err (List SField))
  | 0, _, _ => none
  | fuel + 1, f, maxIdx =>
    match f with
    | .Ident name =>
      match fs.Specs.lookup name with
      | some (.StructType fields) => parseFieldList fs fuel fields maxIdx
      | _ => some (maxIdx, .error (.notStructType name))
    | .StarExpr _ => some (maxIdx, .error .embeddedStar)
    | _ => some (maxIdx, .error .embeddedOther)
end

/-! ## getast.go: process and the alias resolver -/

/-- One pass `for name, elem := range ls` of `resolve` over the pending entries in the
order given: the table, the entries still pending and the flag `progress`. -/
def resolvePass (ids : List (String × Elem)) :
    List (String × Elem) → List (String × Elem) × List (String × Elem) × Bool
  | [] => (ids, [], false)
  | (name, elem) :: rest =>
    match ids.lookup elem.TypeName with
    | some real =>
      let r := resolvePass (mapSet ids name (real.Copy.Alias name)) rest
      (r.1, r.2.1, true)
    | none =>
      let r := resolvePass ids rest
      (r.1, (name, elem) :: r.2.1, r.2.2)

/-- The loop `for progress && len(ls) > 0` of `resolve`. Pass number `k` enumerates the
pending set `ls` as `order k ls`, a map iteration order the language leaves open. -/
def resolveLoop (order : Nat → List (String × Elem) → List (String × Elem)) :
    Nat → Nat → List (String × Elem) → List (String × Elem) →
    Option (List (String × Elem) × List (String × Elem))
  | 0, _, _, _ => none
  | fuel + 1, k, ids, ls =>
    if ls.length > 0 then
      let r := resolvePass ids (order k ls)
      if r.2.2 then resolveLoop order fuel (k + 1) r.1 r.2.1
      else some (r.1, r.2.1)
    else some (ids, ls)

/-- The function `resolve`: the table it leaves and the error it returns (`none` for
nil). -/
def resolve (order : Nat → List (String × Elem) → List (String × Elem)) (fuel : Nat)
    (ids ls : List (String × Elem)) : Option (List (String × Elem) × Option Err) :=
  match resolveLoop order fuel 0 ids ls with
  | none => none
  | some (ids1, ls1) =>
    if ls1.length < 1 then some (ids1, none)
    else some (ids1, some (.unresolvedTypes (ls1.map (fun p => (p.1, p.2.TypeName)))))

/-- The end of the loop body of `process` (lines 305-316) for a translated declaration:
an unresolved identifier goes to the deferred links, any other element is aliased and
stored in the table. -/
def processEntry (name : String) (el : Elem) (ids deferred : List (String × Elem)) :
    List (String × Elem) × List (String × Elem) :=
  match el with
  | .BaseElem a .IDENT => (ids, mapSet deferred name (.BaseElem a .IDENT))
  | _ => (mapSet ids name (el.Alias name), deferred)

/-- The loop `for name, def := range f.Specs` of `process`: the table and the deferred
links, or the error of the first declaration that fails. -/
def processLoop (fs : FileSet) (fuel : Nat) :
    List (String × Expr) → List (String × Elem) → List (String × Elem) →
    Option (Except Err (List (String × Elem) × List (String × Elem)))
  | [], ids, deferred => some (.ok (ids, deferred))
  | (name, d) :: rest, ids, deferred =>
    match parseExpr fs fuel d with
    | none => none
    | some (.error err) => some (.error (.parseFailed err))
    | some (.ok none) => processLoop fs fuel rest ids deferred
    | some (.ok (some el)) =>
      processLoop fs fuel rest (processEntry name el ids deferred).1
        (processEntry name el ids deferred).2

/-- The function `process`: the table of identities it leaves and the error it returns
(`none` for nil); the outer `none` when the fuel runs out. -/
def process (order : Nat → List (String × Elem) → List (String × Elem)) (fuel : Nat)
    (fs : FileSet) : Option (List (String × Elem) × Option Err) :=
  match processLoop fs fuel fs.Specs fs.Identities [] with
  | none => none
  | some (.error err) => some (fs.Identities, some err)
  | some (.ok (ids, deferred)) =>
    if deferred.length > 0 then resolve order fuel ids deferred
    else some (ids, none)

/-! ## inline.go: the inlining pass -/

/-- The lookup `f.Identities[typ]` while the top-level element `top` is being rewritten:
its entry is the element as rewritten so far. -/
def lookupIdentity (ids : List (String × Elem)) (top : String) (current : Elem)
    (typ : String) : Option Elem :=
  if typ = top then some current else ids.lookup typ

/-- The loop over `el.Fields` that `propInline` and `nextInline` share (lines 111-123 and
177-190): inlines into each field element, then checks the tag against the 256-slot
scratch array `tagsValue`. `nextIn` is the recursive call on a field slot, `plugFields`
rebuilds the top-level element from a field list of this struct. Indexing the array with
a tag of 256 or more is a run-time panic. -/
def inlineFields (nextIn : (Elem → Elem) → Elem → Outcome (Elem × Option Err))
    (plugFields : List SField → Elem) :
    List SField → List SField → List Nat → Option Err → Outcome (List SField × Option Err)
  | done, [], _, err => .ret (done, err)
  | done, f :: rest, tagsValue, err =>
    match nextIn (fun x => plugFields (done ++ { f with FieldElem := x } :: rest)) f.FieldElem with
    | .diverge => .diverge
    | .panic => .panic
    | .ret (e, err2) =>
      let err1 := match err2 with
        | some e2 => some e2
        | none => err
      if f.FieldTag < 256 then
        if tagsValue.getD f.FieldTag 0 ≠ 0 then
          inlineFields nextIn plugFields (done ++ [{ f with FieldElem := e }]) rest tagsValue
            (some .tagRepeated)
        else
          inlineFields nextIn plugFields (done ++ [{ f with FieldElem := e }]) rest
            (tagsValue.set f.FieldTag f.FieldTag) err1
      else .panic

/-- The function `nextInline(ref, root)` while the top-level element named `top` is being
rewritten. The pointer `ref` is the pair of `plug`, which rebuilds the top-level element
from a value for the slot, and `cur`, the value in the slot. The result is the new value
of the slot with the returned error. The test `node == *ref` compares the identity of a
table entry with that of the referring scalar, which never holds on owned trees. -/
def nextInline (ids : List (String × Elem)) (top : String) :
    Nat → (Elem → Elem) → Elem → String → Outcome (Elem × Option Err)
  | 0, _, _, _ => .diverge
  | fuel + 1, plug, cur, root =>
    match cur with
    | .BaseElem a v =>
      let typ := (Elem.BaseElem a v).TypeName
      if v = .IDENT ∧ typ ≠ root then
        match lookupIdentity ids top (plug cur) typ with
        | some node =>
          if node.Complexity < maxComplex then
            nextInline ids top fuel plug node.Copy node.TypeName
          else .ret (cur, none)
        | none =>
          if !(Elem.BaseElem a v).Resolved then .ret (cur, some (.unresolvedIdentifier typ))
          else .ret (cur, none)
      else .ret (cur, none)
    | .Struct a fields =>
      match inlineFields (fun p e => nextInline ids top fuel p e root)
          (fun fs1 => plug (.Struct a fs1)) [] fields (List.replicate 256 0) none with
      | .ret (fs1, _) => .ret (.Struct a fs1, none)
      | .panic => .panic
      | .diverge => .diverge
    | .Array a sz els =>
      match nextInline ids top fuel (fun x => plug (.Array a sz x)) els root with
      | .ret (e, err) => .ret (.Array a sz e, err)
      | .panic => .panic
      | .diverge => .diverge
    | .Slice a els =>
      match nextInline ids top fuel (fun x => plug (.Slice a x)) els root with
      | .ret (e, err) => .ret (.Slice a e, err)
      | .panic => .panic
      | .diverge => .diverge
    | .Map a k value =>
      match nextInline ids top fuel (fun x => plug (.Map a k x)) value root with
      | .ret (e, err) => .ret (.Map a k e, err)
      | .panic => .panic
      | .diverge => .diverge
    | .Ptr a value =>
      match nextInline ids top fuel (fun x => plug (.Ptr a x)) value root with
      | .ret (e, err) => .ret (.Ptr a e, err)
      | .panic => .panic
      | .diverge => .diverge
    | .CsharpString _ => .ret (cur, none)
    | .NilPlaceholder _ => .ret (cur, some .badElemType)

/-- Lexicographic comparison of character lists by code point. -/
def charsLess : List Char → List Char → Bool
  | [], [] => false
  | [], _ :: _ => true
  | _ :: _, [] => false
  | a :: as, b :: bs =>
    if a.toNat < b.toNat then true
    else if b.toNat < a.toNat then false
    else charsLess as bs

/-- The comparison `s < t` of two Go strings (bytewise, which on valid UTF-8 is the order
by code point). -/
def stringLess (s t : String) : Bool := charsLess s.toList t.toList

/-- The comparison of the `sort.Slice` call of `propInline`: complexity first, the name as
tie-breaker. -/
def gelemLess (x y : String × Elem) : Bool :=
  x.2.Complexity < y.2.Complexity || (x.2.Complexity == y.2.Complexity && stringLess x.1 y.1)

/-- Insertion into a list ordered by `gelemLess`. -/
def insertGelem (x : String × Elem) : List (String × Elem) → List (String × Elem)
  | [] => [x]
  | y :: ys => if gelemLess x y then x :: y :: ys else y :: insertGelem x ys

/-- The slice `all` of `propInline` after `sort.Slice`. -/
def sortGelems : List (String × Elem) → List (String × Elem)
  | [] => []
  | x :: xs => insertGelem x (sortGelems xs)

/-- The body of the loop `for i := range all` of `propInline` for the entry `name`, whose
element is the one the table holds: the rewritten element and the value of `err`. -/
def propInlineElem (ids : List (String × Elem)) (fuel : Nat) (name : String) (el : Elem) :
    Outcome (Elem × Option Err) :=
  match el with
  | .Struct a fields =>
    match inlineFields (fun p e => nextInline ids name fuel p e name)
        (fun fs1 => .Struct a fs1) [] fields (List.replicate 256 0) none with
    | .ret (fs1, err) => .ret (.Struct a fs1, err)
    | .panic => .panic
    | .diverge => .diverge
  | .Array a sz els =>
    match nextInline ids name fuel (fun x => .Array a sz x) els name with
    | .ret (e, err) => .ret (.Array a sz e, err)
    | .panic => .panic
    | .diverge => .diverge
  | .Slice a els =>
    match nextInline ids name fuel (fun x => .Slice a x) els name with
    | .ret (e, err) => .ret (.Slice a e, err)
    | .panic => .panic
    | .diverge => .diverge
  | .Map a k value =>
    match nextInline ids name fuel (fun x => .Map a k x) value name with
    | .ret (e, err) => .ret (.Map a k e, err)
    | .panic => .panic
    | .diverge => .diverge
  | .Ptr a value =>
    match nextInline ids name fuel (fun x => .Ptr a x) value name with
    | .ret (e, err) => .ret (.Ptr a e, err)
    | .panic => .panic
    | .diverge => .diverge
  | e => .ret (e, none)

/-- The loop `for i := range all` of `propInline` over the sorted names: the table it
leaves and the error it returns (`none` for nil). -/
def propInlineLoop (fuel : Nat) :
    List String → List (String × Elem) → Outcome (List (String × Elem) × Option Err)
  | [], ids => .ret (ids, none)
  | name :: rest, ids =>
    match ids.lookup name with
    | none => propInlineLoop fuel rest ids
    | some el =>
      match propInlineElem ids fuel name el with
      | .diverge => .diverge
      | .panic => .panic
      | .ret (el1, some err) => .ret (mapSet ids name el1, some err)
      | .ret (el1, none) => propInlineLoop fuel rest (mapSet ids name el1)

/-- The function `propInline` on the table of identities. -/
def propInline (fuel : Nat) (ids : List (String × Elem)) :
    Outcome (List (String × Elem) × Option Err) :=
  propInlineLoop fuel ((sortGelems ids).map (fun g => g.1)) ids

/-- The tags of a field list, in order. -/
def fieldTags (fields : List SField) : List Nat := fields.map (fun f => f.FieldTag)

/-! ## Example declarations -/

/-- A field with the given tag, name and element and no annotation. -/
def mkField (tag : Nat) (name : String) (e : Elem) : SField :=
  { FieldTag := tag, FieldTagParts := [], RawTag := "", FieldName := name, FieldElem := e }

/-- The tag literal of the annotation msg:"body". -/
def msgTag (body : String) : TagLit :=
  { Value := "`msg:\"" ++ body ++ "\"`", pairs := [("msg", body)] }

/-- The field an annotated declaration `name typ` with annotation msg:"body" gives. -/
def mkTagged (tag : Nat) (body : String) (name : String) (e : Elem) : SField :=
  { FieldTag := tag, FieldTagParts := [body], RawTag := (msgTag body).Value,
    FieldName := name, FieldElem := e }

/-- The map iteration order that enumerates a pending set as it is listed. -/
def listOrder : Nat → List (String × Elem) → List (String × Elem) := fun _ ls => ls

/-- The unit `type S struct { A string; C string }` with A annotated msg:"0" and C
annotated msg:"3" (the scenario of §8). -/
def declS : FileSet :=
  { Specs := [("S", .StructType
      [{ Names := ["A"], Typ := .Ident "string", Tag := some (msgTag "0") },
       { Names := ["C"], Typ := .Ident "string", Tag := some (msgTag "3") }])],
    Identities := [], Directives := [], tagName := "" }

/-- The table `process` builds for `declS`. -/
def tableS : List (String × Elem) :=
  [("S", .Struct "S" [mkTagged 0 "0" "A" (.BaseElem "" .String),
                      mkTagged 3 "3" "C" (.BaseElem "" .String)])]

/-- The unit `type S struct { A int; B int }` with both fields annotated msg:"0". -/
def declDupZero : FileSet :=
  { Specs := [("S", .StructType
      [{ Names := ["A"], Typ := .Ident "int", Tag := some (msgTag "0") },
       { Names := ["B"], Typ := .Ident "int", Tag := some (msgTag "0") }])],
    Identities := [], Directives := [], tagName := "" }

/-- The table `process` builds for `declDupZero`. -/
def tableDupZero : List (String × Elem) :=
  [("S", .Struct "S" [mkTagged 0 "0" "A" (.BaseElem "" .Int),
                      mkTagged 0 "0" "B" (.BaseElem "" .Int)])]

/-- The unit `type S struct { A int; B int }` with A annotated msg:"1" and B annotated
msg:"0". -/
def declSwapped : FileSet :=
  { Specs := [("S", .StructType
      [{ Names := ["A"], Typ := .Ident "int", Tag := some (msgTag "1") },
       { Names := ["B"], Typ := .Ident "int", Tag := some (msgTag "0") }])],
    Identities := [], Directives := [], tagName := "" }

/-- The table `process` builds for `declSwapped`. -/
def tableSwapped : List (String × Elem) :=
  [("S", .Struct "S" [mkTagged 1 "1" "A" (.BaseElem "" .Int),
                      mkTagged 0 "0" "B" (.BaseElem "" .Int)])]

/-- The unit `type S struct { X struct { A int; B int } }` whose inner fields are both
annotated msg:"3". -/
def declNestedDup : FileSet :=
  { Specs := [("S", .StructType
      [{ Names := ["X"], Typ := .StructType
          [{ Names := ["A"], Typ := .Ident "int", Tag := some (msgTag "3") },
           { Names := ["B"], Typ := .Ident "int", Tag := some (msgTag "3") }],
         Tag := none }])],
    Identities := [], Directives := [], tagName := "" }

/-- The table `process` builds for `declNestedDup`. -/
def tableNestedDup : List (String × Elem) :=
  [("S", .Struct "S" [mkField 0 "X" (.Struct ""
      [mkTagged 3 "3" "A" (.BaseElem "" .Int), mkTagged 3 "3" "B" (.BaseElem "" .Int)])])]

/-- The unit `type S struct { A int }` with A annotated msg:"65535". -/
def declMaxTag : FileSet :=
  { Specs := [("S", .StructType
      [{ Names := ["A"], Typ := .Ident "int", Tag := some (msgTag "65535") }])],
    Identities := [], Directives := [], tagName := "" }

/-- The table `process` builds for `declMaxTag`. -/
def tableMaxTag : List (String × Elem) :=
  [("S", .Struct "S" [mkTagged 65535 "65535" "A" (.BaseElem "" .Int)])]

/-- The unit `type R []T; type T []R`. -/
def declRT : FileSet :=
  { Specs := [("R", .ArrayType none (.Ident "T")), ("T", .ArrayType none (.Ident "R"))],
    Identities := [], Directives := [], tagName := "" }

/-- The table `process` builds for `declRT`. -/
def tableRT : List (String × Elem) :=
  [("R", .Slice "R" (.BaseElem "T" .IDENT)), ("T", .Slice "T" (.BaseElem "R" .IDENT))]

/-- The unit `type A struct { Bs []B }; type B struct { Cs []C }; type C struct { Bs []B }`
(the cyclic example A{[]B}, B{[]C}, C{[]B}). -/
def declABC : FileSet :=
  { Specs :=
      [("A", .StructType [{ Names := ["Bs"], Typ := .ArrayType none (.Ident "B"), Tag := none }]),
       ("B", .StructType [{ Names := ["Cs"], Typ := .ArrayType none (.Ident "C"), Tag := none }]),
       ("C", .StructType [{ Names := ["Bs"], Typ := .ArrayType none (.Ident "B"), Tag := none }])],
    Identities := [], Directives := [], tagName := "" }

/-- The element `process` builds for `B` of `declABC`. -/
def elemB : Elem := .Struct "B" [mkField 0 "Cs" (.Slice "" (.BaseElem "C" .IDENT))]

/-- The element `process` builds for `C` of `declABC`. -/
def elemC : Elem := .Struct "C" [mkField 0 "Bs" (.Slice "" (.BaseElem "B" .IDENT))]

/-- The table `process` builds for `declABC`. -/
def tableABC : List (String × Elem) :=
  [("A", .Struct "A" [mkField 0 "Bs" (.Slice "" (.BaseElem "B" .IDENT))]),
   ("B", elemB), ("C", elemC)]

/-! ## Reading an element: leaves in value positions and the frame around them -/

mutual
/-- The leaves of an element in value positions, left to right: the element itself when
it is a leaf, otherwise the leaves under an optional target, a map value, a slice or
array element, or the fields of a struct. Map keys are not value positions. -/
def valueLeaves : Elem → List Elem
  | .BaseElem a v => [.BaseElem a v]
  | .CsharpString a => [.CsharpString a]
  | .NilPlaceholder a => [.NilPlaceholder a]
  | .Ptr _ v => valueLeaves v
  | .Map _ _ v => valueLeaves v
  | .Slice _ e => valueLeaves e
  | .Array _ _ e => valueLeaves e
  | .Struct _ fs => fieldsLeaves fs
/-- The value-position leaves of the fields of a struct. -/
def fieldsLeaves : List SField → List Elem
  | [] => []
  | f :: fs => valueLeaves f.FieldElem ++ fieldsLeaves fs
end

mutual
/-- The frame of an element: the element with every value-position leaf blanked. It
keeps the containers, their type names and sizes, whole map keys, and the tag, name and
annotation of every field. -/
def frame : Elem → Elem
  | .BaseElem _ _ => .NilPlaceholder ""
  | .CsharpString _ => .NilPlaceholder ""
  | .NilPlaceholder _ => .NilPlaceholder ""
  | .Ptr a v => .Ptr a (frame v)
  | .Map a k v => .Map a k (frame v)
  | .Slice a e => .Slice a (frame e)
  | .Array a sz e => .Array a sz (frame e)
  | .Struct a fs => .Struct a (frameFields fs)
/-- The frames of the fields of a struct. -/
def frameFields : List SField → List SField
  | [] => []
  | f :: fs => { f with FieldElem := frame f.FieldElem } :: frameFields fs
end

/-- What the localized-string normalisation is to do to a leaf: a plain string scalar
becomes a `CsharpString`, every other leaf stays. -/
def localizeLeaf : Elem → Elem
  | .BaseElem a v => if v = .String then .CsharpString "" else .BaseElem a v
  | e => e

/-- The annotation parts of a field, the slice `tags` of `getField`; empty when the field
has no tag literal. -/
def annotationParts (fs : FileSet) (f : Field Expr) : List String :=
  match f.Tag with
  | some t => stringsSplitComma (tagBody fs.tagName t)
  | none => []

/-- The field declaration `A int` annotated msg:"3". -/
def fieldA3 : Field Expr := { Names := ["A"], Typ := .Ident "int", Tag := some (msgTag "3") }

/-- The field declaration `A int` without annotation. -/
def fieldPlain : Field Expr := { Names := ["A"], Typ := .Ident "int", Tag := none }

/-! ## Alias chains -/

/-- The name `t` heads an alias chain ending in the primitive kind `prim`: it is declared
as just the name of a primitive of that kind, or as just the name `u` of another such
type (a name that is not itself the name of a primitive). -/
inductive AliasChain (specs : List (String × Expr)) (prim : Primitive) : String → Prop
  | base (t pname : String) (hdecl : (t, Expr.Ident pname) ∈ specs)
      (hprim : primitives.lookup pname = some prim) : AliasChain specs prim t
  | step (t u : String) (hdecl : (t, Expr.Ident u) ∈ specs)
      (hname : primitives.lookup u = none) (hrest : AliasChain specs prim u) :
      AliasChain specs prim t

/-- Every chain name is either resolved in the table to a scalar of the primitive kind
aliased to it, or absent from the table and pending in the sense of `P`. -/
def ChainInv (specs : List (String × Expr)) (prim : Primitive) (ids : List (String × Elem))
    (P : String → Prop) : Prop :=
  ∀ t, AliasChain specs prim t →
    ids.lookup t = some (.BaseElem t prim) ∨ (ids.lookup t = none ∧ P t)

/-- Every pending entry of a chain name is the unresolved identifier of the next name of
the chain. -/
def PendingOk (specs : List (String × Expr)) (prim : Primitive)
    (ls : List (String × Elem)) : Prop :=
  ∀ n e, (n, e) ∈ ls → AliasChain specs prim n →
    ∃ u, e = .BaseElem u .IDENT ∧ AliasChain specs prim u

/-- The unit `type D C; type C B; type B A; type A int32` (the scenario of §8). -/
def declChain : FileSet :=
  { Specs := [("D", .Ident "C"), ("C", .Ident "B"), ("B", .Ident "A"), ("A", .Ident "int32")],
    Identities := [], Directives := [], tagName := "" }

/-- The table `process` builds for `declChain`. -/
def tableChain : List (String × Elem) :=
  [("A", .BaseElem "A" .Int32), ("B", .BaseElem "B" .Int32), ("C", .BaseElem "C" .Int32),
   ("D", .BaseElem "D" .Int32)]

/-- The element of a field `map[string][]string`. -/
def elemMapStrings : Elem :=
  .Map "" (.BaseElem "" .String) (.Slice "" (.BaseElem "" .String))

/-- A table whose struct `S` has two fields both tagged 3. -/
def tableDupThree : List (String × Elem) :=
  [("S", .Struct "S" [mkTagged 3 "3" "A" (.BaseElem "" .Int),
                      mkTagged 3 "3" "B" (.BaseElem "" .Int)])]

/-! ## Example declarations for the builder and the inlining pass -/

/-- The field declaration `A, B int` without annotation. -/
def fieldAB : Field Expr := { Names := ["A", "B"], Typ := .Ident "int", Tag := none }

/-- The unit `type S struct { A, B int }`. -/
def declAB : FileSet :=
  { Specs := [("S", .StructType [fieldAB])], Identities := [], Directives := [],
    tagName := "" }

/-- The unit `type S struct { X struct { Y Missing } }`, where `Missing` is declared
nowhere. -/
def declNestedMissing : FileSet :=
  { Specs := [("S", .StructType
      [{ Names := ["X"], Typ := .StructType
          [{ Names := ["Y"], Typ := .Ident "Missing", Tag := none }], Tag := none }])],
    Identities := [], Directives := [], tagName := "" }

/-- The table `process` builds for `declNestedMissing`. -/
def tableNestedMissing : List (String × Elem) :=
  [("S", .Struct "S" [mkField 0 "X"
      (.Struct "" [mkField 0 "Y" (.BaseElem "Missing" .IDENT)])])]

/-- The unit `type S struct { Y Missing }`, where `Missing` is declared nowhere. -/
def declTopMissing : FileSet :=
  { Specs := [("S", .StructType [{ Names := ["Y"], Typ := .Ident "Missing", Tag := none }])],
    Identities := [], Directives := [], tagName := "" }

/-- The table `process` builds for `declTopMissing`. -/
def tableTopMissing : List (String × Elem) :=
  [("S", .Struct "S" [mkField 0 "Y" (.BaseElem "Missing" .IDENT)])]

/-- The unit `type intflag bool; type M map[intflag]string`. -/
def declBoolKey : FileSet :=
  { Specs := [("intflag", .Ident "bool"),
              ("M", .MapType (.Ident "intflag") (.Ident "string"))],
    Identities := [], Directives := [], tagName := "" }

/-- The table `process` builds for `declBoolKey`. -/
def tableBoolKey : List (String × Elem) :=
  [("intflag", .BaseElem "intflag" .Bool),
   ("M", .Map "M" (.BaseElem "intflag" .IDENT) (.BaseElem "" .String))]

/-- The anonymous field `EmbeddableStructAN` annotated msg:"32,flatten" of `AllowNil0`. -/
def fieldEmbedFlat : Field Expr :=
  { Names := [], Typ := .Ident "EmbeddableStructAN", Tag := some (msgTag "32,flatten") }

/-- The declaration `type EmbeddableStructAN struct { SomeEmbed []string; SomeInt32
[]int32 }` of msgdef.go. -/
def declEmbeddable : FileSet :=
  { Specs := [("EmbeddableStructAN", .StructType
      [{ Names := ["SomeEmbed"], Typ := .ArrayType none (.Ident "string"), Tag := none },
       { Names := ["SomeInt32"], Typ := .ArrayType none (.Ident "int32"), Tag := none }])],
    Identities := [], Directives := [], tagName := "" }

/-- The field declaration `A int` annotated msg:"-". -/
def fieldSkipped : Field Expr :=
  { Names := ["A"], Typ := .Ident "int", Tag := some (msgTag "-") }

/-- The unit `type N []int; type A struct { X int; Y int }; type B struct { F N; G int;
H int }` with X and Y both annotated msg:"3". -/
def declAcc : FileSet :=
  { Specs := [("N", .ArrayType none (.Ident "int")),
              ("A", .StructType
                [{ Names := ["X"], Typ := .Ident "int", Tag := some (msgTag "3") },
                 { Names := ["Y"], Typ := .Ident "int", Tag := some (msgTag "3") }]),
              ("B", .StructType
                [{ Names := ["F"], Typ := .Ident "N", Tag := none },
                 { Names := ["G"], Typ := .Ident "int", Tag := none },
                 { Names := ["H"], Typ := .Ident "int", Tag := none }])],
    Identities := [], Directives := [], tagName := "" }

/-- The element `process` builds for `B` of `declAcc`. -/
def elemAccB : Elem :=
  .Struct "B" [mkField 0 "F" (.BaseElem "N" .IDENT), mkField 1 "G" (.BaseElem "" .Int),
    mkField 2 "H" (.BaseElem "" .Int)]

/-- The table `process` builds for `declAcc`. -/
def tableAcc : List (String × Elem) :=
  [("N", .Slice "N" (.BaseElem "" .Int)),
   ("A", .Struct "A" [mkTagged 3 "3" "X" (.BaseElem "" .Int),
                      mkTagged 3 "3" "Y" (.BaseElem "" .Int)]),
   ("B", elemAccB)]

/-- A table whose struct `S` has two fields tagged 3 followed by a field referring to the
inlinable type `N`. -/
def tableAccWithin : List (String × Elem) :=
  [("N", .Slice "N" (.BaseElem "" .Int)),
   ("S", .Struct "S" [mkField 3 "X" (.BaseElem "" .Int), mkField 3 "Y" (.BaseElem "" .Int),
      mkField 4 "F" (.BaseElem "N" .IDENT)])]

/-! ## Optional nodes -/

mutual
/-- The element is or contains an Optional (`gen.Ptr`) node. -/
def hasOptional : Elem → Bool
  | .Ptr _ _ => true
  | .BaseElem _ _ => false
  | .CsharpString _ => false
  | .NilPlaceholder _ => false
  | .Slice _ e => hasOptional e
  | .Array _ _ e => hasOptional e
  | .Map _ k v => hasOptional k || hasOptional v
  | .Struct _ fs => fieldsHaveOptional fs
/-- Some field element is or contains an Optional node. -/
def fieldsHaveOptional : List SField → Bool
  | [] => false
  | f :: fs => hasOptional f.FieldElem || fieldsHaveOptional fs
end

/-- The fragment `map[[N+1]int]*T`: the key is an array whose length is a computed
expression, the value a pointer. -/
def exprPtrValue : Expr :=
  .MapType (.ArrayType (some .Other) (.Ident "int")) (.StarExpr (.Ident "T"))

/-- The unit `type M map[[N+1]int]*T`. -/
def declPtrValue : FileSet :=
  { Specs := [("M", exprPtrValue)], Identities := [], Directives := [], tagName := "" }

/-- The field declaration `P *T` without annotation. -/
def fieldPtr : Field Expr := { Names := ["P"], Typ := .StarExpr (.Ident "T"), Tag := none }

/-- The alias target chain of the pending name `n` reaches the finished table `ids`: its
target is a name of the table, or a pending name whose own chain reaches it. -/
inductive Reaches (ids ls : List (String × Elem)) : String → Prop
  | direct (n : String) (e : Elem) (hpend : (n, e) ∈ ls)
      (hin : e.TypeName ∈ ids.map Prod.fst) : Reaches ids ls n
  | via (n : String) (e : Elem) (hpend : (n, e) ∈ ls)
      (hnext : Reaches ids ls e.TypeName) : Reaches ids ls n

/-- The state of `resolve` when the table is `idsc` and the entries still pending are
those satisfying `P`: the pending entries come from `ls`, every entry of `ls` no longer
pending has a chain that reaches the table, and the names of the table are those it
started with together with the names no longer pending. -/
def ResolveInv (ids ls idsc : List (String × Elem)) (P : String × Elem → Prop) : Prop :=
  (∀ x, P x → x ∈ ls) ∧
  (∀ x, x ∈ ls → ¬ P x → Reaches ids ls x.1) ∧
  (∀ t, t ∈ idsc.map Prod.fst ↔
    (t ∈ ids.map Prod.fst ∨ ∃ e, (t, e) ∈ ls ∧ ¬ P (t, e)))

/-- The table of the unit `type A int32` before the resolver runs. -/
def idsPending : List (String × Elem) := [("A", .BaseElem "A" .Int32)]

/-- The pending links of the declarations `type B A`, `type C C` (a self-alias),
`type D E` and `type E D` (an alias cycle), `type F Missing` (an alias of an undeclared
name) and `type G B`. -/
def linksPending : List (String × Elem) :=
  [("B", .BaseElem "A" .IDENT), ("C", .BaseElem "C" .IDENT), ("D", .BaseElem "E" .IDENT),
   ("E", .BaseElem "D" .IDENT), ("F", .BaseElem "Missing" .IDENT),
   ("G", .BaseElem "B" .IDENT)]

/-- The table the resolver leaves for `idsPending` and `linksPending`. -/
def tablePending : List (String × Elem) :=
  [("A", .BaseElem "A" .Int32), ("B", .BaseElem "B" .Int32), ("G", .BaseElem "G" .Int32)]

/-- The element the resolver stores for the pending name `n`: the copy, renamed to `n`,
of the element of its target, which is taken from the table `ids` or is the element
stored for the pending name the target is. -/
inductive Resolves (ids ls : List (String × Elem)) : String → Elem → Prop
  | direct (n : String) (e real : Elem) (hpend : (n, e) ∈ ls)
      (hin : ids.lookup e.TypeName = some real) : Resolves ids ls n (real.Copy.Alias n)
  | via (n : String) (e real : Elem) (hpend : (n, e) ∈ ls)
      (hnext : Resolves ids ls e.TypeName real) : Resolves ids ls n (real.Copy.Alias n)

/-- Every entry of the table `idsc` is an entry of the table `ids` the resolver started
from or the element the resolver stores for a pending name. -/
def ResolveVals (ids ls idsc : List (String × Elem)) : Prop :=
  ∀ t v, idsc.lookup t = some v → (ids.lookup t = some v ∨ Resolves ids ls t v)

/-- A map iteration order that enumerates the pending entries backwards. -/
def reverseOrder : Nat → List (String × Elem) → List (String × Elem) := fun _ ls => ls.reverse

/-! ## Fragments without translation -/

/-- A length expression for which the array case of `parseExpr` returns no element: any
expression other than a literal, an identifier or a selector. -/
def lenUntranslated : Option Expr → Bool
  | none => false
  | some (.BasicLit _) => false
  | some (.Ident _) => false
  | some (.SelectorExpr _ _) => false
  | some _ => true

/-- The fragments for which `parseExpr` can return neither an element nor an error: an
array whose length is an expression other than a literal, an identifier or a selector,
and a slice or array whose element, or a map whose key, is such a fragment. -/
def untranslated : Expr → Bool
  | .ArrayType len elt => untranslated elt || lenUntranslated len
  | .MapType key _ => untranslated key
  | _ => false

/-- The fragment `[N+1]int`, an array whose length is a computed expression. -/
def exprComputedLen : Expr := .ArrayType (some .Other) (.Ident "int")

/-- The unit `type T [N+1]int; type S struct { A [N+1]int; B int }`. -/
def declComputedLen : FileSet :=
  { Specs := [("T", exprComputedLen),
              ("S", .StructType [{ Names := ["A"], Typ := exprComputedLen, Tag := none },
                                 { Names := ["B"], Typ := .Ident "int", Tag := none }])],
    Identities := [], Directives := [], tagName := "" }

/-- The field declaration `A int` annotated msg:"-,flatten". -/
def fieldSkipFlatten : Field Expr :=
  { Names := ["A"], Typ := .Ident "int", Tag := some (msgTag "-,flatten") }

/-- The field declaration `A EmbeddableStructAN` annotated msg:"32,flatten": a flatten
annotation on a named field. -/
def fieldNamedFlat : Field Expr :=
  { Names := ["A"], Typ := .Ident "EmbeddableStructAN", Tag := some (msgTag "32,flatten") }

/-- The anonymous field `pkg.T` annotated msg:",flatten". -/
def fieldSelectorFlat : Field Expr :=
  { Names := [], Typ := .SelectorExpr (.Ident "pkg") "T", Tag := some (msgTag ",flatten") }

/-- The anonymous field `Missing` annotated msg:",flatten", a name the unit does not
declare. -/
def fieldMissingFlat : Field Expr :=
  { Names := [], Typ := .Ident "Missing", Tag := some (msgTag ",flatten") }

/-! ## getast.go: the two directive phases -/

/-- The call `strings.Split(d, " ")`. -/
def stringsSplitSpace (s : String) : List String :=
  (splitChars ' ' s.toList).map String.mk

/-- The registries `directives` and `earlyDirectives` are not under src/ and are taken as
a parameter: a map from the first token of a line to its handler, which gets the tokens
of the line and the file set and returns an error or the file set it leaves. -/
def Registry : Type := List (String × (List String → FileSet → Except Err FileSet))

/-- The loop `for _, d := range f.Directives` that `applyDirectives` and
`applyEarlyDirectives` share: the file set the handlers leave and the slice `newdirs`, or
the wrapped error of the first handler that fails. A line without any token is passed
over. In `applyDirectives` the error is wrapped as "directive %v error: %w", in
`applyEarlyDirectives` as "early directive error: %w" (`wrap`). -/
def directiveLoop (registry : Registry) (wrap : List String → Err → Err) :
    List String → FileSet → List String → Except Err (FileSet × List String)
  | [], f, newdirs => .ok (f, newdirs)
  | d :: rest, f, newdirs =>
    let chunks := stringsSplitSpace d
    if chunks.length > 0 then
      match registry.lookup (chunks.headD "") with
      | some fn =>
        match fn chunks f with
        | .error err => .error (wrap chunks err)
        | .ok f1 => directiveLoop registry wrap rest f1 newdirs
      | none => directiveLoop registry wrap rest f (newdirs ++ [d])
    else directiveLoop registry wrap rest f newdirs

/-- The function `applyDirectives`, over the registry `directives`. -/
def applyDirectives (directives : Registry) (f : FileSet) : Except Err FileSet :=
  match directiveLoop directives (fun chunks err => .directiveError chunks err)
      f.Directives f [] with
  | .error err => .error err
  | .ok (f1, newdirs) => .ok { f1 with Directives := newdirs }

/-- The function `applyEarlyDirectives`, over the registry `earlyDirectives`. -/
def applyEarlyDirectives (earlyDirectives : Registry) (f : FileSet) : Except Err FileSet :=
  match directiveLoop earlyDirectives (fun _ err => .earlyDirectiveError err)
      f.Directives f [] with
  | .error err => .error err
  | .ok (f1, newdirs) => .ok { f1 with Directives := newdirs }

/-- The first space-separated token of a line. -/
def firstToken (d : String) : String := (stringsSplitSpace d).headD ""

/-- The first token of the line is in the registry. -/
def matched (registry : Registry) (d : String) : Bool :=
  (registry.lookup (firstToken d)).isSome

/-- The handlers of the given lines invoked once each, in line order, each on the file
set the one before left; the first error ends the run. A line whose first token has no
handler is passed over. -/
def invokeAll (registry : Registry) (wrap : List String → Err → Err) :
    List String → FileSet → Except Err FileSet
  | [], f => .ok f
  | d :: rest, f =>
    match registry.lookup (firstToken d) with
    | some fn =>
      match fn (stringsSplitSpace d) f with
      | .error err => .error (wrap (stringsSplitSpace d) err)
      | .ok f1 => invokeAll registry wrap rest f1
    | none => invokeAll registry wrap rest f

/-- An early registry with the handler of `tag`, which selects the annotation namespace
named by the second token. -/
def earlyExample : Registry :=
  [("tag", fun chunks f => .ok { f with tagName := (chunks.tail).headD "" })]

/-- A late registry with the handler of `ignore`, which removes the types named by the
tokens after the first from the table. -/
def lateExample : Registry :=
  [("ignore", fun chunks f =>
    .ok { f with Identities := f.Identities.filter (fun p => !(chunks.tail).contains p.1) })]

/-- A unit holding the declared types A and B and four directive lines. -/
def declDirectives : FileSet :=
  { Specs := [], Identities := [("A", .BaseElem "A" .Int), ("B", .BaseElem "B" .Int)],
    Directives := ["encode ignore A", "tag mytag", "ignore B", "tuple A"], tagName := "" }

/-! ## Example declarations for nested structs and large tags -/

/-- The unit `type T struct { A int; C int }; type S struct { F T; X struct { A int;
C int } }` where A is annotated msg:"0" and C is annotated msg:"2", in `T` and in the
anonymous struct. -/
def declNestedGap : FileSet :=
  { Specs := [("T", .StructType
                [{ Names := ["A"], Typ := .Ident "int", Tag := some (msgTag "0") },
                 { Names := ["C"], Typ := .Ident "int", Tag := some (msgTag "2") }]),
              ("S", .StructType
                [{ Names := ["F"], Typ := .Ident "T", Tag := none },
                 { Names := ["X"], Typ := .StructType
                    [{ Names := ["A"], Typ := .Ident "int", Tag := some (msgTag "0") },
                     { Names := ["C"], Typ := .Ident "int", Tag := some (msgTag "2") }],
                   Tag := none }])],
    Identities := [], Directives := [], tagName := "" }

/-- The two fields A tagged 0 and C tagged 2 of `declNestedGap`. -/
def fieldsGap : List SField :=
  [mkTagged 0 "0" "A" (.BaseElem "" .Int), mkTagged 2 "2" "C" (.BaseElem "" .Int)]

/-- The table `process` builds for `declNestedGap`. -/
def tableNestedGap : List (String × Elem) :=
  [("T", .Struct "T" fieldsGap),
   ("S", .Struct "S" [mkField 0 "F" (.BaseElem "T" .IDENT),
                      mkField 1 "X" (.Struct "" fieldsGap)])]

/-- The table `propInline` leaves for `tableNestedGap`: the definition of `T` is copied
into the field F. -/
def tableNestedGapInlined : List (String × Elem) :=
  [("T", .Struct "T" fieldsGap),
   ("S", .Struct "S" [mkField 0 "F" (.Struct "T" fieldsGap),
                      mkField 1 "X" (.Struct "" fieldsGap)])]

/-- The unit `type S struct { A int; B int }` with both fields annotated msg:"300". -/
def declTag300 : FileSet :=
  { Specs := [("S", .StructType
      [{ Names := ["A"], Typ := .Ident "int", Tag := some (msgTag "300") },
       { Names := ["B"], Typ := .Ident "int", Tag := some (msgTag "300") }])],
    Identities := [], Directives := [], tagName := "" }

/-- The table `process` builds for `declTag300`. -/
def tableTag300 : List (String × Elem) :=
  [("S", .Struct "S" [mkTagged 300 "300" "A" (.BaseElem "" .Int),
                      mkTagged 300 "300" "B" (.BaseElem "" .Int)])]

/-- The unit `type S struct { A int }` with A annotated msg:"256". -/
def declTag256 : FileSet :=
  { Specs := [("S", .StructType
      [{ Names := ["A"], Typ := .Ident "int", Tag := some (msgTag "256") }])],
    Identities := [], Directives := [], tagName := "" }

/-- The table `process` builds for `declTag256`. -/
def tableTag256 : List (String × Elem) :=
  [("S", .Struct "S" [mkTagged 256 "256" "A" (.BaseElem "" .Int)])]

/-- The unit `type S struct { X struct { A int } }` with A annotated msg:"300". -/
def declNestedTag300 : FileSet :=
  { Specs := [("S", .StructType
      [{ Names := ["X"], Typ := .StructType
          [{ Names := ["A"], Typ := .Ident "int", Tag := some (msgTag "300") }],
         Tag := none }])],
    Identities := [], Directives := [], tagName := "" }

/-- The table `process` builds for `declNestedTag300`. -/
def tableNestedTag300 : List (String × Elem) :=
  [("S", .Struct "S" [mkField 0 "X" (.Struct ""
      [mkTagged 300 "300" "A" (.BaseElem "" .Int)])])]

/-! ## The struct `AllowNil0` of msgdef.go -/

/-- A field declaration `name typ` annotated msg:"body". -/
def annotated (name : String) (typ : Expr) (body : String) : Field Expr :=
  { Names := [name], Typ := typ, Tag := some (msgTag body) }

/-- The declaration of `AllowNil0` in msgdef.go together with the declarations of that
file it refers to (`EmbeddableStructAN`, `EmbeddableStruct2AN`, `NamedStructAN`,
`NamedString`). The tags 29 and 34 are not declared. -/
def declAllowNil0 : FileSet :=
  { Specs :=
      [("AllowNil0", .StructType
        [annotated "ABool" (.Ident "bool") "0", annotated "AInt" (.Ident "int") "1",
         annotated "AInt8" (.Ident "int8") "2", annotated "AInt16" (.Ident "int16") "3",
         annotated "AInt32" (.Ident "int32") "4", annotated "AInt64" (.Ident "int64") "5",
         annotated "AUint" (.Ident "uint") "6", annotated "AUint8" (.Ident "uint8") "7",
         annotated "AUint16" (.Ident "uint16") "8", annotated "AUint32" (.Ident "uint32") "9",
         annotated "AUint64" (.Ident "uint64") "10",
         annotated "AFloat32" (.Ident "float32") "11",
         annotated "AFloat64" (.Ident "float64") "12",
         annotated "AComplex64" (.Ident "complex64") "13",
         annotated "AComplex128" (.Ident "complex128") "14",
         annotated "ANamedBool" (.Ident "bool") "15",
         annotated "ANamedInt" (.Ident "int") "16",
         annotated "ANamedFloat64" (.Ident "float64") "17",
         annotated "AMapStrStr" (.MapType (.Ident "string") (.Ident "string")) "18",
         annotated "APtrNamedStr" (.Ident "NamedString") "19",
         annotated "AString" (.Ident "string") "20",
         annotated "ANamedString" (.Ident "string") "21",
         annotated "AByteSlice" (.ArrayType none (.Ident "byte")) "22",
         annotated "ASliceString" (.ArrayType none (.Ident "string")) "23",
         annotated "ASliceNamedString" (.ArrayType none (.Ident "NamedString")) "24",
         annotated "ANamedStruct" (.Ident "NamedStructAN") "25",
         annotated "APtrNamedStruct" (.Ident "NamedStructAN") "26",
         annotated "AUnnamedStruct"
           (.StructType [{ Names := ["A"], Typ := .Ident "string", Tag := none }]) "27",
         { Names := [], Typ := .Ident "EmbeddableStructAN", Tag := some (msgTag "32,flatten") },
         { Names := [], Typ := .Ident "EmbeddableStruct2AN", Tag := some (msgTag "28") },
         annotated "AArrayInt" (.ArrayType (some (.BasicLit "5")) (.Ident "int")) "30",
         annotated "ATime" (.SelectorExpr (.Ident "time") "Time") "31",
         annotated "MapStrStr" (.MapType (.Ident "string") (.Ident "string")) "35",
         annotated "MapIntStr" (.MapType (.Ident "int32") (.Ident "string")) "36"]),
       ("EmbeddableStructAN", .StructType
        [{ Names := ["SomeEmbed"], Typ := .ArrayType none (.Ident "string"), Tag := none },
         { Names := ["SomeInt32"], Typ := .ArrayType none (.Ident "int32"), Tag := none }]),
       ("EmbeddableStruct2AN", .StructType
        [{ Names := ["SomeEmbed2"], Typ := .ArrayType none (.Ident "string"), Tag := none }]),
       ("NamedStructAN", .StructType
        [{ Names := ["A"], Typ := .ArrayType none (.Ident "string"), Tag := none },
         { Names := ["B"], Typ := .ArrayType none (.Ident "string"), Tag := none }]),
       ("NamedString", .Ident "string")],
    Identities := [], Directives := [], tagName := "" }

/-- The tags of the struct entry `name` of a table, with the names of its fields; empty
when the entry is no struct. -/
def entryTags (ids : List (String × Elem)) (name : String) : List (Nat × String) :=
  match ids.lookup name with
  | some (.Struct _ fields) => fields.map (fun f => (f.FieldTag, f.FieldName))
  | _ => []

/-- The table `process` builds for `declAllowNil0`. -/
def tableAllowNil0 : List (String × Elem) :=
  match process listOrder 60 declAllowNil0 with
  | some (ids, _) => ids
  | none => []

/-- The table `propInline` leaves for `tableAllowNil0`. -/
def inlinedAllowNil0 : List (String × Elem) :=
  match propInline 60 tableAllowNil0 with
  | .ret (ids, _) => ids
  | _ => []

/-! # Theorems -/

/-! ## The tag normaliser -/

theorem insertByTag_perm (f : SField) : ∀ l : List SField, (insertByTag f l).Perm (f :: l) := by
  intro l
  induction l with
  | nil => exact List.Perm.refl _
  | cons g gs ih =>
    simp only [insertByTag]
    split
    · exact List.Perm.refl _
    · exact (List.Perm.cons g ih).trans (List.Perm.swap f g gs)

theorem sortSlice_perm : ∀ l : List SField, (sortSlice l).Perm l := by
  intro l
  induction l with
  | nil => exact List.Perm.refl _
  | cons f fs ih =>
    simp only [sortSlice]
    exact (insertByTag_perm f _).trans (List.Perm.cons f ih)

theorem insertByTag_sorted (f : SField) :
    ∀ l : List SField, (fieldTags l).Sorted (· ≤ ·) → (fieldTags (insertByTag f l)).Sorted (· ≤ ·) := by
  intro l
  induction l with
  | nil => intro _; simp [insertByTag, fieldTags]
  | cons g gs ih =>
    intro h
    have h0 : fieldTags (g :: gs) = g.FieldTag :: fieldTags gs := rfl
    rw [h0] at h
    have hg : ∀ x ∈ fieldTags gs, g.FieldTag ≤ x := (List.sorted_cons.1 h).1
    have hs : (fieldTags gs).Sorted (· ≤ ·) := (List.sorted_cons.1 h).2
    simp only [insertByTag]
    split
    · rename_i hlt
      have h1 : fieldTags (f :: g :: gs) = f.FieldTag :: g.FieldTag :: fieldTags gs := rfl
      rw [h1]
      refine List.sorted_cons.2 ⟨?_, h⟩
      intro x hx
      rcases List.mem_cons.1 hx with rfl | hx
      · omega
      · have := hg x hx
        omega
    · rename_i hge
      have h1 : fieldTags (g :: insertByTag f gs) = g.FieldTag :: fieldTags (insertByTag f gs) := rfl
      rw [h1]
      refine List.sorted_cons.2 ⟨?_, ih hs⟩
      intro x hx
      have hp : (fieldTags (insertByTag f gs)).Perm (fieldTags (f :: gs)) :=
        (insertByTag_perm f gs).map _
      have hx1 := hp.mem_iff.1 hx
      have h2 : fieldTags (f :: gs) = f.FieldTag :: fieldTags gs := rfl
      rw [h2] at hx1
      rcases List.mem_cons.1 hx1 with rfl | hx1
      · omega
      · exact hg x hx1

theorem sortSlice_sorted : ∀ l : List SField, (fieldTags (sortSlice l)).Sorted (· ≤ ·) := by
  intro l
  induction l with
  | nil => simp [sortSlice, fieldTags]
  | cons f fs ih => exact insertByTag_sorted f _ ih

theorem fieldTags_fixRangeCopy (l : List SField) : fieldTags (fixRangeCopy l) = fieldTags l := by
  simp [fieldTags, fixRangeCopy, List.map_map, Function.comp_def]

theorem foldl_maxTag_ge (l : List SField) : ∀ m : Nat,
    m ≤ l.foldl (fun m f => if f.FieldTag > m then f.FieldTag else m) m ∧
    ∀ f ∈ l, f.FieldTag ≤ l.foldl (fun m f => if f.FieldTag > m then f.FieldTag else m) m := by
  induction l with
  | nil => intro m; simp
  | cons g gs ih =>
    intro m
    simp only [List.foldl_cons, List.mem_cons]
    by_cases hc : g.FieldTag > m
    · simp only [hc, if_true]
      obtain ⟨h1, h2⟩ := ih g.FieldTag
      refine ⟨by omega, ?_⟩
      intro f hf
      rcases hf with rfl | hf
      · exact h1
      · exact h2 f hf
    · simp only [hc, if_false]
      obtain ⟨h1, h2⟩ := ih m
      refine ⟨h1, ?_⟩
      intro f hf
      rcases hf with rfl | hf
      · omega
      · exact h2 f hf

theorem le_maxTag (l : List SField) (f : SField) (hf : f ∈ l) : f.FieldTag ≤ maxTag l :=
  (foldl_maxTag_ge l 0).2 f hf

theorem nodup_bounded_perm_range (l : List Nat) (n : Nat) (hnd : l.Nodup)
    (hb : ∀ x ∈ l, x < n) (hlen : n ≤ l.length) : l.Perm (List.range n) := by
  have hsub : l.Subperm (List.range n) :=
    List.subperm_of_subset hnd (fun x hx => List.mem_range.2 (hb x hx))
  exact hsub.perm_of_length_le (by simpa using hlen)

theorem sorted_perm_range (l : List Nat) (n : Nat) (hs : l.Sorted (· ≤ ·))
    (hp : l.Perm (List.range n)) : l = List.range n :=
  List.eq_of_perm_of_sorted hp hs (List.sorted_lt_range n).le_of_lt

theorem fillLoop_wraps (flagSet : List Nat) :
    ∀ (fuel i : Nat) (fields : List SField), i ≤ 65535 →
      fillLoop flagSet 65535 fuel i fields = none := by
  intro fuel
  induction fuel with
  | zero => intro i fields _; rfl
  | succ n ih =>
    intro i fields hi
    have h1 : (i + 1) % 65536 ≤ 65535 := by omega
    simp only [fillLoop, hi, if_true]
    split <;> exact ih _ _ h1

theorem fillLoop_spec (flagSet : List Nat) (maxId : Nat) (hmax : maxId < 65535) :
    ∀ (n i fuel : Nat) (fields : List SField), i + n = maxId + 1 → n < fuel →
      fillLoop flagSet maxId fuel i fields =
        some (fields ++ ((List.range' i n).filter (fun j => decide (j ∉ flagSet))).map placeholderField) := by
  intro n
  induction n with
  | zero =>
    intro i fuel fields hi hf
    obtain ⟨m, rfl⟩ : ∃ m, fuel = m + 1 := ⟨fuel - 1, by omega⟩
    have : ¬ i ≤ maxId := by omega
    simp [fillLoop, this]
  | succ n ih =>
    intro i fuel fields hi hf
    obtain ⟨m, rfl⟩ : ∃ m, fuel = m + 1 := ⟨fuel - 1, by omega⟩
    have h1 : i ≤ maxId := by omega
    have h2 : (i + 1) % 65536 = i + 1 := by omega
    simp only [fillLoop, h1, if_true, h2]
    by_cases hmem : i ∈ flagSet
    · rw [if_pos hmem, ih (i + 1) m fields (by omega) (by omega)]
      simp [List.range'_succ, List.filter_cons, hmem]
    · rw [if_neg hmem, ih (i + 1) m _ (by omega) (by omega)]
      simp [List.range'_succ, List.filter_cons, hmem]

theorem fieldTags_append (l1 l2 : List SField) :
    fieldTags (l1 ++ l2) = fieldTags l1 ++ fieldTags l2 := by
  simp [fieldTags]

theorem fieldTags_placeholders (l : List Nat) : fieldTags (l.map placeholderField) = l := by
  simp [fieldTags, List.map_map, Function.comp_def, placeholderField]

theorem filled_tags_perm_range (tags : List Nat) (n : Nat) (hnd : tags.Nodup)
    (hb : ∀ x ∈ tags, x < n) :
    (tags ++ (List.range' 0 n).filter (fun j => decide (j ∉ tags))).Perm (List.range n) := by
  have h1 : tags.Perm ((List.range n).filter (fun j => decide (j ∈ tags))) := by
    refine (List.perm_ext_iff_of_nodup hnd ((List.nodup_range n).filter _)).2 ?_
    intro a
    simp only [List.mem_filter, List.mem_range, decide_eq_true_eq]
    exact ⟨fun h => ⟨hb a h, h⟩, fun h => h.2⟩
  have h2 : (List.range' 0 n).filter (fun j => decide (j ∉ tags)) =
      (List.range n).filter (fun j => !decide (j ∈ tags)) := by
    rw [List.range_eq_range']
    congr 1
    funext j
    simp
  rw [h2]
  exact (List.Perm.append_right _ h1).trans (List.filter_append_perm _ _)

theorem sortAndFillFields_gap (fields : List SField) (fuel : Nat) (hne : fields ≠ [])
    (hgap : fields.length ≠ maxTag fields + 1) (hmax : maxTag fields < 65535)
    (hfuel : maxTag fields + 1 < fuel) :
    sortAndFillFields fuel fields =
      some (sortSlice (fixRangeCopy fields ++
        ((List.range' 0 (maxTag fields + 1)).filter
          (fun j => decide (j ∉ fieldTags fields))).map placeholderField)) := by
  have hlen : ¬ fields.length < 1 := by
    cases fields with
    | nil => exact absurd rfl hne
    | cons f fs => simp
  have hgap1 : ¬ maxTag fields + 1 = fields.length := fun h => hgap h.symm
  simp only [sortAndFillFields, hlen, if_false, hgap1]
  rw [fillLoop_spec _ _ hmax (maxTag fields + 1) 0 fuel _ (by omega) hfuel]
  rfl

theorem process_declS : process listOrder 10 declS = some (tableS, none) := by rfl

theorem process_declDupZero : process listOrder 10 declDupZero = some (tableDupZero, none) := by
  rfl

theorem process_declSwapped : process listOrder 10 declSwapped = some (tableSwapped, none) := by
  rfl

theorem process_declNestedDup :
    process listOrder 10 declNestedDup = some (tableNestedDup, none) := by
  rfl

theorem process_declMaxTag : process listOrder 10 declMaxTag = some (tableMaxTag, none) := by
  rfl

theorem sortAndFillFields_full (fields : List SField) (fuel : Nat) (hne : fields ≠ [])
    (hfull : fields.length = maxTag fields + 1) :
    sortAndFillFields fuel fields = some (fixRangeCopy fields) := by
  have hlen : ¬ fields.length < 1 := by
    cases fields with
    | nil => exact absurd rfl hne
    | cons f fs => simp
  simp [sortAndFillFields, hlen, hfull]

/-- Taken by itself, the normaliser never returns on a struct whose only field is tagged
65535: the `uint16` counter of the fill loop wraps to 0 after 65535, so `i <= maxId` holds
forever and no fuel suffices. Such a table is never handed to the normaliser: the
inlining pass runs first and aborts on every tag of 256 or more. -/
theorem sortAndFillMsgFields_never_returns_at_tag_65535 (fuel : Nat) :
    process listOrder 10 declMaxTag = some (tableMaxTag, none) ∧
    sortAndFillMsgFields fuel tableMaxTag = none := by
  refine ⟨process_declMaxTag, ?_⟩
  have h : sortAndFillFields fuel [mkTagged 65535 "65535" "A" (.BaseElem "" .Int)] = none := by
    have hm : maxTag [mkTagged 65535 "65535" "A" (.BaseElem "" .Int)] = 65535 := by rfl
    simp only [sortAndFillFields, hm]
    rw [fillLoop_wraps _ fuel 0 _ (by omega)]
    rfl
  simp only [tableMaxTag, sortAndFillMsgFields, sortAndFillElem, h]
  rfl

/-- C3 (amended): for a non-empty field list with pairwise distinct tags whose largest tag
is below 65535, the loop body of `sortAndFillMsgFields` returns (given fuel beyond the
largest tag) a list of `max+1` fields holding every tag `0..max` exactly once; the field
at position `i` carries tag `i` whenever the input had a gap or was declared in ascending
tag order. -/
theorem sortAndFillFields_dense (fields : List SField) (fuel : Nat) (hne : fields ≠ [])
    (hnd : (fieldTags fields).Nodup) (hmax : maxTag fields < 65535)
    (hfuel : maxTag fields + 1 < fuel) :
    ∃ out, sortAndFillFields fuel fields = some out ∧
      out.length = maxTag fields + 1 ∧
      (fieldTags out).Perm (List.range out.length) ∧
      ((fields.length ≠ maxTag fields + 1 ∨ (fieldTags fields).Sorted (· ≤ ·)) →
        fieldTags out = List.range out.length) := by
  have hb : ∀ x ∈ fieldTags fields, x < maxTag fields + 1 := by
    intro x hx
    obtain ⟨f, hf, rfl⟩ := List.mem_map.1 hx
    exact Nat.lt_succ_of_le (le_maxTag fields f hf)
  by_cases hfull : fields.length = maxTag fields + 1
  · refine ⟨fixRangeCopy fields, sortAndFillFields_full fields fuel hne hfull, ?_, ?_, ?_⟩
    · simp [fixRangeCopy, hfull]
    · have hl : (fixRangeCopy fields).length = maxTag fields + 1 := by
        simp [fixRangeCopy, hfull]
      rw [hl, fieldTags_fixRangeCopy]
      exact nodup_bounded_perm_range _ _ hnd hb (by simp [fieldTags, hfull])
    · intro h
      rcases h with h | h
      · exact absurd hfull h
      · have hl : (fixRangeCopy fields).length = maxTag fields + 1 := by
          simp [fixRangeCopy, hfull]
        rw [hl, fieldTags_fixRangeCopy]
        exact sorted_perm_range _ _ h
          (nodup_bounded_perm_range _ _ hnd hb (by simp [fieldTags, hfull]))
  · have hp : (fieldTags (sortSlice (fixRangeCopy fields ++
        ((List.range' 0 (maxTag fields + 1)).filter
          (fun j => decide (j ∉ fieldTags fields))).map placeholderField))).Perm
        (List.range (maxTag fields + 1)) := by
      refine ((sortSlice_perm _).map _).trans ?_
      rw [show List.map (fun f => f.FieldTag) (fixRangeCopy fields ++
          ((List.range' 0 (maxTag fields + 1)).filter
            (fun j => decide (j ∉ fieldTags fields))).map placeholderField) =
          fieldTags (fixRangeCopy fields ++
          ((List.range' 0 (maxTag fields + 1)).filter
            (fun j => decide (j ∉ fieldTags fields))).map placeholderField) from rfl]
      rw [fieldTags_append, fieldTags_fixRangeCopy, fieldTags_placeholders]
      exact filled_tags_perm_range _ _ hnd hb
    have hl : (sortSlice (fixRangeCopy fields ++
        ((List.range' 0 (maxTag fields + 1)).filter
          (fun j => decide (j ∉ fieldTags fields))).map placeholderField)).length =
        maxTag fields + 1 := by
      have := hp.length_eq
      simpa [fieldTags] using this
    refine ⟨_, sortAndFillFields_gap fields fuel hne hfull hmax hfuel, hl, ?_, ?_⟩
    · rw [hl]; exact hp
    · intro _
      rw [hl]
      exact sorted_perm_range _ _ (sortSlice_sorted _) hp

/-- The theorem of C3 at the field list tagged 0 and 3. -/
theorem sortAndFillFields_dense_witness :
    [mkField 0 "A" (.BaseElem "" .Int), mkField 3 "C" (.BaseElem "" .Int)] ≠ [] ∧
    (fieldTags [mkField 0 "A" (.BaseElem "" .Int), mkField 3 "C" (.BaseElem "" .Int)]).Nodup ∧
    maxTag [mkField 0 "A" (.BaseElem "" .Int), mkField 3 "C" (.BaseElem "" .Int)] < 65535 ∧
    maxTag [mkField 0 "A" (.BaseElem "" .Int), mkField 3 "C" (.BaseElem "" .Int)] + 1 < 5 ∧
    ∃ out, sortAndFillFields 5
        [mkField 0 "A" (.BaseElem "" .Int), mkField 3 "C" (.BaseElem "" .Int)] = some out ∧
      out.length =
        maxTag [mkField 0 "A" (.BaseElem "" .Int), mkField 3 "C" (.BaseElem "" .Int)] + 1 ∧
      (fieldTags out).Perm (List.range out.length) ∧
      (([mkField 0 "A" (.BaseElem "" .Int), mkField 3 "C" (.BaseElem "" .Int)].length ≠
          maxTag [mkField 0 "A" (.BaseElem "" .Int), mkField 3 "C" (.BaseElem "" .Int)] + 1 ∨
        (fieldTags [mkField 0 "A" (.BaseElem "" .Int),
          mkField 3 "C" (.BaseElem "" .Int)]).Sorted (· ≤ ·)) →
        fieldTags out = List.range out.length) :=
  ⟨List.cons_ne_nil _ _, by decide, by decide, by decide,
    sortAndFillFields_dense _ 5 (List.cons_ne_nil _ _) (by decide) (by decide) (by decide)⟩

/-- C3 (as stated) fails: the struct `S { A int; B int }` with A annotated msg:"1" and B
annotated msg:"0" passes `propInline`, and the normaliser leaves its fields in declared
order, so position 0 carries tag 1; with both fields annotated msg:"0" the result carries
tag 0 twice. -/
theorem sortAndFillMsgFields_not_tag_ordered :
    propInline 10 tableSwapped = .ret (tableSwapped, none) ∧
    (sortAndFillMsgFields 10 tableSwapped = some tableSwapped ∧
      fieldTags [mkTagged 1 "1" "A" (.BaseElem "" .Int),
        mkTagged 0 "0" "B" (.BaseElem "" .Int)] = [1, 0]) ∧
    propInline 10 tableDupZero = .ret (tableDupZero, none) ∧
    (sortAndFillMsgFields 10 tableDupZero = some tableDupZero ∧
      fieldTags [mkTagged 0 "0" "A" (.BaseElem "" .Int),
        mkTagged 0 "0" "B" (.BaseElem "" .Int)] = [0, 0]) := by
  refine ⟨by rfl, ⟨by rfl, by rfl⟩, by rfl, ⟨by rfl, by rfl⟩⟩

/-- C5: on the scenario of §8, `S { A string; C string }` tagged 0 and 3, the passes leave
fields 0 and 3 as plain string scalars: the first loop of `sortAndFillMsgFields` assigns
the value of `fixCsharpString` to a copy of the field, so a field that is itself a string
scalar is never retagged. -/
theorem sortAndFillMsgFields_keeps_plain_string_fields :
    process listOrder 10 declS = some (tableS, none) ∧
    propInline 10 tableS = .ret (tableS, none) ∧
    sortAndFillMsgFields 10 tableS =
      some [("S", .Struct "S" [mkTagged 0 "0" "A" (.BaseElem "" .String),
        placeholderField 1, placeholderField 2,
        mkTagged 3 "3" "C" (.BaseElem "" .String)])] := by
  refine ⟨process_declS, by rfl, by rfl⟩

/-- C7: `propInline` accepts duplicate tags silently in two cases. Two fields of a
top-level struct both tagged 0 are not detected, because the scratch array marks a seen
tag by storing the tag itself and 0 is also the empty mark. Two fields both tagged 3 of a
struct nested in a field are detected inside `nextInline`, which then returns nil. Two
fields of a top-level struct both tagged 3 are reported. -/
theorem propInline_accepts_duplicate_tags :
    process listOrder 10 declDupZero = some (tableDupZero, none) ∧
    propInline 10 tableDupZero = .ret (tableDupZero, none) ∧
    process listOrder 10 declNestedDup = some (tableNestedDup, none) ∧
    propInline 10 tableNestedDup = .ret (tableNestedDup, none) ∧
    propInline 10 tableDupThree = .ret (tableDupThree, some .tagRepeated) := by
  refine ⟨process_declDupZero, by rfl, process_declNestedDup, by rfl, by rfl⟩

/-! ## The inlining pass -/

theorem process_declRT : process listOrder 10 declRT = some (tableRT, none) := by rfl

theorem process_declABC : process listOrder 10 declABC = some (tableABC, none) := by rfl

/-- C9: on `type R []T; type T []R` the pass rewrites `R` to `[][][][]R`: after the copy
of `T` is placed in `R` the root becomes `T`, the reference to `R` inside that copy no
longer equals the root, and a copy of the definition of `R` (the slice aliased `R`) is
placed inside `R` itself. -/
theorem propInline_inlines_type_into_itself :
    process listOrder 10 declRT = some (tableRT, none) ∧
    propInline 10 tableRT =
      .ret ([("R", .Slice "R" (.Slice "T" (.Slice "R" (.Slice "T" (.BaseElem "R" .IDENT))))),
             ("T", .Slice "T" (.BaseElem "R" .IDENT))], none) := by
  refine ⟨process_declRT, by rfl⟩

theorem nextInline_ident_B (fuel : Nat) (plug : Elem → Elem) (root : String)
    (hroot : root ≠ "B") :
    nextInline tableABC "A" (fuel + 1) plug (.BaseElem "B" .IDENT) root =
      nextInline tableABC "A" fuel plug elemB "B" := by
  have h : ("B" : String) ≠ root := fun h => hroot h.symm
  simp only [nextInline, Elem.TypeName]
  simp [h, lookupIdentity, tableABC, List.lookup, elemB, Elem.Complexity, fieldsComplexity,
    mkField, maxComplex, Elem.Copy, Elem.TypeName]

theorem nextInline_ident_C (fuel : Nat) (plug : Elem → Elem) :
    nextInline tableABC "A" (fuel + 1) plug (.BaseElem "C" .IDENT) "B" =
      nextInline tableABC "A" fuel plug elemC "C" := by
  simp only [nextInline, Elem.TypeName]
  simp [lookupIdentity, tableABC, List.lookup, elemC, Elem.Complexity, fieldsComplexity,
    mkField, maxComplex, Elem.Copy, Elem.TypeName]

theorem nextInline_struct_diverge (ids : List (String × Elem)) (top : String) (fuel : Nat)
    (plug : Elem → Elem) (a : String) (f : SField) (rest : List SField) (root : String)
    (h : ∀ p, nextInline ids top fuel p f.FieldElem root = .diverge) :
    nextInline ids top (fuel + 1) plug (.Struct a (f :: rest)) root = .diverge := by
  simp only [nextInline, inlineFields, h]

theorem nextInline_slice_diverge (ids : List (String × Elem)) (top : String) (fuel : Nat)
    (plug : Elem → Elem) (a : String) (e : Elem) (root : String)
    (h : ∀ p, nextInline ids top fuel p e root = .diverge) :
    nextInline ids top (fuel + 1) plug (.Slice a e) root = .diverge := by
  simp only [nextInline, h]

theorem nextInline_sliceOf_diverge (ids : List (String × Elem)) (top : String)
    (e : Elem) (root : String) (m : Nat)
    (h : ∀ j, j < m → ∀ p, nextInline ids top j p e root = .diverge) :
    ∀ plug, nextInline ids top m plug (.Slice "" e) root = .diverge := by
  intro plug
  cases m with
  | zero => rfl
  | succ k => exact nextInline_slice_diverge ids top k plug "" e root (h k (Nat.lt_succ_self k))

theorem nextInline_structOf_diverge (ids : List (String × Elem)) (top : String)
    (a name : String) (e : Elem) (root : String) (m : Nat)
    (h : ∀ j, j < m → ∀ p, nextInline ids top j p e root = .diverge) :
    ∀ plug, nextInline ids top m plug (.Struct a [mkField 0 name (.Slice "" e)]) root =
      .diverge := by
  intro plug
  cases m with
  | zero => rfl
  | succ k =>
    refine nextInline_struct_diverge ids top k plug a _ [] root ?_
    exact nextInline_sliceOf_diverge ids top e root k
      (fun j hj => h j (Nat.lt_succ_of_lt hj))

theorem nextInline_cycle_diverges : ∀ n : Nat, ∀ plug : Elem → Elem,
    (∀ root, root ≠ "B" →
      nextInline tableABC "A" n plug (.BaseElem "B" .IDENT) root = .diverge) ∧
    nextInline tableABC "A" n plug (.BaseElem "C" .IDENT) "B" = .diverge := by
  intro n
  induction n using Nat.strong_induction_on with
  | _ n ih =>
    intro plug
    cases n with
    | zero => exact ⟨fun _ _ => rfl, rfl⟩
    | succ m =>
      constructor
      · intro root hroot
        rw [nextInline_ident_B m plug root hroot]
        exact nextInline_structOf_diverge tableABC "A" "B" "Cs" _ "B" m
          (fun j hj p => (ih j (Nat.lt_succ_of_lt hj) p).2) plug
      · rw [nextInline_ident_C m plug]
        exact nextInline_structOf_diverge tableABC "A" "C" "Bs" _ "C" m
          (fun j hj p => (ih j (Nat.lt_succ_of_lt hj) p).1 "C" (by decide)) plug

/-- C10: on the cyclic unit A{[]B}, B{[]C}, C{[]B} the pass does not terminate. `A` is
processed first; inside the copy of `B` the reference to `C` differs from the root `B`,
inside the copy of `C` the reference to `B` differs from the root `C`, and the table
entries of `B` and `C` never grow, so every amount of fuel is exhausted. -/
theorem propInline_diverges_on_cycle (fuel : Nat) :
    process listOrder 10 declABC = some (tableABC, none) ∧
    propInline fuel tableABC = .diverge := by
  refine ⟨process_declABC, ?_⟩
  have hnames : (sortGelems tableABC).map (fun g => g.1) = ["A", "B", "C"] := by rfl
  have hA : tableABC.lookup "A" =
      some (.Struct "A" [mkField 0 "Bs" (.Slice "" (.BaseElem "B" .IDENT))]) := by rfl
  have hdiv : ∀ p, nextInline tableABC "A" fuel p (.Slice "" (.BaseElem "B" .IDENT)) "A" =
      .diverge :=
    nextInline_sliceOf_diverge tableABC "A" _ "A" fuel
      (fun j _ p => (nextInline_cycle_diverges j p).1 "A" (by decide))
  simp only [propInline, hnames, propInlineLoop, hA, propInlineElem, inlineFields, mkField, hdiv]

/-- C8: `nextInline` on a scalar slot. If the call returns with the slot changed, the
scalar was an unresolved identifier whose name differs from the root and names an entry of
the table, as it stands at that moment, of complexity below `maxComplex = 5`. If the
named entry has complexity 5 or more the call returns at once with the reference
unchanged and no error. -/
theorem nextInline_substitutes_only_below_threshold (ids : List (String × Elem))
    (top : String) (fuel : Nat) (plug : Elem → Elem) (a : String) (v : Primitive)
    (root : String) :
    maxComplex = 5 ∧
    (∀ e err, nextInline ids top fuel plug (.BaseElem a v) root = .ret (e, err) →
      e ≠ .BaseElem a v →
      v = .IDENT ∧ (Elem.BaseElem a v).TypeName ≠ root ∧
      ∃ node, lookupIdentity ids top (plug (.BaseElem a v)) (Elem.BaseElem a v).TypeName =
          some node ∧ node.Complexity < 5) ∧
    (∀ node, lookupIdentity ids top (plug (.BaseElem a v)) (Elem.BaseElem a v).TypeName =
        some node → 5 ≤ node.Complexity →
      nextInline ids top (fuel + 1) plug (.BaseElem a v) root =
        .ret (.BaseElem a v, none)) := by
  refine ⟨rfl, ?_, ?_⟩
  · intro e err h hne
    cases fuel with
    | zero => simp [nextInline] at h
    | succ n =>
      simp only [nextInline] at h
      by_cases hc : v = .IDENT ∧ (Elem.BaseElem a v).TypeName ≠ root
      · rw [if_pos hc] at h
        cases hl : lookupIdentity ids top (plug (.BaseElem a v)) (Elem.BaseElem a v).TypeName with
        | none =>
          rw [hl] at h
          simp only at h
          split at h
          · injection h with h1
            injection h1 with h2 _
            exact absurd h2.symm hne
          · injection h with h1
            injection h1 with h2 _
            exact absurd h2.symm hne
        | some node =>
          rw [hl] at h
          simp only at h
          by_cases hx : node.Complexity < maxComplex
          · exact ⟨hc.1, hc.2, node, rfl, hx⟩
          · rw [if_neg hx] at h
            injection h with h1
            injection h1 with h2 _
            exact absurd h2.symm hne
      · rw [if_neg hc] at h
        injection h with h1
        injection h1 with h2 _
        exact absurd h2.symm hne
  · intro node hl hx
    simp only [nextInline]
    split
    · rw [hl]
      simp only
      have : ¬ node.Complexity < maxComplex := by
        simp only [maxComplex]; omega
      rw [if_neg this]
    · rfl

/-- The theorem of C8 at `type R []T; type T []R`: the reference to `T` in `R` is
replaced (complexity 2), the reference to `R` in `T` is kept once `R` has complexity 5. -/
theorem nextInline_substitutes_only_below_threshold_witness :
    (nextInline tableRT "R" 6 (fun x => .Slice "R" x) (.BaseElem "T" .IDENT) "R" =
        .ret (.Slice "T" (.Slice "R" (.Slice "T" (.BaseElem "R" .IDENT))), none) ∧
      Elem.Slice "T" (.Slice "R" (.Slice "T" (.BaseElem "R" .IDENT))) ≠ .BaseElem "T" .IDENT ∧
      Primitive.IDENT = .IDENT ∧ (Elem.BaseElem "T" .IDENT).TypeName ≠ "R" ∧
      ∃ node, lookupIdentity tableRT "R" (.Slice "R" (.BaseElem "T" .IDENT))
          (Elem.BaseElem "T" .IDENT).TypeName = some node ∧ node.Complexity < 5) ∧
    (lookupIdentity
        [("R", .Slice "R" (.Slice "T" (.Slice "R" (.Slice "T" (.BaseElem "R" .IDENT))))),
         ("T", .Slice "T" (.BaseElem "R" .IDENT))] "T" (.Slice "T" (.BaseElem "R" .IDENT))
        (Elem.BaseElem "R" .IDENT).TypeName =
        some (.Slice "R" (.Slice "T" (.Slice "R" (.Slice "T" (.BaseElem "R" .IDENT))))) ∧
      5 ≤ (Elem.Slice "R" (.Slice "T" (.Slice "R" (.Slice "T"
        (.BaseElem "R" .IDENT))))).Complexity ∧
      nextInline
        [("R", .Slice "R" (.Slice "T" (.Slice "R" (.Slice "T" (.BaseElem "R" .IDENT))))),
         ("T", .Slice "T" (.BaseElem "R" .IDENT))] "T" (0 + 1) (fun x => .Slice "T" x)
        (.BaseElem "R" .IDENT) "T" = .ret (.BaseElem "R" .IDENT, none)) :=
  ⟨⟨by rfl, by simp,
      (nextInline_substitutes_only_below_threshold tableRT "R" 6 (fun x => .Slice "R" x) "T"
        .IDENT "R").2.1 (.Slice "T" (.Slice "R" (.Slice "T" (.BaseElem "R" .IDENT)))) none
        (by rfl) (by simp)⟩,
    ⟨by rfl, by decide,
      (nextInline_substitutes_only_below_threshold
        [("R", .Slice "R" (.Slice "T" (.Slice "R" (.Slice "T" (.BaseElem "R" .IDENT))))),
         ("T", .Slice "T" (.BaseElem "R" .IDENT))] "T" 0 (fun x => .Slice "T" x) "R"
        .IDENT "T").2.2 _ (by rfl) (by decide)⟩⟩

/-! ## Localized strings -/

mutual
theorem frame_fixCsharpString : ∀ e : Elem, frame (fixCsharpString e) = frame e
  | .BaseElem a v => by
    simp only [fixCsharpString]
    split <;> simp [frame]
  | .CsharpString a => by simp [fixCsharpString]
  | .NilPlaceholder a => by simp [fixCsharpString]
  | .Ptr a v => by simp [fixCsharpString, frame, frame_fixCsharpString v]
  | .Map a k v => by simp [fixCsharpString, frame, frame_fixCsharpString v]
  | .Slice a e => by simp [fixCsharpString, frame, frame_fixCsharpString e]
  | .Array a sz e => by simp [fixCsharpString, frame, frame_fixCsharpString e]
  | .Struct a fs => by simp [fixCsharpString, frame, frameFields_fixCsharpString fs]
theorem frameFields_fixCsharpString :
    ∀ fs : List SField, frameFields (fixCsharpStringFields fs) = frameFields fs
  | [] => by simp [fixCsharpStringFields]
  | f :: fs => by
    simp [fixCsharpStringFields, frameFields, frame_fixCsharpString f.FieldElem,
      frameFields_fixCsharpString fs]
end

mutual
theorem valueLeaves_fixCsharpString :
    ∀ e : Elem, valueLeaves (fixCsharpString e) = (valueLeaves e).map localizeLeaf
  | .BaseElem a v => by
    simp only [fixCsharpString, valueLeaves, List.map, localizeLeaf]
    split <;> simp [valueLeaves]
  | .CsharpString a => by simp [fixCsharpString, valueLeaves, localizeLeaf]
  | .NilPlaceholder a => by simp [fixCsharpString, valueLeaves, localizeLeaf]
  | .Ptr a v => by simp [fixCsharpString, valueLeaves, valueLeaves_fixCsharpString v]
  | .Map a k v => by simp [fixCsharpString, valueLeaves, valueLeaves_fixCsharpString v]
  | .Slice a e => by simp [fixCsharpString, valueLeaves, valueLeaves_fixCsharpString e]
  | .Array a sz e => by simp [fixCsharpString, valueLeaves, valueLeaves_fixCsharpString e]
  | .Struct a fs => by simp [fixCsharpString, valueLeaves, fieldsLeaves_fixCsharpString fs]
theorem fieldsLeaves_fixCsharpString :
    ∀ fs : List SField, fieldsLeaves (fixCsharpStringFields fs) = (fieldsLeaves fs).map localizeLeaf
  | [] => by simp [fixCsharpStringFields, fieldsLeaves]
  | f :: fs => by
    simp [fixCsharpStringFields, fieldsLeaves, valueLeaves_fixCsharpString f.FieldElem,
      fieldsLeaves_fixCsharpString fs]
end

theorem localizeLeaf_not_plain_string (l : Elem) (a : String) :
    localizeLeaf l ≠ .BaseElem a .String := by
  cases l with
  | BaseElem b v =>
    simp only [localizeLeaf]
    split
    · simp
    · rename_i h
      intro heq
      injection heq with _ h2
      exact h h2
  | _ => simp [localizeLeaf]

/-- C6: the element returned by `fixCsharpString(e)` has the frame of `e` (the same
containers, type names, sizes, whole map keys, field tags, names and annotations), and its
value-position leaves are those of `e`, in order, with each plain string scalar replaced
by a `CsharpString` and every other leaf, localized ones included, left as it is; so no
plain string scalar remains in a value position. -/
theorem fixCsharpString_localizes_value_strings (e : Elem) :
    frame (fixCsharpString e) = frame e ∧
    valueLeaves (fixCsharpString e) = (valueLeaves e).map localizeLeaf ∧
    (∀ l ∈ valueLeaves (fixCsharpString e), ∀ a, l ≠ .BaseElem a .String) ∧
    (∀ a k v, fixCsharpString (.Map a k v) = .Map a k (fixCsharpString v)) := by
  refine ⟨frame_fixCsharpString e, valueLeaves_fixCsharpString e, ?_, ?_⟩
  · intro l hl a
    rw [valueLeaves_fixCsharpString e] at hl
    obtain ⟨l0, _, rfl⟩ := List.mem_map.1 hl
    exact localizeLeaf_not_plain_string l0 a
  · intro a k v
    simp [fixCsharpString]

/-! ## The builder: tag assignment -/

theorem string_length_pos_of_ne (s : String) (h : s ≠ "") : s.length > 0 := by
  cases s with
  | mk data =>
    cases data with
    | nil => exact absurd rfl h
    | cons c cs => simp [String.length]

theorem parseUint16_some_ne (s : String) (t : Nat) (h : parseUint16 s = some t) :
    s ≠ "" ∧ s ≠ "-" := by
  constructor
  · intro hs
    subst hs
    simp [parseUint16] at h
  · intro hs
    subst hs
    simp [parseUint16] at h

theorem getFieldTag_go (fs : FileSet) (f : Field Expr) (c t : Nat)
    (hflat : (annotationParts fs f).tail.head? ≠ some "flatten")
    (hcase : ((f.Tag = none ∨ (annotationParts fs f).headD "" = "") ∧ t = c) ∨
      (f.Tag ≠ none ∧ parseUint16 ((annotationParts fs f).headD "") = some t)) :
    ∃ sf0, getFieldTag fs f c =
        .go sf0 (decide ((annotationParts fs f).tail.head? = some "extension")) false
          ((t + 1) % 65536) ∧
      sf0.FieldTag = t := by
  cases hT : f.Tag with
  | none =>
    have ht : t = c := by
      rcases hcase with h | h
      · exact h.2
      · exact absurd hT h.1
    subst ht
    refine ⟨{ emptyField with FieldTag := t }, ?_, rfl⟩
    simp [getFieldTag, hT, annotationParts]
  | some lit =>
    have hparts : annotationParts fs f = stringsSplitComma (tagBody fs.tagName lit) := by
      simp [annotationParts, hT]
    rw [hparts] at hflat hcase
    rw [hparts]
    rcases hcase with h | h
    · have h0 : (stringsSplitComma (tagBody fs.tagName lit)).headD "" = "" := by
        rcases h.1 with h1 | h1
        · rw [hT] at h1; exact absurd h1 (by simp)
        · exact h1
      have ht : t = c := h.2
      subst ht
      refine ⟨⟨t, stringsSplitComma (tagBody fs.tagName lit), lit.Value, "",
        .BaseElem "" .Invalid⟩, ?_, rfl⟩
      simp only [List.headD_eq_head?_getD] at h0
      have hfl : decide ((stringsSplitComma (tagBody fs.tagName lit)).tail.head? =
          some "flatten") = false := decide_eq_false hflat
      simp only [getFieldTag, hT, List.headD_eq_head?_getD, hfl, h0]
      simp [emptyField]
    · obtain ⟨hne, hdash⟩ := parseUint16_some_ne _ _ h.2
      have hlen := string_length_pos_of_ne _ hne
      refine ⟨⟨t, stringsSplitComma (tagBody fs.tagName lit), lit.Value, "",
        .BaseElem "" .Invalid⟩, ?_, rfl⟩
      have h2 := h.2
      simp only [List.headD_eq_head?_getD] at h2 hdash hlen
      have hfl : decide ((stringsSplitComma (tagBody fs.tagName lit)).tail.head? =
          some "flatten") = false := decide_eq_false hflat
      simp only [getFieldTag, hT, List.headD_eq_head?_getD, hfl, h2]
      simp [emptyField, hdash, hlen]

theorem getFieldFinish_fields (sf0 : SField) (ex : Elem) (ext : Bool) (c : Nat)
    (r : Nat × Except Err (List SField)) (h : getFieldFinish sf0 ex ext c = some r) :
    r.1 = c ∧ ∀ sf, r.2 = .ok sf → ∀ fld ∈ sf, fld.FieldTag = sf0.FieldTag := by
  unfold getFieldFinish at h
  split at h
  · split at h
    · injection h with h; subst h
      refine ⟨rfl, ?_⟩
      intro sf hsf fld hfld
      injection hsf with hsf; subst hsf
      simp at hfld; subst hfld; rfl
    · injection h with h; subst h
      refine ⟨rfl, ?_⟩
      intro sf hsf
      cases hsf
  · injection h with h; subst h
    refine ⟨rfl, ?_⟩
    intro sf hsf fld hfld
    injection hsf with hsf; subst hsf
    simp at hfld; subst hfld; rfl

/-- C4 (amended): for a field with at most one name and no flatten annotation, met when
the counter is `c`: with an explicit numeric part 0 that parses to `t` the tag is `t`, and
with no annotation or an empty part 0 the tag is `c`; in both cases the counter becomes
one past the tag modulo 65536, so it wraps to 0 after tag 65535. The counter is moved
whenever `getField` returns, the returned fields all carry the tag, and when the type
translates to an element (and no extension cast is asked) exactly one field comes
back. -/
theorem getField_tag_assignment (fs : FileSet) (f : Field Expr) (c t : Nat)
    (hnames : f.Names.length ≤ 1)
    (hflat : (annotationParts fs f).tail.head? ≠ some "flatten")
    (hcase : ((f.Tag = none ∨ (annotationParts fs f).headD "" = "") ∧ t = c) ∨
      (f.Tag ≠ none ∧ parseUint16 ((annotationParts fs f).headD "") = some t)) :
    (∀ fuel r, getField fs fuel f c = some r →
      r.1 = (t + 1) % 65536 ∧ ∀ sf, r.2 = .ok sf → ∀ fld ∈ sf, fld.FieldTag = t) ∧
    (∀ fuel ex, parseExpr fs fuel f.Typ = some (.ok (some ex)) →
      (annotationParts fs f).tail.head? ≠ some "extension" →
      ∃ fld, getField fs (fuel + 1) f c = some ((t + 1) % 65536, .ok [fld]) ∧
        fld.FieldTag = t ∧ fld.FieldElem = ex) := by
  obtain ⟨sf0, hgo, htag⟩ := getFieldTag_go fs f c t hflat hcase
  constructor
  · intro fuel r h
    cases fuel with
    | zero => simp [getField] at h
    | succ n =>
      simp only [getField, hgo] at h
      cases hp : parseExpr fs n f.Typ with
      | none => rw [hp] at h; simp at h
      | some res =>
        rw [hp] at h
        cases res with
        | error err =>
          simp only at h
          injection h with h; subst h
          exact ⟨rfl, fun sf hsf => by cases hsf⟩
        | ok oel =>
          cases oel with
          | none =>
            simp only at h
            injection h with h; subst h
            refine ⟨rfl, ?_⟩
            intro sf hsf fld hfld
            injection hsf with hsf; subst hsf
            simp at hfld
          | some ex =>
            simp only at h
            match hN : f.Names, hnames with
            | [], _ =>
              rw [hN] at h
              simp only [Bool.false_eq_true, if_false] at h
              have := getFieldFinish_fields _ _ _ _ _ h
              exact ⟨this.1, fun sf hsf fld hfld => (this.2 sf hsf fld hfld).trans htag⟩
            | [nm], _ =>
              rw [hN] at h
              simp only at h
              have := getFieldFinish_fields _ _ _ _ _ h
              exact ⟨this.1, fun sf hsf fld hfld => (this.2 sf hsf fld hfld).trans htag⟩
            | _ :: _ :: _, hlen => simp at hlen
  · intro fuel ex hp hext
    simp only [getField, hgo, hp]
    match hN : f.Names, hnames with
    | [], _ =>
      refine ⟨{ sf0 with FieldName := embedded f.Typ, FieldElem := ex }, ?_, htag, rfl⟩
      rw [decide_eq_false hext]
      rfl
    | [nm], _ =>
      refine ⟨{ sf0 with FieldName := nm, FieldElem := ex }, ?_, htag, rfl⟩
      rw [decide_eq_false hext]
      rfl
    | _ :: _ :: _, hlen => simp at hlen

/-- The theorem of C4 at the field `A int` annotated msg:"3" met at counter 7, with the
evaluation of an annotated and of a plain field. -/
theorem getField_tag_assignment_witness :
    fieldA3.Names.length ≤ 1 ∧
    (annotationParts declS fieldA3).tail.head? ≠ some "flatten" ∧
    (((fieldA3.Tag = none ∨ (annotationParts declS fieldA3).headD "" = "") ∧ 3 = 7) ∨
      (fieldA3.Tag ≠ none ∧ parseUint16 ((annotationParts declS fieldA3).headD "") = some 3)) ∧
    ((∀ fuel r, getField declS fuel fieldA3 7 = some r →
      r.1 = (3 + 1) % 65536 ∧ ∀ sf, r.2 = .ok sf → ∀ fld ∈ sf, fld.FieldTag = 3) ∧
    (∀ fuel ex, parseExpr declS fuel fieldA3.Typ = some (.ok (some ex)) →
      (annotationParts declS fieldA3).tail.head? ≠ some "extension" →
      ∃ fld, getField declS (fuel + 1) fieldA3 7 = some ((3 + 1) % 65536, .ok [fld]) ∧
        fld.FieldTag = 3 ∧ fld.FieldElem = ex)) ∧
    getField declS 2 fieldA3 7 = some (4, .ok [mkTagged 3 "3" "A" (.BaseElem "" .Int)]) ∧
    getField declS 2 fieldPlain 7 = some (8, .ok [mkField 7 "A" (.BaseElem "" .Int)]) :=
  ⟨by decide, by decide, Or.inr ⟨by simp [fieldA3], by rfl⟩,
    getField_tag_assignment declS fieldA3 7 3 (by decide) (by decide)
      (Or.inr ⟨by simp [fieldA3], by rfl⟩),
    by rfl, by rfl⟩

/-- C4 (as stated) fails at the last counter value: a field without annotation met when
the counter is 65535 gets tag 65535 and leaves the counter at 0, not at 65536. -/
theorem getField_counter_wraps_at_65535 :
    getField declS 2 fieldPlain 65535 =
      some (0, .ok [mkField 65535 "A" (.BaseElem "" .Int)]) ∧
    (0 : Nat) ≠ 65535 + 1 := by
  refine ⟨by rfl, by decide⟩

/-! ## The alias resolver -/

theorem lookup_mapSet_self {α : Type} (m : List (String × α)) (k : String) (v : α) :
    (mapSet m k v).lookup k = some v := by
  induction m with
  | nil => simp [mapSet, List.lookup]
  | cons p rest ih =>
    obtain ⟨k1, w⟩ := p
    simp only [mapSet]
    by_cases h : k1 = k
    · subst h
      simp [List.lookup]
    · have h1 : (k == k1) = false := by
        simpa using fun h2 : k = k1 => h h2.symm
      simp [h, List.lookup, h1, ih]

theorem lookup_mapSet_ne {α : Type} (m : List (String × α)) (k k1 : String) (v : α)
    (h : k1 ≠ k) : (mapSet m k v).lookup k1 = m.lookup k1 := by
  induction m with
  | nil =>
    have h1 : (k1 == k) = false := by simpa using h
    simp [mapSet, List.lookup, h1]
  | cons p rest ih =>
    obtain ⟨k2, w⟩ := p
    simp only [mapSet]
    by_cases h2 : k2 = k
    · subst h2
      have h1 : (k1 == k2) = false := by simpa using h
      simp [List.lookup, h1]
    · simp only [h2, if_false, List.lookup]
      split <;> simp_all

theorem mem_mapSet {α : Type} (m : List (String × α)) (k : String) (v : α) (n : String)
    (e : α) (h : (n, e) ∈ mapSet m k v) : (n = k ∧ e = v) ∨ (n, e) ∈ m := by
  induction m with
  | nil =>
    simp [mapSet] at h
    exact Or.inl h
  | cons p rest ih =>
    obtain ⟨k2, w⟩ := p
    simp only [mapSet] at h
    by_cases h2 : k2 = k
    · subst h2
      simp only [if_true, List.mem_cons] at h
      rcases h with h | h
      · injection h with h3 h4
        exact Or.inl ⟨h3, h4⟩
      · exact Or.inr (List.mem_cons_of_mem _ h)
    · simp only [h2, if_false, List.mem_cons] at h
      rcases h with h | h
      · exact Or.inr (by rw [h]; exact List.mem_cons_self _ _)
      · rcases ih h with h3 | h3
        · exact Or.inl h3
        · exact Or.inr (List.mem_cons_of_mem _ h3)

theorem mem_of_lookup_eq_some {α : Type} (m : List (String × α)) (k : String) (v : α)
    (h : m.lookup k = some v) : (k, v) ∈ m := by
  induction m with
  | nil => simp [List.lookup] at h
  | cons p rest ih =>
    obtain ⟨k2, w⟩ := p
    simp only [List.lookup] at h
    split at h
    · rename_i heq
      have : k = k2 := by simpa using heq
      injection h with h
      subst this; subst h
      exact List.mem_cons_self _ _
    · exact List.mem_cons_of_mem _ (ih h)

theorem unique_of_nodup_keys {α : Type} (l : List (String × α)) (h : (l.map Prod.fst).Nodup)
    (n : String) (a b : α) (ha : (n, a) ∈ l) (hb : (n, b) ∈ l) : a = b := by
  induction l with
  | nil => simp at ha
  | cons p rest ih =>
    simp only [List.map_cons, List.nodup_cons] at h
    rcases List.mem_cons.1 ha with ha | ha <;> rcases List.mem_cons.1 hb with hb | hb
    · rw [← ha] at hb
      injection hb with _ h2
      exact h2.symm
    · exfalso
      apply h.1
      rw [← ha]
      exact List.mem_map.2 ⟨(n, b), hb, rfl⟩
    · exfalso
      apply h.1
      rw [← hb]
      exact List.mem_map.2 ⟨(n, a), ha, rfl⟩
    · exact ih h.2 ha hb

theorem primitives_ne_IDENT (n : String) (p : Primitive)
    (h : primitives.lookup n = some p) : p ≠ .IDENT := by
  have hall : ∀ q ∈ primitives, q.2 ≠ Primitive.IDENT := by decide
  exact hall (n, p) (mem_of_lookup_eq_some _ _ _ h)

theorem typeName_ident (u : String) : (Elem.BaseElem u .IDENT).TypeName = u := by
  simp only [Elem.TypeName, BaseType]
  split
  · rfl
  · rename_i h
    simp at h
    exact h.symm

theorem parseExpr_ident (fs : FileSet) (fuel : Nat) (x : String)
    (r : Except Err (Option Elem)) (h : parseExpr fs fuel (.Ident x) = some r) :
    r = .ok (some (Ident x)) := by
  cases fuel with
  | zero => simp [parseExpr] at h
  | succ n =>
    simp only [parseExpr] at h
    injection h with h
    exact h.symm

theorem processEntry_primitive (name x : String) (p : Primitive)
    (ids deferred : List (String × Elem)) (hp : primitives.lookup x = some p) :
    processEntry name (Ident x) ids deferred =
      (mapSet ids name (.BaseElem name p), deferred) := by
  have hne := primitives_ne_IDENT x p hp
  simp only [Ident, hp]
  cases p <;> first | exact absurd rfl hne | rfl

theorem processEntry_identifier (name x : String) (ids deferred : List (String × Elem))
    (hp : primitives.lookup x = none) :
    processEntry name (Ident x) ids deferred =
      (ids, mapSet deferred name (.BaseElem x .IDENT)) := by
  simp only [Ident, hp]
  rfl

theorem processEntry_deferred (name : String) (el : Elem)
    (ids deferred : List (String × Elem)) (n : String) (e : Elem)
    (h : (n, e) ∈ (processEntry name el ids deferred).2) :
    (n, e) ∈ deferred ∨ (n = name ∧ e = el ∧ ∃ a, e = .BaseElem a .IDENT) := by
  unfold processEntry at h
  split at h
  · rename_i a
    rcases mem_mapSet _ _ _ _ _ h with h1 | h1
    · exact Or.inr ⟨h1.1, h1.2, a, h1.2⟩
    · exact Or.inl h1
  · exact Or.inl h

theorem processEntry_lookup_ne (name : String) (el : Elem)
    (ids deferred : List (String × Elem)) (t : String) (h : t ≠ name) :
    (processEntry name el ids deferred).1.lookup t = ids.lookup t ∧
    (processEntry name el ids deferred).2.lookup t = deferred.lookup t := by
  unfold processEntry
  split
  · exact ⟨rfl, lookup_mapSet_ne _ _ _ _ h⟩
  · exact ⟨lookup_mapSet_ne _ _ _ _ h, rfl⟩

theorem processLoop_spec (fs : FileSet) (fuel : Nat) :
    ∀ (l : List (String × Expr)) (ids deferred ids1 deferred1 : List (String × Elem)),
      processLoop fs fuel l ids deferred = some (.ok (ids1, deferred1)) →
      (l.map Prod.fst).Nodup →
      (∀ t, t ∉ l.map Prod.fst →
        ids1.lookup t = ids.lookup t ∧ deferred1.lookup t = deferred.lookup t) ∧
      (∀ t x, (t, Expr.Ident x) ∈ l →
        (∀ p, primitives.lookup x = some p →
          ids1.lookup t = some (.BaseElem t p) ∧ deferred1.lookup t = deferred.lookup t) ∧
        (primitives.lookup x = none →
          deferred1.lookup t = some (.BaseElem x .IDENT) ∧ ids1.lookup t = ids.lookup t)) ∧
      (∀ n e, (n, e) ∈ deferred1 → (n, e) ∈ deferred ∨
        ∃ d a, (n, d) ∈ l ∧ parseExpr fs fuel d = some (.ok (some e)) ∧
          e = .BaseElem a .IDENT) := by
  intro l
  induction l with
  | nil =>
    intro ids deferred ids1 deferred1 h _
    simp only [processLoop] at h
    injection h with h
    injection h with h
    injection h with h1 h2
    subst h1; subst h2
    refine ⟨fun t _ => ⟨rfl, rfl⟩, ?_, fun n e hm => Or.inl hm⟩
    intro t x hm
    simp at hm
  | cons hd rest ih =>
    obtain ⟨name, d⟩ := hd
    intro ids deferred ids1 deferred1 h hnd
    simp only [List.map_cons, List.nodup_cons] at hnd
    obtain ⟨hname, hnd1⟩ := hnd
    simp only [processLoop] at h
    cases hp : parseExpr fs fuel d with
    | none => rw [hp] at h; simp at h
    | some res =>
      rw [hp] at h
      cases res with
      | error err => simp at h
      | ok oel =>
        cases oel with
        | none =>
          simp only at h
          obtain ⟨hA, hB, hC⟩ := ih ids deferred ids1 deferred1 h hnd1
          refine ⟨?_, ?_, ?_⟩
          · intro t ht
            simp only [List.map_cons, List.mem_cons, not_or] at ht
            exact hA t ht.2
          · intro t x hm
            rcases List.mem_cons.1 hm with hm | hm
            · injection hm with h1 h2
              subst h1; subst h2
              have := parseExpr_ident fs fuel x _ hp
              simp at this
            · exact hB t x hm
          · intro n e hm
            rcases hC n e hm with h1 | ⟨d1, a, h1, h2, h3⟩
            · exact Or.inl h1
            · exact Or.inr ⟨d1, a, List.mem_cons_of_mem _ h1, h2, h3⟩
        | some el =>
          simp only at h
          obtain ⟨hA, hB, hC⟩ := ih _ _ ids1 deferred1 h hnd1
          have hAname := hA name hname
          refine ⟨?_, ?_, ?_⟩
          · intro t ht
            simp only [List.map_cons, List.mem_cons, not_or] at ht
            obtain ⟨h1, h2⟩ := hA t ht.2
            obtain ⟨h3, h4⟩ := processEntry_lookup_ne name el ids deferred t ht.1
            exact ⟨h1.trans h3, h2.trans h4⟩
          · intro t x hm
            rcases List.mem_cons.1 hm with hm1 | hm1
            · injection hm1 with h1 h2
              subst h1; subst h2
              have hel := parseExpr_ident fs fuel x _ hp
              injection hel with hel
              injection hel with hel
              subst hel
              constructor
              · intro p hprim
                rw [processEntry_primitive t x p ids deferred hprim] at hAname
                exact ⟨by rw [hAname.1]; exact lookup_mapSet_self _ _ _, hAname.2⟩
              · intro hprim
                rw [processEntry_identifier t x ids deferred hprim] at hAname
                exact ⟨by rw [hAname.2]; exact lookup_mapSet_self _ _ _, hAname.1⟩
            · have htn : t ≠ name := by
                intro heq
                apply hname
                rw [← heq]
                exact List.mem_map.2 ⟨(t, Expr.Ident x), hm1, rfl⟩
              obtain ⟨h1, h2⟩ := hB t x hm1
              obtain ⟨h5, h6⟩ := processEntry_lookup_ne name el ids deferred t htn
              constructor
              · intro p hprim
                obtain ⟨h3, h4⟩ := h1 p hprim
                exact ⟨h3, h4.trans h6⟩
              · intro hprim
                obtain ⟨h3, h4⟩ := h2 hprim
                exact ⟨h3, h4.trans h5⟩
          · intro n e hm
            rcases hC n e hm with h1 | ⟨d1, a, h1, h2, h3⟩
            · rcases processEntry_deferred _ _ _ _ _ _ h1 with h4 | ⟨h4, h5, a, h6⟩
              · exact Or.inl h4
              · subst h4; subst h5
                exact Or.inr ⟨d, a, List.mem_cons_self _ _, hp, h6⟩
            · exact Or.inr ⟨d1, a, List.mem_cons_of_mem _ h1, h2, h3⟩

theorem ChainInv.mono (specs : List (String × Expr)) (prim : Primitive)
    (ids : List (String × Elem)) (P Q : String → Prop) (hPQ : ∀ t, P t → Q t)
    (h : ChainInv specs prim ids P) : ChainInv specs prim ids Q := by
  intro t ht
  rcases h t ht with h1 | h1
  · exact Or.inl h1
  · exact Or.inr ⟨h1.1, hPQ t h1.2⟩

theorem resolvePass_spec (specs : List (String × Expr)) (prim : Primitive) :
    ∀ (l ids : List (String × Elem)) (Q : String → Prop),
      PendingOk specs prim l →
      ChainInv specs prim ids (fun t => (∃ e, (t, e) ∈ l) ∨ Q t) →
      ChainInv specs prim (resolvePass ids l).1
        (fun t => (∃ e, (t, e) ∈ (resolvePass ids l).2.1) ∨ Q t) ∧
      (∀ x ∈ (resolvePass ids l).2.1, x ∈ l) := by
  intro l
  induction l with
  | nil =>
    intro ids Q _ hinv
    exact ⟨hinv, fun x hx => hx⟩
  | cons hd rest ih =>
    obtain ⟨name, elem⟩ := hd
    intro ids Q hok hinv
    have hokrest : PendingOk specs prim rest :=
      fun n e hm hc => hok n e (List.mem_cons_of_mem _ hm) hc
    simp only [resolvePass]
    cases hl : ids.lookup elem.TypeName with
    | some real =>
      simp only
      have hinv1 : ChainInv specs prim (mapSet ids name (real.Copy.Alias name))
          (fun t => (∃ e, (t, e) ∈ rest) ∨ Q t) := by
        intro t ht
        by_cases htn : t = name
        · subst htn
          obtain ⟨u, hu, hcu⟩ := hok t elem (List.mem_cons_self _ _) ht
          subst hu
          rw [typeName_ident] at hl
          rcases hinv u hcu with h1 | h1
          · rw [h1] at hl
            injection hl with hl
            subst hl
            exact Or.inl (lookup_mapSet_self _ _ _)
          · rw [h1.1] at hl
            cases hl
        · rw [lookup_mapSet_ne _ _ _ _ htn]
          rcases hinv t ht with h1 | h1
          · exact Or.inl h1
          · refine Or.inr ⟨h1.1, ?_⟩
            rcases h1.2 with ⟨e, he⟩ | hq
            · rcases List.mem_cons.1 he with he | he
              · injection he with he1 _
                exact absurd he1 htn
              · exact Or.inl ⟨e, he⟩
            · exact Or.inr hq
      obtain ⟨h1, h2⟩ := ih _ Q hokrest hinv1
      exact ⟨h1, fun x hx => List.mem_cons_of_mem _ (h2 x hx)⟩
    | none =>
      simp only
      have hinv1 : ChainInv specs prim ids
          (fun t => (∃ e, (t, e) ∈ rest) ∨ (t = name ∨ Q t)) := by
        refine ChainInv.mono specs prim ids _ _ ?_ hinv
        intro t ht
        rcases ht with ⟨e, he⟩ | hq
        · rcases List.mem_cons.1 he with he | he
          · injection he with he1 _
            exact Or.inr (Or.inl he1)
          · exact Or.inl ⟨e, he⟩
        · exact Or.inr (Or.inr hq)
      obtain ⟨h1, h2⟩ := ih ids (fun t => t = name ∨ Q t) hokrest hinv1
      constructor
      · refine ChainInv.mono specs prim _ _ _ ?_ h1
        intro t ht
        rcases ht with ⟨e, he⟩ | hn | hq
        · exact Or.inl ⟨e, List.mem_cons_of_mem _ he⟩
        · exact Or.inl ⟨elem, by rw [hn]; exact List.mem_cons_self _ _⟩
        · exact Or.inr hq
      · intro x hx
        rcases List.mem_cons.1 hx with hx | hx
        · rw [hx]; exact List.mem_cons_self _ _
        · exact List.mem_cons_of_mem _ (h2 x hx)

theorem resolveLoop_spec (specs : List (String × Expr)) (prim : Primitive)
    (order : Nat → List (String × Elem) → List (String × Elem))
    (horder : ∀ k l, (order k l).Perm l) :
    ∀ (fuel k : Nat) (ids ls ids1 ls1 : List (String × Elem)),
      resolveLoop order fuel k ids ls = some (ids1, ls1) →
      PendingOk specs prim ls →
      ChainInv specs prim ids (fun t => ∃ e, (t, e) ∈ ls) →
      ChainInv specs prim ids1 (fun t => ∃ e, (t, e) ∈ ls1) := by
  intro fuel
  induction fuel with
  | zero =>
    intro k ids ls ids1 ls1 h
    simp [resolveLoop] at h
  | succ n ih =>
    intro k ids ls ids1 ls1 h hok hinv
    simp only [resolveLoop] at h
    by_cases hlen : ls.length > 0
    · rw [if_pos hlen] at h
      have hok1 : PendingOk specs prim (order k ls) :=
        fun m e hm hc => hok m e ((horder k ls).mem_iff.1 hm) hc
      have hinv1 : ChainInv specs prim ids
          (fun t => (∃ e, (t, e) ∈ order k ls) ∨ False) := by
        refine ChainInv.mono specs prim ids _ _ ?_ hinv
        intro t ht
        obtain ⟨e, he⟩ := ht
        exact Or.inl ⟨e, (horder k ls).mem_iff.2 he⟩
      obtain ⟨h1, h2⟩ := resolvePass_spec specs prim (order k ls) ids (fun _ => False) hok1 hinv1
      have h3 : ChainInv specs prim (resolvePass ids (order k ls)).1
          (fun t => ∃ e, (t, e) ∈ (resolvePass ids (order k ls)).2.1) := by
        refine ChainInv.mono specs prim _ _ _ ?_ h1
        intro t ht
        rcases ht with ht | ht
        · exact ht
        · exact absurd ht id
      have hok2 : PendingOk specs prim (resolvePass ids (order k ls)).2.1 :=
        fun m e hm hc => hok1 m e (h2 _ hm) hc
      by_cases hprog : (resolvePass ids (order k ls)).2.2 = true
      · rw [if_pos hprog] at h
        exact ih _ _ _ _ _ h hok2 h3
      · rw [if_neg hprog] at h
        injection h with h
        injection h with h4 h5
        subst h4; subst h5
        exact h3
    · rw [if_neg hlen] at h
      injection h with h
      injection h with h4 h5
      subst h4; subst h5
      exact hinv

/-- C1: let `t` head an alias chain of any length ending in the primitive kind `prim`
(each name declared as just the next name, the last as a primitive). Whenever `process`
succeeds on a unit with distinct declared names and an empty table, under every map
iteration order of the resolver, the finished element of `t` is a scalar of kind `prim`
whose type name is `t`. -/
theorem process_resolves_alias_chain
    (order : Nat → List (String × Elem) → List (String × Elem))
    (horder : ∀ k l, (order k l).Perm l) (fuel : Nat) (fs : FileSet)
    (hnodup : (fs.Specs.map Prod.fst).Nodup) (hempty : fs.Identities = [])
    (prim : Primitive) (t : String) (hchain : AliasChain fs.Specs prim t)
    (ids : List (String × Elem)) (hok : process order fuel fs = some (ids, none)) :
    ids.lookup t = some (.BaseElem t prim) := by
  unfold process at hok
  rw [hempty] at hok
  cases hpl : processLoop fs fuel fs.Specs [] [] with
  | none => rw [hpl] at hok; simp at hok
  | some res =>
    rw [hpl] at hok
    cases res with
    | error err => simp at hok
    | ok pr =>
      obtain ⟨ids0, deferred⟩ := pr
      simp only at hok
      obtain ⟨_, hB, hC⟩ := processLoop_spec fs fuel fs.Specs [] [] ids0 deferred hpl hnodup
      have hinv : ChainInv fs.Specs prim ids0 (fun t => ∃ e, (t, e) ∈ deferred) := by
        intro u hu
        cases hu with
        | base _ pname hdecl hprim =>
          exact Or.inl ((hB u pname hdecl).1 prim hprim).1
        | step _ v hdecl hname hrest =>
          obtain ⟨h1, h2⟩ := (hB u v hdecl).2 hname
          exact Or.inr ⟨by rw [h2]; rfl, _, mem_of_lookup_eq_some _ _ _ h1⟩
      have hpend : PendingOk fs.Specs prim deferred := by
        intro n e hm hc
        rcases hC n e hm with h1 | ⟨d, a, h1, h2, h3⟩
        · simp at h1
        · cases hc with
          | base _ pname hdecl hprim =>
            have hd := unique_of_nodup_keys fs.Specs hnodup n _ _ h1 hdecl
            subst hd
            have hel := parseExpr_ident fs fuel pname _ h2
            injection hel with hel
            injection hel with hel
            rw [h3] at hel
            simp only [Ident, hprim] at hel
            injection hel with _ h4
            exact absurd h4.symm (primitives_ne_IDENT pname prim hprim)
          | step _ v hdecl hname hrest =>
            have hd := unique_of_nodup_keys fs.Specs hnodup n _ _ h1 hdecl
            subst hd
            have hel := parseExpr_ident fs fuel v _ h2
            injection hel with hel
            injection hel with hel
            simp only [Ident, hname] at hel
            exact ⟨v, hel, hrest⟩
      by_cases hlen : deferred.length > 0
      · rw [if_pos hlen] at hok
        unfold resolve at hok
        cases hrl : resolveLoop order fuel 0 ids0 deferred with
        | none => rw [hrl] at hok; simp at hok
        | some r =>
          obtain ⟨ids1, ls1⟩ := r
          rw [hrl] at hok
          simp only at hok
          have hfin := resolveLoop_spec fs.Specs prim order horder fuel 0 ids0 deferred
            ids1 ls1 hrl hpend hinv
          by_cases hl1 : ls1.length < 1
          · rw [if_pos hl1] at hok
            injection hok with hok
            injection hok with h1 _
            subst h1
            have hnil : ls1 = [] := by
              cases ls1 with
              | nil => rfl
              | cons x xs => simp at hl1
            subst hnil
            rcases hfin t hchain with h2 | h2
            · exact h2
            · obtain ⟨e, he⟩ := h2.2
              simp at he
          · rw [if_neg hl1] at hok
            injection hok with hok
            injection hok with _ h2
            cases h2
      · rw [if_neg hlen] at hok
        injection hok with hok
        injection hok with h1 _
        subst h1
        have hnil : deferred = [] := by
          cases deferred with
          | nil => rfl
          | cons x xs => simp at hlen
        subst hnil
        rcases hinv t hchain with h2 | h2
        · exact h2
        · obtain ⟨e, he⟩ := h2.2
          simp at he

theorem aliasChain_declChain : AliasChain declChain.Specs .Int32 "D" :=
  .step "D" "C" (by simp [declChain]) (by rfl)
    (.step "C" "B" (by simp [declChain]) (by rfl)
      (.step "B" "A" (by simp [declChain]) (by rfl)
        (.base "A" "int32" (by simp [declChain]) (by rfl))))

/-- The theorem of C1 at the chain D, C, B, A, int32 of §8. -/
theorem process_resolves_alias_chain_witness :
    (∀ k l, (listOrder k l).Perm l) ∧
    (declChain.Specs.map Prod.fst).Nodup ∧
    declChain.Identities = [] ∧
    AliasChain declChain.Specs .Int32 "D" ∧
    process listOrder 10 declChain = some (tableChain, none) ∧
    tableChain.lookup "D" = some (.BaseElem "D" .Int32) :=
  ⟨fun _ _ => List.Perm.refl _, by decide, rfl, aliasChain_declChain, by rfl,
    process_resolves_alias_chain listOrder (fun _ _ => List.Perm.refl _) 10 declChain
      (by decide) rfl .Int32 "D" aliasChain_declChain tableChain (by rfl)⟩

/-- The theorem of C6 at `map[string][]string`: the key stays a plain string, the slice
element becomes a `CsharpString`, which is not a plain string scalar. -/
theorem fixCsharpString_localizes_value_strings_witness :
    fixCsharpString elemMapStrings =
      .Map "" (.BaseElem "" .String) (.Slice "" (.CsharpString "")) ∧
    Elem.CsharpString "" ∈ valueLeaves (fixCsharpString elemMapStrings) ∧
    Elem.CsharpString "" ≠ .BaseElem "" .String :=
  ⟨by rfl, by simp [elemMapStrings, fixCsharpString, valueLeaves],
    (fixCsharpString_localizes_value_strings elemMapStrings).2.2.1 (.CsharpString "")
      (by simp [elemMapStrings, fixCsharpString, valueLeaves]) ""⟩

/-! ## The builder: several names, skipped fields, flattened embeds -/

theorem process_declAB :
    process listOrder 10 declAB =
      some ([("S", .Struct "S" [mkField 1 "A" (.BaseElem "" .Int),
        mkField 2 "B" (.BaseElem "" .Int)])], none) := by
  rfl

/-- C14: the declaration `A, B int` without annotation, met when the counter is 0, gives A
tagged 1 and B tagged 2 and leaves the counter at 3; met at 5 it gives tags 6 and 7 and
leaves 8. The branch for a field without tag literal has already taken the counter value
for `sf[0]` and moved the counter before the loop over the names starts, so the tags are
`c+1 .. c+k` and the counter ends at `c+k+1`. -/
theorem getField_multiple_names_skip_one_tag :
    getField declAB 2 fieldAB 0 =
      some (3, .ok [mkField 1 "A" (.BaseElem "" .Int), mkField 2 "B" (.BaseElem "" .Int)]) ∧
    getField declAB 2 fieldAB 5 =
      some (8, .ok [mkField 6 "A" (.BaseElem "" .Int), mkField 7 "B" (.BaseElem "" .Int)]) ∧
    process listOrder 10 declAB =
      some ([("S", .Struct "S" [mkField 1 "A" (.BaseElem "" .Int),
        mkField 2 "B" (.BaseElem "" .Int)])], none) := by
  refine ⟨by rfl, by rfl, process_declAB⟩

theorem annotationParts_some_of_head (fs : FileSet) (f : Field Expr) (s : String)
    (hs : s ≠ "") (h : (annotationParts fs f).headD "" = s) :
    ∃ t, f.Tag = some t ∧ annotationParts fs f = stringsSplitComma (tagBody fs.tagName t) := by
  cases hT : f.Tag with
  | none =>
    simp only [annotationParts, hT] at h
    exact absurd h.symm hs
  | some t => exact ⟨t, rfl, by simp [annotationParts, hT]⟩

/-- C16: a field whose annotation part 0 is exactly "-" makes `getField` return no field
and no error with the counter unchanged, so `parseFieldList` goes on with the following
fields from the same counter. -/
theorem getField_skips_dash (fs : FileSet) (f : Field Expr) (c fuel : Nat)
    (hskip : (annotationParts fs f).headD "" = "-") :
    getField fs (fuel + 1) f c = some (c, .ok []) ∧
    ∀ rest, parseFieldList fs (fuel + 2) (f :: rest) c = parseFieldList fs (fuel + 1) rest c := by
  obtain ⟨t, hT, hparts⟩ := annotationParts_some_of_head fs f "-" (by decide) hskip
  rw [hparts] at hskip
  have hstep : getFieldTag fs f c = .skip := by
    simp only [List.headD_eq_head?_getD] at hskip
    simp only [getFieldTag, hT, List.headD_eq_head?_getD, hskip]
    simp
  have h1 : ∀ n, getField fs (n + 1) f c = some (c, .ok []) := by
    intro n
    simp only [getField, hstep]
  refine ⟨h1 fuel, ?_⟩
  intro rest
  simp only [parseFieldList, h1 fuel]
  cases parseFieldList fs (fuel + 1) rest c with
  | none => rfl
  | some r =>
    obtain ⟨c1, res⟩ := r
    cases res with
    | error err => rfl
    | ok out => simp

/-- The theorem of C16 at the field `A int` annotated msg:"-", followed by a plain field,
which takes the tag 7 the skipped field would have had. -/
theorem getField_skips_dash_witness :
    (annotationParts declS fieldSkipped).headD "" = "-" ∧
    (getField declS (0 + 1) fieldSkipped 7 = some (7, .ok []) ∧
      ∀ rest, parseFieldList declS (0 + 2) (fieldSkipped :: rest) 7 =
        parseFieldList declS (0 + 1) rest 7) ∧
    parseFieldList declS 4 [fieldSkipped, fieldPlain] 7 =
      some (8, .ok [mkField 7 "A" (.BaseElem "" .Int)]) :=
  ⟨by rfl, getField_skips_dash declS fieldSkipped 7 0 (by rfl), by rfl⟩

theorem getFieldTag_flatten (fs : FileSet) (f : Field Expr) (c c0 : Nat)
    (hnames : f.Names = [])
    (hflat : (annotationParts fs f).tail.head? = some "flatten")
    (hcase : ((annotationParts fs f).headD "" = "" ∧ c0 = c) ∨
      parseUint16 ((annotationParts fs f).headD "") = some c0) :
    getFieldTag fs f c =
      .go emptyField (decide ((annotationParts fs f).tail.head? = some "extension")) true c0 := by
  cases hT : f.Tag with
  | none =>
    simp [annotationParts, hT] at hflat
  | some lit =>
    have hparts : annotationParts fs f = stringsSplitComma (tagBody fs.tagName lit) := by
      simp [annotationParts, hT]
    rw [hparts] at hflat hcase
    rw [hparts]
    have hfl : decide ((stringsSplitComma (tagBody fs.tagName lit)).tail.head? =
        some "flatten") = true := decide_eq_true hflat
    rcases hcase with h | h
    · obtain ⟨h0, hc⟩ := h
      subst hc
      simp only [List.headD_eq_head?_getD] at h0
      simp only [getFieldTag, hT, List.headD_eq_head?_getD, hfl, h0, hnames]
      simp
    · obtain ⟨hne, hdash⟩ := parseUint16_some_ne _ _ h
      have hlen := string_length_pos_of_ne _ hne
      simp only [List.headD_eq_head?_getD] at h hdash hlen
      simp only [getFieldTag, hT, List.headD_eq_head?_getD, hfl, h, hnames]
      simp [hdash, hlen]

/-- C15: for an anonymous field annotated flatten whose type is the name of a struct
declared in the unit, `getField` is `parseFieldList` on the field list of that struct,
started from the number of the annotation when part 0 gives one and from the current
counter when part 0 is empty; the embed adds no field of its own, and `parseFieldList`
of the parent continues with the rest from the counter that call returns. -/
theorem getField_flatten_splices (fs : FileSet) (f : Field Expr) (name : String)
    (fields : List (Field Expr)) (c c0 fuel : Nat)
    (hnames : f.Names = []) (htyp : f.Typ = .Ident name)
    (hspec : fs.Specs.lookup name = some (.StructType fields))
    (hflat : (annotationParts fs f).tail.head? = some "flatten")
    (hcase : ((annotationParts fs f).headD "" = "" ∧ c0 = c) ∨
      parseUint16 ((annotationParts fs f).headD "") = some c0) :
    getField fs (fuel + 2) f c = parseFieldList fs fuel fields c0 ∧
    ∀ rest c1 fds, parseFieldList fs fuel fields c0 = some (c1, .ok fds) →
      parseFieldList fs (fuel + 3) (f :: rest) c =
        match parseFieldList fs (fuel + 2) rest c1 with
        | none => none
        | some (c2, .error err) => some (c2, .error err)
        | some (c2, .ok out) => some (c2, .ok (fds ++ out)) := by
  have hgo := getFieldTag_flatten fs f c c0 hnames hflat hcase
  have h1 : getField fs (fuel + 2) f c = parseFieldList fs fuel fields c0 := by
    simp only [getField, hgo, htyp, parseExpr, hnames, if_true,
      getFieldsFromEmbeddedStruct, hspec]
  refine ⟨h1, ?_⟩
  intro rest c1 fds hres
  simp only [parseFieldList, h1, hres]

/-- The theorem of C15 at the embed `EmbeddableStructAN` annotated msg:"32,flatten" of
`AllowNil0`, met at counter 28: SomeEmbed is tagged 32, SomeInt32 is tagged 33 and the
counter is left at 34. -/
theorem getField_flatten_splices_witness :
    fieldEmbedFlat.Names = [] ∧ fieldEmbedFlat.Typ = .Ident "EmbeddableStructAN" ∧
    (annotationParts declEmbeddable fieldEmbedFlat).tail.head? = some "flatten" ∧
    parseUint16 ((annotationParts declEmbeddable fieldEmbedFlat).headD "") = some 32 ∧
    getField declEmbeddable (6 + 2) fieldEmbedFlat 28 =
      some (34, .ok [mkField 32 "SomeEmbed" (.Slice "" (.BaseElem "" .String)),
        mkField 33 "SomeInt32" (.Slice "" (.BaseElem "" .Int32))]) :=
  ⟨rfl, rfl, by rfl, by rfl,
    ((getField_flatten_splices declEmbeddable fieldEmbedFlat "EmbeddableStructAN" _ 28 32 6
      rfl rfl (by rfl) (by rfl) (Or.inr (by rfl))).1).trans (by rfl)⟩

/-! ## The tag normaliser on gap-free structs -/

theorem foldl_maxTag_mem (l : List SField) : ∀ m : Nat,
    l.foldl (fun m f => if f.FieldTag > m then f.FieldTag else m) m = m ∨
    l.foldl (fun m f => if f.FieldTag > m then f.FieldTag else m) m ∈ fieldTags l := by
  induction l with
  | nil => intro m; exact Or.inl rfl
  | cons g gs ih =>
    intro m
    simp only [List.foldl_cons]
    have hcons : fieldTags (g :: gs) = g.FieldTag :: fieldTags gs := rfl
    rw [hcons]
    by_cases hc : g.FieldTag > m
    · simp only [hc, if_true]
      rcases ih g.FieldTag with h | h
      · exact Or.inr (by rw [h]; exact List.mem_cons_self _ _)
      · exact Or.inr (List.mem_cons_of_mem _ h)
    · simp only [hc, if_false]
      rcases ih m with h | h
      · exact Or.inl h
      · exact Or.inr (List.mem_cons_of_mem _ h)

theorem maxTag_of_dense (fields : List SField) (hne : fields ≠ [])
    (hperm : (fieldTags fields).Perm (List.range fields.length)) :
    fields.length = maxTag fields + 1 := by
  have hlen : 0 < fields.length := by
    cases fields with
    | nil => exact absurd rfl hne
    | cons f fs => simp
  have hlast : fields.length - 1 ∈ fieldTags fields :=
    hperm.mem_iff.2 (List.mem_range.2 (by omega))
  obtain ⟨f, hf, hftag⟩ := List.mem_map.1 hlast
  have hge : fields.length - 1 ≤ maxTag fields := by
    have := le_maxTag fields f hf
    omega
  have hle : maxTag fields < fields.length := by
    rcases foldl_maxTag_mem fields 0 with h | h
    · have : maxTag fields = 0 := h
      omega
    · have : maxTag fields ∈ fieldTags fields := h
      exact List.mem_range.1 (hperm.mem_iff.1 this)
  omega

/-- C17: for a struct whose field tags are exactly `0..max`, each once (in any order),
the loop body of `sortAndFillMsgFields` returns for every fuel the field list with the
same length, order, tags and names: no placeholder is added and nothing is reordered
(only the elements went through the localized-string pass). -/
theorem sortAndFillFields_keeps_gap_free (fields : List SField) (fuel : Nat)
    (hperm : (fieldTags fields).Perm (List.range fields.length)) :
    sortAndFillFields fuel fields = some (fixRangeCopy fields) ∧
    (fixRangeCopy fields).length = fields.length ∧
    fieldTags (fixRangeCopy fields) = fieldTags fields ∧
    (fixRangeCopy fields).map (fun f => f.FieldName) = fields.map (fun f => f.FieldName) := by
  refine ⟨?_, by simp [fixRangeCopy], fieldTags_fixRangeCopy fields,
    by simp [fixRangeCopy, List.map_map, Function.comp_def]⟩
  cases fields with
  | nil => rfl
  | cons f fs =>
    exact sortAndFillFields_full (f :: fs) fuel (List.cons_ne_nil _ _)
      (maxTag_of_dense (f :: fs) (List.cons_ne_nil _ _) hperm)

/-- The theorem of C17 at the struct of `declSwapped`, tagged 1 and 0. -/
theorem sortAndFillFields_keeps_gap_free_witness :
    (fieldTags [mkTagged 1 "1" "A" (.BaseElem "" .Int),
      mkTagged 0 "0" "B" (.BaseElem "" .Int)]).Perm
      (List.range [mkTagged 1 "1" "A" (.BaseElem "" .Int),
        mkTagged 0 "0" "B" (.BaseElem "" .Int)].length) ∧
    sortAndFillFields 0 [mkTagged 1 "1" "A" (.BaseElem "" .Int),
        mkTagged 0 "0" "B" (.BaseElem "" .Int)] =
      some [mkTagged 1 "1" "A" (.BaseElem "" .Int), mkTagged 0 "0" "B" (.BaseElem "" .Int)] :=
  ⟨by decide,
    (sortAndFillFields_keeps_gap_free [mkTagged 1 "1" "A" (.BaseElem "" .Int),
      mkTagged 0 "0" "B" (.BaseElem "" .Int)] 0 (by decide)).1⟩

/-! ## The inlining pass: unresolved identifiers -/

theorem process_declNestedMissing :
    process listOrder 10 declNestedMissing = some (tableNestedMissing, none) := by
  rfl

theorem process_declTopMissing :
    process listOrder 10 declTopMissing = some (tableTopMissing, none) := by
  rfl

/-- C18: on `type S struct { X struct { Y Missing } }` the pass reaches the reference to
the undeclared `Missing` inside the struct nested in field X and returns nil: `nextInline`
stores the error of the field in `err` and then leaves the switch through `return nil`.
The same reference directly in a field of the top-level struct is reported. -/
theorem propInline_swallows_nested_unresolved_identifier :
    process listOrder 10 declNestedMissing = some (tableNestedMissing, none) ∧
    propInline 10 tableNestedMissing = .ret (tableNestedMissing, none) ∧
    nextInline tableNestedMissing "S" 10 (fun x => x) (.BaseElem "Missing" .IDENT) "S" =
      .ret (.BaseElem "Missing" .IDENT, some (.unresolvedIdentifier "Missing")) ∧
    propInline 10 tableTopMissing =
      .ret (tableTopMissing, some (.unresolvedIdentifier "Missing")) := by
  refine ⟨process_declNestedMissing, by rfl, by rfl, by rfl⟩

/-! ## The builder: map keys -/

theorem process_declBoolKey :
    process listOrder 10 declBoolKey = some (tableBoolKey, none) := by
  rfl

/-- C12: on `type intflag bool; type M map[intflag]string` the key is an identifier that
names a boolean type, yet `parseExpr` accepts the map and the passes keep it: the test
only looks whether the type name of the key starts with "int" or "uint". A key spelled
`bool` is refused with the key-kind error. -/
theorem parseExpr_accepts_key_named_like_an_integer :
    parseExpr declBoolKey 5 (.MapType (.Ident "intflag") (.Ident "string")) =
      some (.ok (some (.Map "" (.BaseElem "intflag" .IDENT) (.BaseElem "" .String)))) ∧
    process listOrder 10 declBoolKey = some (tableBoolKey, none) ∧
    propInline 10 tableBoolKey = .ret (tableBoolKey, none) ∧
    parseExpr declBoolKey 5 (.MapType (.Ident "bool") (.Ident "string")) =
      some (.error .mapKey) := by
  refine ⟨by rfl, process_declBoolKey, by rfl, by rfl⟩

/-! ## The inlining pass: what continues after a defect -/

theorem process_declAcc : process listOrder 10 declAcc = some (tableAcc, none) := by rfl

theorem inlineFields_spec (nextIn : (Elem → Elem) → Elem → Outcome (Elem × Option Err))
    (plugFields : List SField → Elem) :
    ∀ (rest done : List SField) (tagsValue : List Nat) (err : Option Err)
      (out : List SField) (err1 : Option Err),
      inlineFields nextIn plugFields done rest tagsValue err = .ret (out, err1) →
      (err ≠ none → err1 ≠ none) ∧
      ∃ processed, out = done ++ processed ∧
        List.Forall₂ (fun f g => g.FieldTag = f.FieldTag ∧ g.FieldName = f.FieldName ∧
          ∃ p e2, nextIn p f.FieldElem = .ret (g.FieldElem, e2) ∧ (e2 ≠ none → err1 ≠ none))
          rest processed := by
  intro rest
  induction rest with
  | nil =>
    intro done tagsValue err out err1 h
    simp only [inlineFields] at h
    injection h with h
    injection h with h1 h2
    subst h1; subst h2
    exact ⟨fun h => h, [], by simp, List.Forall₂.nil⟩
  | cons f rest ih =>
    intro done tagsValue err out err1 h
    simp only [inlineFields] at h
    cases hn : nextIn (fun x => plugFields (done ++ { f with FieldElem := x } :: rest))
        f.FieldElem with
    | diverge => rw [hn] at h; simp at h
    | panic => rw [hn] at h; simp at h
    | ret r =>
      obtain ⟨e, err2⟩ := r
      rw [hn] at h
      simp only at h
      by_cases htag : f.FieldTag < 256
      · rw [if_pos htag] at h
        by_cases hdup : tagsValue.getD f.FieldTag 0 ≠ 0
        · rw [if_pos hdup] at h
          obtain ⟨hkeep, processed, hout, hall⟩ := ih _ _ _ _ _ h
          have hsome : err1 ≠ none := hkeep (by simp)
          refine ⟨fun _ => hsome, { f with FieldElem := e } :: processed, ?_, ?_⟩
          · rw [hout]; simp
          · exact List.Forall₂.cons ⟨rfl, rfl, _, err2, hn, fun _ => hsome⟩ hall
        · rw [if_neg hdup] at h
          obtain ⟨hkeep, processed, hout, hall⟩ := ih _ _ _ _ _ h
          refine ⟨?_, { f with FieldElem := e } :: processed, ?_, ?_⟩
          · intro herr
            apply hkeep
            cases err2 with
            | none => exact herr
            | some e2 => simp
          · rw [hout]; simp
          · refine List.Forall₂.cons ⟨rfl, rfl, _, err2, hn, ?_⟩ hall
            intro he2
            apply hkeep
            cases err2 with
            | none => exact absurd rfl he2
            | some e2 => simp
      · rw [if_neg htag] at h
        simp at h

theorem propInlineLoop_stops (fuel : Nat) :
    ∀ (names : List String) (ids ids1 : List (String × Elem)) (err : Err),
      propInlineLoop fuel names ids = .ret (ids1, some err) →
      ∃ pre name post idsPre el el1, names = pre ++ name :: post ∧
        propInlineLoop fuel pre ids = .ret (idsPre, none) ∧
        idsPre.lookup name = some el ∧
        propInlineElem idsPre fuel name el = .ret (el1, some err) ∧
        ids1 = mapSet idsPre name el1 := by
  intro names
  induction names with
  | nil =>
    intro ids ids1 err h
    simp [propInlineLoop] at h
  | cons name rest ih =>
    intro ids ids1 err h
    simp only [propInlineLoop] at h
    cases hl : ids.lookup name with
    | none =>
      rw [hl] at h
      simp only at h
      obtain ⟨pre, nm, post, idsPre, el, el1, h1, h2, h3, h4, h5⟩ := ih _ _ _ h
      refine ⟨name :: pre, nm, post, idsPre, el, el1, by rw [h1]; rfl, ?_, h3, h4, h5⟩
      simp only [propInlineLoop, hl, h2]
    | some el =>
      rw [hl] at h
      simp only at h
      cases hp : propInlineElem ids fuel name el with
      | diverge => rw [hp] at h; simp at h
      | panic => rw [hp] at h; simp at h
      | ret r =>
        obtain ⟨el1, oerr⟩ := r
        rw [hp] at h
        cases oerr with
        | some e1 =>
          simp only at h
          injection h with h
          injection h with h1 h2
          injection h2 with h2
          subst h1; subst h2
          exact ⟨[], name, rest, ids, el, el1, rfl, rfl, hl, hp, rfl⟩
        | none =>
          simp only at h
          obtain ⟨pre, nm, post, idsPre, el2, el3, h1, h2, h3, h4, h5⟩ := ih _ _ _ h
          refine ⟨name :: pre, nm, post, idsPre, el2, el3, by rw [h1]; rfl, ?_, h3, h4, h5⟩
          simp only [propInlineLoop, hl, hp, h2]

theorem inlineFields_repeat (nextIn : (Elem → Elem) → Elem → Outcome (Elem × Option Err))
    (plugFields : List SField → Elem) :
    ∀ (rest done : List SField) (tagsValue : List Nat) (err : Option Err)
      (out : List SField) (err1 : Option Err),
      inlineFields nextIn plugFields done rest tagsValue err = .ret (out, err1) →
      tagsValue.length = 256 →
      (err ≠ none ∨ (∃ f ∈ rest, tagsValue.getD f.FieldTag 0 ≠ 0) ∨
        ¬ rest.Pairwise (fun f g => f.FieldTag = g.FieldTag → f.FieldTag = 0)) →
      err1 ≠ none := by
  intro rest
  induction rest with
  | nil =>
    intro done tagsValue err out err1 h _ hcase
    simp only [inlineFields] at h
    injection h with h
    injection h with h1 h2
    subst h2
    rcases hcase with hc | ⟨f, hf, _⟩ | hc
    · exact hc
    · simp at hf
    · exact absurd List.Pairwise.nil hc
  | cons f rest ih =>
    intro done tagsValue err out err1 h hlen hcase
    simp only [inlineFields] at h
    cases hn : nextIn (fun x => plugFields (done ++ { f with FieldElem := x } :: rest))
        f.FieldElem with
    | diverge => rw [hn] at h; simp at h
    | panic => rw [hn] at h; simp at h
    | ret r =>
      obtain ⟨e, err2⟩ := r
      rw [hn] at h
      simp only at h
      by_cases htag : f.FieldTag < 256
      · rw [if_pos htag] at h
        by_cases hdup : tagsValue.getD f.FieldTag 0 ≠ 0
        · rw [if_pos hdup] at h
          exact ih _ _ _ _ _ h hlen (Or.inl (by simp))
        · rw [if_neg hdup] at h
          have hzero : tagsValue.getD f.FieldTag 0 = 0 := not_not.1 hdup
          have hlen1 : (tagsValue.set f.FieldTag f.FieldTag).length = 256 := by
            rw [List.length_set]; exact hlen
          have hself : (tagsValue.set f.FieldTag f.FieldTag).getD f.FieldTag 0 = f.FieldTag := by
            simp [List.getD_eq_getElem?_getD, List.getElem?_set, hlen, htag]
          have hother : ∀ t, t ≠ f.FieldTag →
              (tagsValue.set f.FieldTag f.FieldTag).getD t 0 = tagsValue.getD t 0 := by
            intro t ht
            simp [List.getD_eq_getElem?_getD, List.getElem?_set, Ne.symm ht]
          refine ih _ _ _ _ _ h hlen1 ?_
          rcases hcase with hc | ⟨g, hg, hseen⟩ | hc
          · left
            cases err2 with
            | none => exact hc
            | some e2 => simp
          · rcases List.mem_cons.1 hg with hg | hg
            · subst hg
              exact absurd hzero hseen
            · right; left
              refine ⟨g, hg, ?_⟩
              by_cases hsame : g.FieldTag = f.FieldTag
              · rw [hsame] at hseen
                exact absurd hzero hseen
              · rw [hother _ hsame]
                exact hseen
          · by_cases hP : rest.Pairwise (fun f g => f.FieldTag = g.FieldTag → f.FieldTag = 0)
            · have hex : ∃ g ∈ rest, f.FieldTag = g.FieldTag ∧ f.FieldTag ≠ 0 := by
                by_contra hno
                apply hc
                refine List.Pairwise.cons ?_ hP
                intro g hg heq
                by_contra hne
                exact hno ⟨g, hg, heq, hne⟩
              obtain ⟨g, hg, heq, hne⟩ := hex
              right; left
              refine ⟨g, hg, ?_⟩
              rw [← heq, hself]
              exact hne
            · right; right
              exact hP
      · rw [if_neg htag] at h
        simp at h

theorem propInlineElem_struct (ids : List (String × Elem)) (fuel : Nat) (name a : String)
    (fields : List SField) (el1 : Elem) (err : Option Err)
    (h : propInlineElem ids fuel name (.Struct a fields) = .ret (el1, err)) :
    ∃ fields1, el1 = .Struct a fields1 ∧
      inlineFields (fun p e => nextInline ids name fuel p e name) (fun fs1 => .Struct a fs1)
        [] fields (List.replicate 256 0) none = .ret (fields1, err) := by
  simp only [propInlineElem] at h
  cases hi : inlineFields (fun p e => nextInline ids name fuel p e name)
      (fun fs1 => .Struct a fs1) [] fields (List.replicate 256 0) none with
  | diverge => rw [hi] at h; simp at h
  | panic => rw [hi] at h; simp at h
  | ret r =>
    obtain ⟨fs1, e⟩ := r
    rw [hi] at h
    simp only at h
    injection h with h
    injection h with h1 h2
    subst h1; subst h2
    exact ⟨fs1, rfl, rfl⟩

theorem propInlineLoop_append (fuel : Nat) :
    ∀ (pre rest : List String) (ids idsPre : List (String × Elem)),
      propInlineLoop fuel pre ids = .ret (idsPre, none) →
      propInlineLoop fuel (pre ++ rest) ids = propInlineLoop fuel rest idsPre := by
  intro pre
  induction pre with
  | nil =>
    intro rest ids idsPre h
    simp only [propInlineLoop] at h
    injection h with h
    injection h with h1 _
    subst h1
    rfl
  | cons name pre ih =>
    intro rest ids idsPre h
    simp only [propInlineLoop, List.cons_append] at h ⊢
    cases hl : ids.lookup name with
    | none =>
      rw [hl] at h
      simp only at h ⊢
      exact ih rest ids idsPre h
    | some el =>
      rw [hl] at h
      simp only at h ⊢
      cases hp : propInlineElem ids fuel name el with
      | diverge => rw [hp] at h; simp at h
      | panic => rw [hp] at h; simp at h
      | ret r =>
        obtain ⟨el1, oerr⟩ := r
        rw [hp] at h
        cases oerr with
        | some e1 => simp at h
        | none =>
          simp only at h ⊢
          exact ih rest _ idsPre h

/-- C19 (amended): inside one top-level struct the pass accumulates. Whenever the pass
returns for a struct that is an entry of the table, every field was handed to
`nextInline` and kept its tag and name; an error that `nextInline` returned for any
field, and a tag other than 0 carried by two fields, leave the returned error set.
Across top-level types the pass does not accumulate: a top-level type whose processing
returns an error ends `propInline` with that error and the table reached right after
it, whatever names follow in the sorted order; and whenever `propInline` returns an
error, it is the error of the first top-level type that yielded one. -/
theorem propInline_accumulates_within_a_struct_only (fuel : Nat) :
    (∀ (ids : List (String × Elem)) (name a : String) (fields : List SField) (el1 : Elem)
      (err : Option Err),
      propInlineElem ids fuel name (.Struct a fields) = .ret (el1, err) →
      ∃ fields1, el1 = .Struct a fields1 ∧
        List.Forall₂ (fun f g => g.FieldTag = f.FieldTag ∧ g.FieldName = f.FieldName ∧
          ∃ p e2, nextInline ids name fuel p f.FieldElem name = .ret (g.FieldElem, e2) ∧
            (e2 ≠ none → err ≠ none)) fields fields1 ∧
        (¬ fields.Pairwise (fun f g => f.FieldTag = g.FieldTag → f.FieldTag = 0) →
          err ≠ none)) ∧
    (∀ (pre post : List String) (name : String) (ids idsPre : List (String × Elem))
      (el el1 : Elem) (err : Err),
      propInlineLoop fuel pre ids = .ret (idsPre, none) →
      idsPre.lookup name = some el →
      propInlineElem idsPre fuel name el = .ret (el1, some err) →
      propInlineLoop fuel (pre ++ name :: post) ids =
        .ret (mapSet idsPre name el1, some err)) ∧
    (∀ (names : List String) (ids ids1 : List (String × Elem)) (err : Err),
      propInlineLoop fuel names ids = .ret (ids1, some err) →
      ∃ pre name post idsPre el el1, names = pre ++ name :: post ∧
        propInlineLoop fuel pre ids = .ret (idsPre, none) ∧
        idsPre.lookup name = some el ∧
        propInlineElem idsPre fuel name el = .ret (el1, some err) ∧
        ids1 = mapSet idsPre name el1) := by
  refine ⟨?_, ?_, propInlineLoop_stops fuel⟩
  · intro ids name a fields el1 err h
    obtain ⟨fields1, hel, hin⟩ := propInlineElem_struct ids fuel name a fields el1 err h
    obtain ⟨_, processed, hout, hall⟩ := inlineFields_spec _ _ _ _ _ _ _ _ hin
    have hp : processed = fields1 := by simpa using hout.symm
    subst hp
    refine ⟨processed, hel, hall, ?_⟩
    intro hrep
    exact inlineFields_repeat _ _ _ _ _ _ _ _ hin (List.length_replicate 256 0)
      (Or.inr (Or.inr hrep))
  · intro pre post name ids idsPre el el1 err hpre hl hp
    rw [propInlineLoop_append fuel pre (name :: post) ids idsPre hpre]
    simp only [propInlineLoop, hl, hp]

/-- The theorem of C19 at the struct `S` with two fields tagged 3 followed by a reference
to `N` (the reference is still replaced and the error is set), and at the unit `declAcc`,
where the pass ends after `A`. -/
theorem propInline_accumulates_within_a_struct_only_witness :
    propInlineElem tableAccWithin 10 "S"
        (.Struct "S" [mkField 3 "X" (.BaseElem "" .Int), mkField 3 "Y" (.BaseElem "" .Int),
          mkField 4 "F" (.BaseElem "N" .IDENT)]) =
      .ret (.Struct "S" [mkField 3 "X" (.BaseElem "" .Int), mkField 3 "Y" (.BaseElem "" .Int),
          mkField 4 "F" (.Slice "N" (.BaseElem "" .Int))], some .tagRepeated) ∧
    ¬ [mkField 3 "X" (.BaseElem "" .Int), mkField 3 "Y" (.BaseElem "" .Int),
        mkField 4 "F" (.BaseElem "N" .IDENT)].Pairwise
          (fun f g => f.FieldTag = g.FieldTag → f.FieldTag = 0) ∧
    (∃ fields1, Elem.Struct "S" [mkField 3 "X" (.BaseElem "" .Int),
          mkField 3 "Y" (.BaseElem "" .Int), mkField 4 "F" (.Slice "N" (.BaseElem "" .Int))] =
        .Struct "S" fields1 ∧
      List.Forall₂ (fun f g => g.FieldTag = f.FieldTag ∧ g.FieldName = f.FieldName ∧
        ∃ p e2, nextInline tableAccWithin "S" 10 p f.FieldElem "S" = .ret (g.FieldElem, e2) ∧
          (e2 ≠ none → some Err.tagRepeated ≠ none))
        [mkField 3 "X" (.BaseElem "" .Int), mkField 3 "Y" (.BaseElem "" .Int),
          mkField 4 "F" (.BaseElem "N" .IDENT)] fields1 ∧
      (¬ [mkField 3 "X" (.BaseElem "" .Int), mkField 3 "Y" (.BaseElem "" .Int),
          mkField 4 "F" (.BaseElem "N" .IDENT)].Pairwise
            (fun f g => f.FieldTag = g.FieldTag → f.FieldTag = 0) →
        some Err.tagRepeated ≠ none)) ∧
    propInlineLoop 10 ["N"] tableAcc = .ret (tableAcc, none) ∧
    propInlineLoop 10 (["N"] ++ "A" :: ["B"]) tableAcc =
      .ret (mapSet tableAcc "A" (.Struct "A" [mkTagged 3 "3" "X" (.BaseElem "" .Int),
        mkTagged 3 "3" "Y" (.BaseElem "" .Int)]), some .tagRepeated) :=
  ⟨by rfl, by decide,
    (propInline_accumulates_within_a_struct_only 10).1 tableAccWithin "S" "S" _ _ _ (by rfl),
    by rfl,
    (propInline_accumulates_within_a_struct_only 10).2.1 ["N"] ["B"] "A" tableAcc tableAcc
      (.Struct "A" [mkTagged 3 "3" "X" (.BaseElem "" .Int),
        mkTagged 3 "3" "Y" (.BaseElem "" .Int)])
      (.Struct "A" [mkTagged 3 "3" "X" (.BaseElem "" .Int),
        mkTagged 3 "3" "Y" (.BaseElem "" .Int)])
      .tagRepeated (by rfl) (by rfl) (by rfl)⟩

/-- C19 (as stated) fails: on `declAcc` the sorted order is N, A, B; `A` has two fields
tagged 3, `propInline` returns the error right after `A`, and `B` keeps its reference to
`N`, which the pass would have replaced by the definition of `N` had it gone on. -/
theorem propInline_stops_at_first_failing_type :
    process listOrder 10 declAcc = some (tableAcc, none) ∧
    (sortGelems tableAcc).map (fun g => g.1) = ["N", "A", "B"] ∧
    propInline 10 tableAcc = .ret (tableAcc, some .tagRepeated) ∧
    tableAcc.lookup "B" = some elemAccB ∧
    propInlineElem tableAcc 10 "B" elemAccB =
      .ret (.Struct "B" [mkField 0 "F" (.Slice "N" (.BaseElem "" .Int)),
        mkField 1 "G" (.BaseElem "" .Int), mkField 2 "H" (.BaseElem "" .Int)], none) := by
  refine ⟨process_declAcc, by rfl, by rfl, by rfl, by rfl⟩

/-! ## The builder: pointers -/

theorem fieldsHaveOptional_append (l1 l2 : List SField) :
    fieldsHaveOptional (l1 ++ l2) = (fieldsHaveOptional l1 || fieldsHaveOptional l2) := by
  induction l1 with
  | nil => simp [fieldsHaveOptional]
  | cons f fs ih => simp [fieldsHaveOptional, ih, Bool.or_assoc]

theorem hasOptional_Ident (x : String) : hasOptional (Ident x) = false := by
  unfold Ident
  split <;> rfl

theorem multiNameFields_noOptional (ex : Elem) (h : hasOptional ex = false) :
    ∀ (names : List String) (c : Nat), fieldsHaveOptional (multiNameFields ex names c).1 = false := by
  intro names
  induction names with
  | nil => intro c; rfl
  | cons nm rest ih =>
    intro c
    simp only [multiNameFields, fieldsHaveOptional, Elem.Copy, h, ih, Bool.or_self]

theorem castExtension_noOptional (ex ex1 : Elem) (h : hasOptional ex = false)
    (hc : castExtension ex = .ok ex1) : hasOptional ex1 = false := by
  cases ex with
  | Ptr a v => simp [hasOptional] at h
  | BaseElem a v =>
    simp only [castExtension] at hc
    injection hc with hc
    subst hc
    rfl
  | _ => simp [castExtension] at hc

theorem getFieldFinish_noOptional (sf0 : SField) (ex : Elem) (ext : Bool) (c c1 : Nat)
    (fds : List SField) (h : hasOptional ex = false)
    (hr : getFieldFinish sf0 ex ext c = some (c1, .ok fds)) : fieldsHaveOptional fds = false := by
  unfold getFieldFinish at hr
  split at hr
  · split at hr
    · rename_i ex1 hc
      injection hr with hr
      injection hr with _ hr
      injection hr with hr
      subst hr
      simp [fieldsHaveOptional, castExtension_noOptional ex ex1 h hc]
    · injection hr with hr
      injection hr with _ hr
      cases hr
  · injection hr with hr
    injection hr with _ hr
    injection hr with hr
    subst hr
    simp [fieldsHaveOptional, h]

theorem builder_noOptional (fs : FileSet) : ∀ fuel : Nat,
    (∀ e el, parseExpr fs fuel e = some (.ok (some el)) → hasOptional el = false) ∧
    (∀ l c c1 fds, parseFieldList fs fuel l c = some (c1, .ok fds) →
      fieldsHaveOptional fds = false) ∧
    (∀ f c c1 fds, getField fs fuel f c = some (c1, .ok fds) →
      fieldsHaveOptional fds = false) ∧
    (∀ e c c1 fds, getFieldsFromEmbeddedStruct fs fuel e c = some (c1, .ok fds) →
      fieldsHaveOptional fds = false) := by
  intro fuel
  induction fuel with
  | zero =>
    refine ⟨?_, ?_, ?_, ?_⟩
    · intro e el h; simp [parseExpr] at h
    · intro l c c1 fds h; simp [parseFieldList] at h
    · intro f c c1 fds h; simp [getField] at h
    · intro e c c1 fds h; simp [getFieldsFromEmbeddedStruct] at h
  | succ n ih =>
    obtain ⟨ih1, ih2, ih3, ih4⟩ := ih
    refine ⟨?_, ?_, ?_, ?_⟩
    · intro e el h
      unfold parseExpr at h
      split at h
      · -- MapType
        split at h
        · simp at h
        · simp at h
        · simp at h
        · rename_i kt hk
          split at h
          · simp at h
          · split at h
            · simp at h
            · simp at h
            · rename_i v hv
              injection h with h
              injection h with h
              injection h with h
              subst h
              simp [hasOptional, ih1 _ _ hk, ih1 _ _ hv]
            · simp at h
      · -- Ident
        injection h with h
        injection h with h
        injection h with h
        subst h
        exact hasOptional_Ident _
      · injection h with h
        injection h with h
        injection h with h
        subst h
        rfl
      · -- ArrayType
        split at h
        · simp at h
        · simp at h
        · simp at h
        · rename_i els hels
          have hno := ih1 _ _ hels
          split at h <;> first
            | (injection h with h; injection h with h; injection h with h; subst h
               simp [hasOptional, hno])
            | simp at h
      · simp at h
      · -- StructType
        split at h
        · simp at h
        · simp at h
        · rename_i fds hfds
          injection h with h
          injection h with h
          injection h with h
          subst h
          simp [hasOptional, ih2 _ _ _ _ hfds]
      · injection h with h
        injection h with h
        injection h with h
        subst h
        exact hasOptional_Ident _
      · split at h
        · injection h with h
          injection h with h
          injection h with h
          subst h
          rfl
        · simp at h
      · simp at h
    · intro l c c1 fds h
      cases l with
      | nil =>
        simp only [parseFieldList] at h
        injection h with h
        injection h with _ h
        injection h with h
        subst h
        rfl
      | cons field rest =>
        simp only [parseFieldList] at h
        split at h
        · simp at h
        · simp at h
        · rename_i c2 fds1 hg
          split at h
          · simp at h
          · simp at h
          · rename_i c3 out hrest
            injection h with h
            injection h with _ h
            injection h with h
            subst h
            rw [fieldsHaveOptional_append, ih3 _ _ _ _ hg, ih2 _ _ _ _ hrest]
            rfl
    · intro f c c1 fds h
      simp only [getField] at h
      split at h
      · injection h with h
        injection h with _ h
        injection h with h
        subst h
        rfl
      · simp at h
      · split at h
        · simp at h
        · simp at h
        · injection h with h
          injection h with _ h
          injection h with h
          subst h
          rfl
        · rename_i ex hex
          have hno := ih1 _ _ hex
          split at h
          · split at h
            · exact ih4 _ _ _ _ h
            · exact getFieldFinish_noOptional _ _ _ _ _ _ hno h
          · exact getFieldFinish_noOptional _ _ _ _ _ _ hno h
          · injection h with h
            injection h with _ h
            injection h with h
            subst h
            exact multiNameFields_noOptional ex hno _ _
    · intro e c c1 fds h
      simp only [getFieldsFromEmbeddedStruct] at h
      split at h
      · split at h
        · exact ih2 _ _ _ _ h
        · simp at h
      · simp at h
      · simp at h

theorem getFieldTag_not_skip (fs : FileSet) (f : Field Expr) (c : Nat)
    (h : (annotationParts fs f).headD "" ≠ "-") : getFieldTag fs f c ≠ .skip := by
  cases hT : f.Tag with
  | none => simp [getFieldTag, hT]
  | some lit =>
    have hparts : annotationParts fs f = stringsSplitComma (tagBody fs.tagName lit) := by
      simp [annotationParts, hT]
    rw [hparts] at h
    simp only [List.headD_eq_head?_getD] at h
    simp only [getFieldTag, hT, List.headD_eq_head?_getD, h, if_false]
    split
    · split
      · split <;> simp
      · simp
    · split
      · split
        · simp
        · split <;> simp
      · split <;> simp

theorem getField_pointer_field (fs : FileSet) (f : Field Expr) (x : Expr) (c fuel : Nat)
    (htyp : f.Typ = .StarExpr x) (h : (annotationParts fs f).headD "" ≠ "-") :
    ∃ c1 err, getField fs (fuel + 2) f c = some (c1, .error err) := by
  have hns := getFieldTag_not_skip fs f c h
  cases hg : getFieldTag fs f c with
  | skip => exact absurd hg hns
  | fail err c1 => exact ⟨c1, err, by simp only [getField, hg]⟩
  | go sf0 ext flat c1 =>
    exact ⟨c1, .starExpr, by simp only [getField, hg, htyp, parseExpr]⟩

theorem parseFieldList_pointer_field (fs : FileSet) (f : Field Expr) (x : Expr)
    (post : List (Field Expr)) (htyp : f.Typ = .StarExpr x)
    (h : (annotationParts fs f).headD "" ≠ "-") :
    ∀ (pre : List (Field Expr)) (n c : Nat) (r : Nat × Except Err (List SField)),
      parseFieldList fs n (pre ++ f :: post) c = some r → ∃ err, r.2 = .error err := by
  intro pre
  induction pre with
  | nil =>
    intro n c r hr
    cases n with
    | zero => simp [parseFieldList] at hr
    | succ m =>
      simp only [List.nil_append, parseFieldList] at hr
      cases m with
      | zero => simp [getField] at hr
      | succ k =>
        cases k with
        | zero =>
          have hns := getFieldTag_not_skip fs f c h
          cases hg : getFieldTag fs f c with
          | skip => exact absurd hg hns
          | fail err c1 =>
            simp only [getField, hg] at hr
            injection hr with hr
            subst hr
            exact ⟨_, rfl⟩
          | go sf0 ext flat c1 =>
            simp [getField, hg, htyp, parseExpr] at hr
        | succ j =>
          obtain ⟨c1, err, hg⟩ := getField_pointer_field fs f x c j htyp h
          rw [hg] at hr
          simp only at hr
          injection hr with hr
          subst hr
          exact ⟨_, rfl⟩
  | cons g pre ih =>
    intro n c r hr
    cases n with
    | zero => simp [parseFieldList] at hr
    | succ m =>
      simp only [List.cons_append, parseFieldList] at hr
      split at hr
      · simp at hr
      · injection hr with hr
        subst hr
        exact ⟨_, rfl⟩
      · split at hr
        · simp at hr
        · injection hr with hr
          subst hr
          exact ⟨_, rfl⟩
        · rename_i c2 fds hg c3 out hrest
          obtain ⟨err, herr⟩ := ih _ _ _ hrest
          simp at herr

theorem parseExpr_map_pointer_value (fs : FileSet) (n : Nat) (k x : Expr) (kt : Elem)
    (hk : parseExpr fs n k = some (.ok (some kt)))
    (hx : parseExpr fs n (.StarExpr x) = some (.error .starExpr)) :
    ∃ err, parseExpr fs (n + 1) (.MapType k (.StarExpr x)) = some (.error err) := by
  simp only [parseExpr, hk, hx]
  split
  · exact ⟨_, rfl⟩
  · exact ⟨_, rfl⟩

/-- C13 (amended): `parseExpr` fails with an error on every pointer fragment, and so does
a fragment with a pointer as slice or array element, as map key, as map value when the
key translates to an element, or as the type of a struct field that is not skipped;
`getField` returns that error for such a field. No element the builder returns is or
contains an Optional node. -/
theorem parseExpr_rejects_pointers (fs : FileSet) (fuel : Nat) :
    (∀ x, parseExpr fs (fuel + 1) (.StarExpr x) = some (.error .starExpr)) ∧
    (∀ len x, parseExpr fs (fuel + 2) (.ArrayType len (.StarExpr x)) =
      some (.error .starExpr)) ∧
    (∀ x v, parseExpr fs (fuel + 2) (.MapType (.StarExpr x) v) = some (.error .starExpr)) ∧
    (∀ k kt x, parseExpr fs (fuel + 1) k = some (.ok (some kt)) →
      ∃ err, parseExpr fs (fuel + 2) (.MapType k (.StarExpr x)) = some (.error err)) ∧
    (∀ f x c, f.Typ = .StarExpr x → (annotationParts fs f).headD "" ≠ "-" →
      ∃ c1 err, getField fs (fuel + 2) f c = some (c1, .error err)) ∧
    (∀ pre f post x n r, f.Typ = .StarExpr x → (annotationParts fs f).headD "" ≠ "-" →
      parseExpr fs n (.StructType (pre ++ f :: post)) = some r → ∃ err, r = .error err) ∧
    (∀ n e el, parseExpr fs n e = some (.ok (some el)) → hasOptional el = false) := by
  refine ⟨?_, ?_, ?_, ?_, ?_, ?_, ?_⟩
  · intro x
    simp only [parseExpr]
  · intro len x
    simp [parseExpr]
  · intro x v
    simp [parseExpr]
  · intro k kt x hk
    exact parseExpr_map_pointer_value fs (fuel + 1) k x kt hk (by simp only [parseExpr])
  · intro f x c htyp h
    exact getField_pointer_field fs f x c fuel htyp h
  · intro pre f post x n r htyp h hr
    cases n with
    | zero => simp [parseExpr] at hr
    | succ m =>
      simp only [parseExpr] at hr
      split at hr
      · simp at hr
      · injection hr with hr
        exact ⟨_, hr.symm⟩
      · rename_i c1 fds hfl
        obtain ⟨err, herr⟩ := parseFieldList_pointer_field fs f x post htyp h pre _ _ _ hfl
        simp at herr
  · intro n e el h
    exact (builder_noOptional fs n).1 e el h

/-- The theorem of C13 at `map[string]*T` and at the struct `struct { A int; P *T }`. -/
theorem parseExpr_rejects_pointers_witness :
    parseExpr declS (0 + 1) (.Ident "string") = some (.ok (some (.BaseElem "" .String))) ∧
    (∃ err, parseExpr declS (0 + 2) (.MapType (.Ident "string") (.StarExpr (.Ident "T"))) =
      some (.error err)) ∧
    fieldPtr.Typ = .StarExpr (.Ident "T") ∧
    (annotationParts declS fieldPtr).headD "" ≠ "-" ∧
    parseExpr declS 5 (.StructType ([fieldPlain] ++ fieldPtr :: [])) =
      some (.error (.fieldParse .starExpr)) ∧
    (∃ err, Except.error (.fieldParse .starExpr) = (.error err : Except Err (Option Elem))) :=
  ⟨by rfl,
    (parseExpr_rejects_pointers declS 0).2.2.2.1 (.Ident "string") _ (.Ident "T") (by rfl),
    rfl, by decide, by rfl,
    (parseExpr_rejects_pointers declS 0).2.2.2.2.2.1 [fieldPlain] fieldPtr [] (.Ident "T") 5 _
      rfl (by decide) (by rfl)⟩

/-- C13 (as stated) fails for a pointer as map value when the key has no translation:
`map[[N+1]int]*T` gives no element and no error, and `process` leaves the declared type
out of the table without failing. -/
theorem parseExpr_pointer_value_behind_untranslated_key :
    parseExpr declPtrValue 5 exprPtrValue = some (.ok none) ∧
    process listOrder 10 declPtrValue = some ([], none) := by
  refine ⟨by rfl, by rfl⟩

/-! ## The inlining pass: processing order -/

theorem insertGelem_perm (x : String × Elem) :
    ∀ l : List (String × Elem), (insertGelem x l).Perm (x :: l) := by
  intro l
  induction l with
  | nil => exact List.Perm.refl _
  | cons y ys ih =>
    simp only [insertGelem]
    split
    · exact List.Perm.refl _
    · exact (List.Perm.cons y ih).trans (List.Perm.swap x y ys)

theorem sortGelems_perm : ∀ l : List (String × Elem), (sortGelems l).Perm l := by
  intro l
  induction l with
  | nil => exact List.Perm.refl _
  | cons x xs ih => exact (insertGelem_perm x _).trans (List.Perm.cons x ih)

theorem lookup_eq_none_iff {α : Type} (m : List (String × α)) (k : String) :
    m.lookup k = none ↔ k ∉ m.map Prod.fst := by
  induction m with
  | nil => simp [List.lookup]
  | cons p rest ih =>
    obtain ⟨k2, w⟩ := p
    simp only [List.lookup, List.map_cons, List.mem_cons, not_or]
    by_cases h : k = k2
    · subst h
      simp
    · have h1 : (k == k2) = false := by simpa using h
      simp [h1, ih, h]

theorem keys_mapSet {α : Type} (m : List (String × α)) (k : String) (v : α) (t : String) :
    t ∈ (mapSet m k v).map Prod.fst ↔ (t = k ∨ t ∈ m.map Prod.fst) := by
  induction m with
  | nil => simp [mapSet]
  | cons p rest ih =>
    obtain ⟨k2, w⟩ := p
    simp only [mapSet]
    by_cases h : k2 = k
    · subst h
      simp
    · simp only [h, if_false, List.map_cons, List.mem_cons, ih]
      constructor
      · rintro (h1 | h1 | h1)
        · exact Or.inr (Or.inl h1)
        · exact Or.inl h1
        · exact Or.inr (Or.inr h1)
      · rintro (h1 | h1 | h1)
        · exact Or.inr (Or.inl h1)
        · exact Or.inl h1
        · exact Or.inr (Or.inr h1)

theorem ResolveInv.congr (ids ls idsc : List (String × Elem)) (P Q : String × Elem → Prop)
    (hPQ : ∀ x, P x ↔ Q x) (h : ResolveInv ids ls idsc P) : ResolveInv ids ls idsc Q := by
  obtain ⟨ha, hb, hc⟩ := h
  refine ⟨fun x hx => ha x ((hPQ x).2 hx), fun x hx hq => hb x hx (fun hp => hq ((hPQ x).1 hp)),
    ?_⟩
  intro t
  rw [hc t]
  constructor
  · rintro (h1 | ⟨e, h1, h2⟩)
    · exact Or.inl h1
    · exact Or.inr ⟨e, h1, fun hq => h2 ((hPQ _).2 hq)⟩
  · rintro (h1 | ⟨e, h1, h2⟩)
    · exact Or.inl h1
    · exact Or.inr ⟨e, h1, fun hp => h2 ((hPQ _).1 hp)⟩

theorem Reaches.pending (ids ls : List (String × Elem)) (n : String)
    (h : Reaches ids ls n) : ∃ e, (n, e) ∈ ls := by
  cases h with
  | direct _ e hpend _ => exact ⟨e, hpend⟩
  | via _ e hpend _ => exact ⟨e, hpend⟩

theorem resolvePass_inv (ids ls : List (String × Elem)) :
    ∀ (l idsc : List (String × Elem)) (K : String × Elem → Prop),
      (l.map Prod.fst).Nodup → (∀ x ∈ l, ¬ K x) →
      ResolveInv ids ls idsc (fun x => x ∈ l ∨ K x) →
      ResolveInv ids ls (resolvePass idsc l).1 (fun x => x ∈ (resolvePass idsc l).2.1 ∨ K x) ∧
      (resolvePass idsc l).2.1.Sublist l ∧
      ((resolvePass idsc l).2.2 = false →
        (resolvePass idsc l).1 = idsc ∧ (resolvePass idsc l).2.1 = l ∧
        ∀ x ∈ l, idsc.lookup x.2.TypeName = none) ∧
      ((resolvePass idsc l).2.2 = true → (resolvePass idsc l).2.1.length < l.length) := by
  intro l
  induction l with
  | nil =>
    intro idsc K _ _ hinv
    refine ⟨hinv, List.Sublist.refl _, fun _ => ⟨rfl, rfl, fun x hx => by simp at hx⟩, ?_⟩
    intro h
    simp [resolvePass] at h
  | cons hd rest ih =>
    obtain ⟨name, elem⟩ := hd
    intro idsc K hnd hK hinv
    simp only [List.map_cons, List.nodup_cons] at hnd
    obtain ⟨hname, hndrest⟩ := hnd
    have hnotrest : ∀ e, (name, e) ∉ rest := fun e he =>
      hname (List.mem_map.2 ⟨(name, e), he, rfl⟩)
    obtain ⟨ha, hb, hc⟩ := hinv
    simp only [resolvePass]
    cases hl : idsc.lookup elem.TypeName with
    | some real =>
      simp only
      have htarget : elem.TypeName ∈ idsc.map Prod.fst := by
        by_contra hcon
        rw [(lookup_eq_none_iff idsc _).2 hcon] at hl
        cases hl
      have hself : (name, elem) ∈ ls := ha _ (Or.inl (List.mem_cons_self _ _))
      have hreach : Reaches ids ls name := by
        rcases (hc _).1 htarget with h1 | ⟨e2, h1, h2⟩
        · exact Reaches.direct name elem hself h1
        · exact Reaches.via name elem hself (hb _ h1 h2)
      have hinv1 : ResolveInv ids ls (mapSet idsc name (real.Copy.Alias name))
          (fun x => x ∈ rest ∨ K x) := by
        refine ⟨?_, ?_, ?_⟩
        · intro x hx
          rcases hx with hx | hx
          · exact ha x (Or.inl (List.mem_cons_of_mem _ hx))
          · exact ha x (Or.inr hx)
        · intro x hx hnp
          by_cases hP : x ∈ (name, elem) :: rest ∨ K x
          · rcases hP with hP | hP
            · rcases List.mem_cons.1 hP with hP | hP
              · rw [hP]; exact hreach
              · exact absurd (Or.inl hP) hnp
            · exact absurd (Or.inr hP) hnp
          · exact hb x hx hP
        · intro t
          rw [keys_mapSet]
          constructor
          · rintro (h1 | h1)
            · subst h1
              refine Or.inr ⟨elem, hself, ?_⟩
              rintro (h2 | h2)
              · exact hnotrest _ h2
              · exact hK _ (List.mem_cons_self _ _) h2
            · rcases (hc t).1 h1 with h2 | ⟨e, h2, h3⟩
              · exact Or.inl h2
              · refine Or.inr ⟨e, h2, ?_⟩
                rintro (h4 | h4)
                · exact h3 (Or.inl (List.mem_cons_of_mem _ h4))
                · exact h3 (Or.inr h4)
          · rintro (h1 | ⟨e, h1, h2⟩)
            · exact Or.inr ((hc t).2 (Or.inl h1))
            · by_cases hP : (t, e) ∈ (name, elem) :: rest ∨ K (t, e)
              · rcases hP with hP | hP
                · rcases List.mem_cons.1 hP with hP | hP
                  · injection hP with h3 _
                    exact Or.inl h3
                  · exact absurd (Or.inl hP) h2
                · exact absurd (Or.inr hP) h2
              · exact Or.inr ((hc t).2 (Or.inr ⟨e, h1, hP⟩))
      obtain ⟨h1, h2, _, _⟩ := ih _ K hndrest
        (fun x hx => hK x (List.mem_cons_of_mem _ hx)) hinv1
      refine ⟨h1, List.Sublist.cons _ h2, ?_, ?_⟩
      · intro h
        cases h
      · intro _
        have := h2.length_le
        simp only [List.length_cons]
        omega
    | none =>
      simp only
      have hK1 : ∀ x ∈ rest, ¬ (x = (name, elem) ∨ K x) := by
        intro x hx
        rintro (h1 | h1)
        · rw [h1] at hx
          exact hnotrest _ hx
        · exact hK x (List.mem_cons_of_mem _ hx) h1
      have hinv1 : ResolveInv ids ls idsc (fun x => x ∈ rest ∨ (x = (name, elem) ∨ K x)) := by
        refine ResolveInv.congr ids ls idsc _ _ ?_ ⟨ha, hb, hc⟩
        intro x
        simp only [List.mem_cons]
        constructor
        · rintro ((h1 | h1) | h1)
          · exact Or.inr (Or.inl h1)
          · exact Or.inl h1
          · exact Or.inr (Or.inr h1)
        · rintro (h1 | h1 | h1)
          · exact Or.inl (Or.inr h1)
          · exact Or.inl (Or.inl h1)
          · exact Or.inr h1
      obtain ⟨h1, h2, h3, h4⟩ := ih idsc _ hndrest hK1 hinv1
      refine ⟨?_, List.Sublist.cons₂ _ h2, ?_, ?_⟩
      · refine ResolveInv.congr ids ls _ _ _ ?_ h1
        intro x
        simp only [List.mem_cons]
        constructor
        · rintro (h5 | h5 | h5)
          · exact Or.inl (Or.inr h5)
          · exact Or.inl (Or.inl h5)
          · exact Or.inr h5
        · rintro ((h5 | h5) | h5)
          · exact Or.inr (Or.inl h5)
          · exact Or.inl h5
          · exact Or.inr (Or.inr h5)
      · intro hp
        obtain ⟨h5, h6, h7⟩ := h3 hp
        refine ⟨h5, by rw [h6], ?_⟩
        intro x hx
        rcases List.mem_cons.1 hx with hx | hx
        · rw [hx]; exact hl
        · exact h7 x hx
      · intro hp
        have := h4 hp
        simp only [List.length_cons]
        omega

theorem resolveInv_start (ids ls : List (String × Elem)) :
    ResolveInv ids ls ids (fun x => x ∈ ls) := by
  refine ⟨fun x hx => hx, fun x hx hn => absurd hx hn, ?_⟩
  intro t
  constructor
  · intro h
    exact Or.inl h
  · rintro (h | ⟨e, h1, h2⟩)
    · exact h
    · exact absurd h1 h2

theorem resolveLoop_inv (order : Nat → List (String × Elem) → List (String × Elem))
    (horder : ∀ k l, (order k l).Perm l) (ids ls : List (String × Elem)) :
    ∀ (fuel k : Nat) (idsc lsc : List (String × Elem)),
      lsc.length < fuel → (lsc.map Prod.fst).Nodup →
      ResolveInv ids ls idsc (fun x => x ∈ lsc) →
      ∃ ids1 ls1, resolveLoop order fuel k idsc lsc = some (ids1, ls1) ∧
        ResolveInv ids ls ids1 (fun x => x ∈ ls1) ∧
        (∀ x ∈ ls1, ids1.lookup x.2.TypeName = none) := by
  intro fuel
  induction fuel with
  | zero =>
    intro k idsc lsc hlen _ _
    omega
  | succ fuel ih =>
    intro k idsc lsc hlen hnd hinv
    simp only [resolveLoop]
    by_cases hpos : lsc.length > 0
    · simp only [hpos, if_true]
      have hperm := horder k lsc
      have hnd1 : ((order k lsc).map Prod.fst).Nodup :=
        ((hperm.map Prod.fst).nodup_iff).2 hnd
      have hinv1 : ResolveInv ids ls idsc (fun x => x ∈ order k lsc ∨ False) := by
        refine ResolveInv.congr ids ls idsc _ _ ?_ hinv
        intro x
        simp only [or_false]
        exact (hperm.mem_iff).symm
      obtain ⟨h1, h2, h3, h4⟩ := resolvePass_inv ids ls (order k lsc) idsc (fun _ => False)
        hnd1 (fun _ _ h => h) hinv1
      have h1a : ResolveInv ids ls (resolvePass idsc (order k lsc)).1
          (fun x => x ∈ (resolvePass idsc (order k lsc)).2.1) := by
        refine ResolveInv.congr ids ls _ _ _ ?_ h1
        intro x
        simp only [or_false]
      cases hp : (resolvePass idsc (order k lsc)).2.2 with
      | true =>
        simp only [if_true]
        have hlt := h4 hp
        have hleq := hperm.length_eq
        exact ih (k + 1) _ _ (by omega) ((h2.map Prod.fst).nodup hnd1) h1a
      | false =>
        simp only [Bool.false_eq_true, if_false]
        obtain ⟨h5, h6, h7⟩ := h3 hp
        refine ⟨_, _, rfl, h1a, ?_⟩
        rw [h5, h6]
        exact h7
    · simp only [hpos, if_false]
      have hnil : lsc = [] := by
        cases lsc with
        | nil => rfl
        | cons a b => simp at hpos
      subst hnil
      exact ⟨_, _, rfl, hinv, fun x hx => by simp at hx⟩

theorem stuck_not_reaches (ids ls ids1 ls1 : List (String × Elem))
    (hnd : (ls.map Prod.fst).Nodup)
    (hinv : ResolveInv ids ls ids1 (fun x => x ∈ ls1))
    (hstuck : ∀ x ∈ ls1, ids1.lookup x.2.TypeName = none) :
    ∀ n, Reaches ids ls n → ∀ e, (n, e) ∈ ls1 → False := by
  obtain ⟨ha, hb, hc⟩ := hinv
  intro n hr
  induction hr with
  | direct n e0 hpend hin =>
    intro e he
    have heq : e = e0 := unique_of_nodup_keys ls hnd n e e0 (ha _ he) hpend
    subst heq
    have h1 := hstuck _ he
    exact (lookup_eq_none_iff ids1 _).1 h1 ((hc _).2 (Or.inl hin))
  | via n e0 hpend hnext ih =>
    intro e he
    have heq : e = e0 := unique_of_nodup_keys ls hnd n e e0 (ha _ he) hpend
    subst heq
    have h1 := hstuck _ he
    obtain ⟨e2, he2⟩ := Reaches.pending ids ls _ hnext
    by_cases hin : (e.TypeName, e2) ∈ ls1
    · exact ih e2 hin
    · exact (lookup_eq_none_iff ids1 _).1 h1 ((hc _).2 (Or.inr ⟨e2, he2, hin⟩))

/-- C11: for pending links with distinct names, under every map iteration order and with
fuel above the number of links, `resolve` returns; it returns nil exactly when the alias
target chain of every pending name reaches a name of the table it was given. The links
left pending are exactly the links whose chain never reaches the table, none of their
targets is in the final table (the last pass made no progress), and when some chain does
not reach the table the error is the one aggregated error listing each of them with its
target. -/
theorem resolve_succeeds_iff_chains_reach
    (order : Nat → List (String × Elem) → List (String × Elem))
    (horder : ∀ k l, (order k l).Perm l) (fuel : Nat) (ids ls : List (String × Elem))
    (hnd : (ls.map Prod.fst).Nodup) (hfuel : ls.length < fuel) :
    ∃ ids1 ls1,
      resolveLoop order fuel 0 ids ls = some (ids1, ls1) ∧
      (∀ x, x ∈ ls1 ↔ (x ∈ ls ∧ ¬ Reaches ids ls x.1)) ∧
      (∀ x ∈ ls1, ids1.lookup x.2.TypeName = none) ∧
      (resolve order fuel ids ls = some (ids1, none) ↔ ∀ x ∈ ls, Reaches ids ls x.1) ∧
      ((¬ ∀ x ∈ ls, Reaches ids ls x.1) →
        resolve order fuel ids ls =
          some (ids1, some (.unresolvedTypes (ls1.map (fun p => (p.1, p.2.TypeName)))))) := by
  obtain ⟨ids1, ls1, hloop, hinv, hstuck⟩ :=
    resolveLoop_inv order horder ids ls fuel 0 ids ls hfuel hnd (resolveInv_start ids ls)
  have hmem : ∀ x, x ∈ ls1 ↔ (x ∈ ls ∧ ¬ Reaches ids ls x.1) := by
    intro x
    constructor
    · intro hx
      refine ⟨hinv.1 x hx, fun hr => ?_⟩
      exact stuck_not_reaches ids ls ids1 ls1 hnd hinv hstuck x.1 hr x.2 hx
    · rintro ⟨hx, hnr⟩
      by_contra hcon
      exact hnr (hinv.2.1 x hx hcon)
  have hall : ls1 = [] ↔ ∀ x ∈ ls, Reaches ids ls x.1 := by
    constructor
    · intro h x hx
      by_contra hcon
      have := (hmem x).2 ⟨hx, hcon⟩
      rw [h] at this
      simp at this
    · intro h
      cases hl : ls1 with
      | nil => rfl
      | cons a b =>
        have h1 : a ∈ ls1 := by rw [hl]; exact List.mem_cons_self _ _
        exact absurd (h a ((hmem a).1 h1).1) ((hmem a).1 h1).2
  refine ⟨ids1, ls1, hloop, hmem, hstuck, ?_, ?_⟩
  · rw [← hall]
    simp only [resolve, hloop]
    cases ls1 with
    | nil => simp
    | cons a b => simp
  · intro hn
    have hne : ls1 ≠ [] := fun h => hn (hall.1 h)
    simp only [resolve, hloop]
    cases ls1 with
    | nil => exact absurd rfl hne
    | cons a b => simp

/-- The theorem of C11 at a table holding `A` and the pending links B to A, C to C, D to
E, E to D, F to Missing and G to B: B and G resolve, and C, D, E, F are reported. -/
theorem resolve_succeeds_iff_chains_reach_witness :
    (∀ k l, (listOrder k l).Perm l) ∧
    (linksPending.map Prod.fst).Nodup ∧
    linksPending.length < 10 ∧
    resolve listOrder 10 idsPending linksPending =
      some (tablePending, some (.unresolvedTypes
        [("C", "C"), ("D", "E"), ("E", "D"), ("F", "Missing")])) ∧
    ∃ ids1 ls1,
      resolveLoop listOrder 10 0 idsPending linksPending = some (ids1, ls1) ∧
      (∀ x, x ∈ ls1 ↔ (x ∈ linksPending ∧ ¬ Reaches idsPending linksPending x.1)) ∧
      (∀ x ∈ ls1, ids1.lookup x.2.TypeName = none) ∧
      (resolve listOrder 10 idsPending linksPending = some (ids1, none) ↔
        ∀ x ∈ linksPending, Reaches idsPending linksPending x.1) ∧
      ((¬ ∀ x ∈ linksPending, Reaches idsPending linksPending x.1) →
        resolve listOrder 10 idsPending linksPending =
          some (ids1, some (.unresolvedTypes (ls1.map (fun p => (p.1, p.2.TypeName)))))) :=
  ⟨fun _ _ => List.Perm.refl _, by decide, by decide, by rfl,
    resolve_succeeds_iff_chains_reach listOrder (fun _ _ => List.Perm.refl _) 10 idsPending
      linksPending (by decide) (by decide)⟩

/-! ## The alias resolver: independence of the iteration order -/

theorem resolvePass_sublist :
    ∀ (l idsc : List (String × Elem)), (resolvePass idsc l).2.1.Sublist l := by
  intro l
  induction l with
  | nil => intro idsc; exact List.Sublist.refl _
  | cons hd rest ih =>
    obtain ⟨name, elem⟩ := hd
    intro idsc
    simp only [resolvePass]
    cases idsc.lookup elem.TypeName with
    | some real => exact List.Sublist.cons _ (ih _)
    | none => exact List.Sublist.cons₂ _ (ih _)

theorem resolvePass_vals (ids ls : List (String × Elem)) :
    ∀ (l idsc : List (String × Elem)), (∀ x ∈ l, x ∈ ls) → ResolveVals ids ls idsc →
      ResolveVals ids ls (resolvePass idsc l).1 := by
  intro l
  induction l with
  | nil => intro idsc _ h; exact h
  | cons hd rest ih =>
    obtain ⟨name, elem⟩ := hd
    intro idsc hsub hv
    have hself : (name, elem) ∈ ls := hsub _ (List.mem_cons_self _ _)
    have hrest : ∀ x ∈ rest, x ∈ ls := fun x hx => hsub x (List.mem_cons_of_mem _ hx)
    simp only [resolvePass]
    cases hl : idsc.lookup elem.TypeName with
    | some real =>
      simp only
      refine ih _ hrest ?_
      intro t v ht
      by_cases htn : t = name
      · subst htn
        rw [lookup_mapSet_self] at ht
        injection ht with ht
        subst ht
        rcases hv _ _ hl with h1 | h1
        · exact Or.inr (Resolves.direct t elem real hself h1)
        · exact Or.inr (Resolves.via t elem real hself h1)
      · rw [lookup_mapSet_ne _ _ _ _ htn] at ht
        exact hv t v ht
    | none =>
      simp only
      exact ih _ hrest hv

theorem resolveLoop_vals (order : Nat → List (String × Elem) → List (String × Elem))
    (horder : ∀ k l, (order k l).Perm l) (ids ls : List (String × Elem)) :
    ∀ (fuel k : Nat) (idsc lsc ids1 ls1 : List (String × Elem)),
      resolveLoop order fuel k idsc lsc = some (ids1, ls1) →
      (∀ x ∈ lsc, x ∈ ls) → ResolveVals ids ls idsc → ResolveVals ids ls ids1 := by
  intro fuel
  induction fuel with
  | zero =>
    intro k idsc lsc ids1 ls1 h
    simp [resolveLoop] at h
  | succ fuel ih =>
    intro k idsc lsc ids1 ls1 h hsub hv
    simp only [resolveLoop] at h
    by_cases hpos : lsc.length > 0
    · simp only [hpos, if_true] at h
      have hsub1 : ∀ x ∈ order k lsc, x ∈ ls := fun x hx =>
        hsub x ((horder k lsc).mem_iff.1 hx)
      have hv1 := resolvePass_vals ids ls (order k lsc) idsc hsub1 hv
      cases hp : (resolvePass idsc (order k lsc)).2.2 with
      | true =>
        simp only [hp, if_true] at h
        refine ih _ _ _ _ _ h ?_ hv1
        intro x hx
        exact hsub1 x ((resolvePass_sublist (order k lsc) idsc).subset hx)
      | false =>
        simp only [hp, Bool.false_eq_true, if_false] at h
        injection h with h
        injection h with h3 h4
        rw [← h3]
        exact hv1
    · simp only [hpos, if_false] at h
      injection h with h
      injection h with h3 h4
      rw [← h3]
      exact hv

theorem Resolves.has_link (ids ls : List (String × Elem)) (n : String) (v : Elem)
    (h : Resolves ids ls n v) : ∃ e, (n, e) ∈ ls := by
  cases h with
  | direct _ e _ hpend _ => exact ⟨e, hpend⟩
  | via _ e _ hpend _ => exact ⟨e, hpend⟩

theorem Resolves.functional (ids ls : List (String × Elem))
    (hnd : (ls.map Prod.fst).Nodup) (hdisj : ∀ x ∈ ls, x.1 ∉ ids.map Prod.fst)
    (n : String) (v1 : Elem) (h1 : Resolves ids ls n v1) :
    ∀ v2, Resolves ids ls n v2 → v1 = v2 := by
  induction h1 with
  | direct n e real hpend hin =>
    intro v2 h2
    cases h2 with
    | direct _ e2 real2 hpend2 hin2 =>
      have he : e2 = e := unique_of_nodup_keys ls hnd n e2 e hpend2 hpend
      subst he
      rw [hin] at hin2
      injection hin2 with hin2
      rw [hin2]
    | via _ e2 real2 hpend2 hnext2 =>
      have he : e2 = e := unique_of_nodup_keys ls hnd n e2 e hpend2 hpend
      subst he
      obtain ⟨e3, he3⟩ := Resolves.has_link ids ls _ _ hnext2
      have hk : e2.TypeName ∈ ids.map Prod.fst := by
        by_contra hcon
        rw [(lookup_eq_none_iff ids _).2 hcon] at hin
        cases hin
      exact absurd hk (hdisj _ he3)
  | via n e real hpend hnext ih =>
    intro v2 h2
    cases h2 with
    | direct _ e2 real2 hpend2 hin2 =>
      have he : e2 = e := unique_of_nodup_keys ls hnd n e2 e hpend2 hpend
      subst he
      obtain ⟨e3, he3⟩ := Resolves.has_link ids ls _ _ hnext
      have hk : e2.TypeName ∈ ids.map Prod.fst := by
        by_contra hcon
        rw [(lookup_eq_none_iff ids _).2 hcon] at hin2
        cases hin2
      exact absurd hk (hdisj _ he3)
    | via _ e2 real2 hpend2 hnext2 =>
      have he : e2 = e := unique_of_nodup_keys ls hnd n e2 e hpend2 hpend
      subst he
      rw [ih real2 hnext2]

theorem resolveVals_start (ids ls : List (String × Elem)) : ResolveVals ids ls ids :=
  fun _ _ h => Or.inl h

theorem resolveLoop_result (order : Nat → List (String × Elem) → List (String × Elem))
    (horder : ∀ k l, (order k l).Perm l) (fuel : Nat) (ids ls : List (String × Elem))
    (hnd : (ls.map Prod.fst).Nodup) (hfuel : ls.length < fuel) :
    ∃ ids1 ls1, resolveLoop order fuel 0 ids ls = some (ids1, ls1) ∧
      ResolveInv ids ls ids1 (fun x => x ∈ ls1) ∧
      ResolveVals ids ls ids1 ∧
      (∀ x, x ∈ ls1 ↔ (x ∈ ls ∧ ¬ Reaches ids ls x.1)) := by
  obtain ⟨ids1, ls1, hloop, hinv, hstuck⟩ :=
    resolveLoop_inv order horder ids ls fuel 0 ids ls hfuel hnd (resolveInv_start ids ls)
  refine ⟨ids1, ls1, hloop, hinv,
    resolveLoop_vals order horder ids ls fuel 0 ids ls ids1 ls1 hloop (fun x hx => hx)
      (resolveVals_start ids ls), ?_⟩
  intro x
  constructor
  · intro hx
    refine ⟨hinv.1 x hx, fun hr => ?_⟩
    exact stuck_not_reaches ids ls ids1 ls1 hnd hinv hstuck x.1 hr x.2 hx
  · rintro ⟨hx, hnr⟩
    by_contra hcon
    exact hnr (hinv.2.1 x hx hcon)

theorem resolve_tables_agree (ids ls ids1 ls1 ids2 ls2 : List (String × Elem))
    (hnd : (ls.map Prod.fst).Nodup) (hdisj : ∀ x ∈ ls, x.1 ∉ ids.map Prod.fst)
    (hinv1 : ResolveInv ids ls ids1 (fun x => x ∈ ls1)) (hv1 : ResolveVals ids ls ids1)
    (hinv2 : ResolveInv ids ls ids2 (fun x => x ∈ ls2)) (hv2 : ResolveVals ids ls ids2)
    (hsame : ∀ x, x ∈ ls1 ↔ x ∈ ls2) (k : String) : ids1.lookup k = ids2.lookup k := by
  have hkeys : k ∈ ids1.map Prod.fst ↔ k ∈ ids2.map Prod.fst := by
    rw [hinv1.2.2 k, hinv2.2.2 k]
    constructor
    · rintro (h | ⟨e, h1, h2⟩)
      · exact Or.inl h
      · exact Or.inr ⟨e, h1, fun h3 => h2 ((hsame _).2 h3)⟩
    · rintro (h | ⟨e, h1, h2⟩)
      · exact Or.inl h
      · exact Or.inr ⟨e, h1, fun h3 => h2 ((hsame _).1 h3)⟩
  cases h1 : ids1.lookup k with
  | none =>
    have := (lookup_eq_none_iff ids1 k).1 h1
    exact ((lookup_eq_none_iff ids2 k).2 (fun h => this (hkeys.2 h))).symm
  | some v1 =>
    cases h2 : ids2.lookup k with
    | none =>
      have h3 := (lookup_eq_none_iff ids2 k).1 h2
      have h4 : k ∈ ids1.map Prod.fst := by
        by_contra hcon
        rw [(lookup_eq_none_iff ids1 k).2 hcon] at h1
        cases h1
      exact absurd (hkeys.1 h4) h3
    | some v2 =>
      have hclash : ∀ v w, ids.lookup k = some v → Resolves ids ls k w → False := by
        intro v w ha hb
        obtain ⟨e, he⟩ := Resolves.has_link ids ls k w hb
        have hk : k ∈ ids.map Prod.fst := by
          by_contra hcon
          rw [(lookup_eq_none_iff ids k).2 hcon] at ha
          cases ha
        exact hdisj _ he hk
      rcases hv1 k v1 h1 with ha | ha <;> rcases hv2 k v2 h2 with hb | hb
      · rw [ha] at hb
        exact hb
      · exact (hclash _ _ ha hb).elim
      · exact (hclash _ _ hb ha).elim
      · rw [Resolves.functional ids ls hnd hdisj k v1 ha v2 hb]

/-- C21: for a table and pending links with distinct names, none of them a name of the
table, any two map iteration orders of the pending entries (each may change from pass to
pass) make `resolve` return with the same outcome: nil for both or an error for both, the
same final table as a map (every name has the same entry), and the same entries left
pending. -/
theorem resolve_order_independent
    (order1 order2 : Nat → List (String × Elem) → List (String × Elem))
    (horder1 : ∀ k l, (order1 k l).Perm l) (horder2 : ∀ k l, (order2 k l).Perm l)
    (fuel : Nat) (ids ls : List (String × Elem))
    (hnd : (ls.map Prod.fst).Nodup) (hdisj : ∀ x ∈ ls, x.1 ∉ ids.map Prod.fst)
    (hfuel : ls.length < fuel) :
    ∃ ids1 ls1 err1 ids2 ls2 err2,
      resolveLoop order1 fuel 0 ids ls = some (ids1, ls1) ∧
      resolve order1 fuel ids ls = some (ids1, err1) ∧
      resolveLoop order2 fuel 0 ids ls = some (ids2, ls2) ∧
      resolve order2 fuel ids ls = some (ids2, err2) ∧
      (err1 = none ↔ err2 = none) ∧
      (∀ k, ids1.lookup k = ids2.lookup k) ∧
      (∀ x, x ∈ ls1 ↔ x ∈ ls2) := by
  obtain ⟨ids1, ls1, hloop1, hinv1, hv1, hmem1⟩ :=
    resolveLoop_result order1 horder1 fuel ids ls hnd hfuel
  obtain ⟨ids2, ls2, hloop2, hinv2, hv2, hmem2⟩ :=
    resolveLoop_result order2 horder2 fuel ids ls hnd hfuel
  have hsame : ∀ x, x ∈ ls1 ↔ x ∈ ls2 := fun x => (hmem1 x).trans (hmem2 x).symm
  have hres : ∀ (order : Nat → List (String × Elem) → List (String × Elem))
      (t p : List (String × Elem)), resolveLoop order fuel 0 ids ls = some (t, p) →
      ∃ err, resolve order fuel ids ls = some (t, err) ∧ (err = none ↔ p = []) := by
    intro order t p h
    simp only [resolve, h]
    cases p with
    | nil => exact ⟨none, by simp⟩
    | cons a b =>
      exact ⟨some (.unresolvedTypes ((a :: b).map (fun p => (p.1, p.2.TypeName)))),
        by simp, by simp⟩
  obtain ⟨err1, hr1, he1⟩ := hres order1 ids1 ls1 hloop1
  obtain ⟨err2, hr2, he2⟩ := hres order2 ids2 ls2 hloop2
  refine ⟨ids1, ls1, err1, ids2, ls2, err2, hloop1, hr1, hloop2, hr2, ?_,
    resolve_tables_agree ids ls ids1 ls1 ids2 ls2 hnd hdisj hinv1 hv1 hinv2 hv2 hsame, hsame⟩
  rw [he1, he2]
  constructor
  · intro h
    cases hl : ls2 with
    | nil => rfl
    | cons a b =>
      have : a ∈ ls1 := (hsame a).2 (by rw [hl]; exact List.mem_cons_self _ _)
      rw [h] at this
      simp at this
  · intro h
    cases hl : ls1 with
    | nil => rfl
    | cons a b =>
      have : a ∈ ls2 := (hsame a).1 (by rw [hl]; exact List.mem_cons_self _ _)
      rw [h] at this
      simp at this

/-- The theorem of C21 at the table holding `A` and the pending links B to A, C to C, D
to E, E to D, F to Missing and G to B, enumerated forwards and backwards: the same table
and the same four links left, listed in the error in the order of the last pass. -/
theorem resolve_order_independent_witness :
    (∀ k l, (listOrder k l).Perm l) ∧ (∀ k l, (reverseOrder k l).Perm l) ∧
    (linksPending.map Prod.fst).Nodup ∧
    (∀ x ∈ linksPending, x.1 ∉ idsPending.map Prod.fst) ∧
    linksPending.length < 10 ∧
    resolve listOrder 10 idsPending linksPending =
      some (tablePending, some (.unresolvedTypes
        [("C", "C"), ("D", "E"), ("E", "D"), ("F", "Missing")])) ∧
    resolve reverseOrder 10 idsPending linksPending =
      some (tablePending, some (.unresolvedTypes
        [("F", "Missing"), ("E", "D"), ("D", "E"), ("C", "C")])) ∧
    ∃ ids1 ls1 err1 ids2 ls2 err2,
      resolveLoop listOrder 10 0 idsPending linksPending = some (ids1, ls1) ∧
      resolve listOrder 10 idsPending linksPending = some (ids1, err1) ∧
      resolveLoop reverseOrder 10 0 idsPending linksPending = some (ids2, ls2) ∧
      resolve reverseOrder 10 idsPending linksPending = some (ids2, err2) ∧
      (err1 = none ↔ err2 = none) ∧
      (∀ k, ids1.lookup k = ids2.lookup k) ∧
      (∀ x, x ∈ ls1 ↔ x ∈ ls2) :=
  ⟨fun _ _ => List.Perm.refl _, fun _ l => List.reverse_perm l, by decide,
    by simp [linksPending, idsPending], by decide, by rfl, by rfl,
    resolve_order_independent listOrder reverseOrder (fun _ _ => List.Perm.refl _)
      (fun _ l => List.reverse_perm l) 10 idsPending linksPending (by decide)
      (by simp [linksPending, idsPending]) (by decide)⟩

/-! ## The builder: fragments that give neither an element nor an error -/

theorem parseExpr_none_untranslated (fs : FileSet) :
    ∀ (fuel : Nat) (e : Expr), parseExpr fs fuel e = some (.ok none) →
      untranslated e = true := by
  intro fuel
  induction fuel with
  | zero => intro e h; simp [parseExpr] at h
  | succ n ih =>
    intro e h
    unfold parseExpr at h
    split at h
    · -- MapType
      split at h
      · simp at h
      · simp at h
      · rename_i hk
        simp only [untranslated]
        exact ih _ hk
      · split at h
        · simp at h
        · split at h <;> simp at h
    · simp at h
    · simp at h
    · -- ArrayType
      split at h
      · simp at h
      · simp at h
      · rename_i hels
        simp only [untranslated, ih _ hels, Bool.true_or]
      · split at h
        · simp at h
        · simp at h
        · simp at h
        · rename_i val hlit hid hsel _
          cases val with
          | Ident s => exact absurd rfl (hid s)
          | BasicLit v => exact absurd rfl (hlit v)
          | SelectorExpr x s => exact absurd rfl (hsel x s)
          | _ => simp [untranslated, lenUntranslated]
        · simp at h
    · simp at h
    · split at h <;> simp at h
    · simp at h
    · split at h <;> simp at h
    · simp at h

theorem parseExpr_array_computed_len (fs : FileSet) (n : Nat) (len elt : Expr) (el : Elem)
    (h : parseExpr fs n elt = some (.ok (some el)))
    (hlen : lenUntranslated (some len) = true) :
    parseExpr fs (n + 1) (.ArrayType (some len) elt) = some (.ok none) := by
  cases len with
  | Ident s => simp [lenUntranslated] at hlen
  | BasicLit v => simp [lenUntranslated] at hlen
  | SelectorExpr x s => simp [lenUntranslated] at hlen
  | _ => simp only [parseExpr, h]

theorem getField_untranslated (fs : FileSet) (n : Nat) (f : Field Expr) (c : Nat)
    (h : parseExpr fs n f.Typ = some (.ok none))
    (htag : ∀ err c1, getFieldTag fs f c ≠ .fail err c1) :
    ∃ c1, getField fs (n + 1) f c = some (c1, .ok []) := by
  cases hstep : getFieldTag fs f c with
  | skip => exact ⟨c, by simp only [getField, hstep]⟩
  | fail err c1 => exact absurd hstep (htag err c1)
  | go sf0 extension flatten c1 => exact ⟨c1, by simp only [getField, hstep, h]⟩

/-- C22 (as stated) fails: for the fragment `[N+1]int` `parseExpr` returns no element and
no error, `process` leaves the declared type `T` out of the table without failing, and
the struct `S` loses its field `A` (the field `B` keeps the tag 1). -/
theorem parseExpr_no_element_no_error :
    parseExpr declComputedLen 5 exprComputedLen = some (.ok none) ∧
    getField declComputedLen 3 { Names := ["A"], Typ := exprComputedLen, Tag := none } 0 =
      some (1, .ok []) ∧
    process listOrder 10 declComputedLen =
      some ([("S", .Struct "S" [mkField 1 "B" (.BaseElem "" .Int)])], none) := by
  refine ⟨by rfl, by rfl, by rfl⟩

/-- C22 (amended): whatever `parseExpr` returns is an element, an error, or neither, and
neither only for an array whose length is an expression other than a literal, an
identifier or a selector, or a slice or array whose element, or a map whose key, is such
a fragment. An array with such a length and an element type that translates does give
neither; `process` then goes on with the next declaration and leaves the table as it
is, and `getField` returns no field and no error. -/
theorem parseExpr_drops_only_untranslated (fs : FileSet) (fuel : Nat) :
    (∀ e r, parseExpr fs fuel e = some r →
      (∃ el, r = .ok (some el)) ∨ (∃ err, r = .error err) ∨
        (r = .ok none ∧ untranslated e = true)) ∧
    (∀ len elt el, parseExpr fs fuel elt = some (.ok (some el)) →
      lenUntranslated (some len) = true →
      parseExpr fs (fuel + 1) (.ArrayType (some len) elt) = some (.ok none)) ∧
    (∀ name e rest ids deferred, parseExpr fs fuel e = some (.ok none) →
      processLoop fs fuel ((name, e) :: rest) ids deferred =
        processLoop fs fuel rest ids deferred) ∧
    (∀ f c, parseExpr fs fuel f.Typ = some (.ok none) →
      (∀ err c1, getFieldTag fs f c ≠ .fail err c1) →
      ∃ c1, getField fs (fuel + 1) f c = some (c1, .ok [])) := by
  refine ⟨?_, ?_, ?_, ?_⟩
  · intro e r h
    cases r with
    | error err => exact Or.inr (Or.inl ⟨err, rfl⟩)
    | ok o =>
      cases o with
      | some el => exact Or.inl ⟨el, rfl⟩
      | none => exact Or.inr (Or.inr ⟨rfl, parseExpr_none_untranslated fs fuel e h⟩)
  · intro len elt el h hlen
    exact parseExpr_array_computed_len fs fuel len elt el h hlen
  · intro name e rest ids deferred h
    simp only [processLoop, h]
  · intro f c h htag
    exact getField_untranslated fs fuel f c h htag

/-- The theorem of C22 at the declaration `type T [N+1]int`: the array has a length that
is a computed expression, and the loop of `process` passes over the declaration. -/
theorem parseExpr_drops_only_untranslated_witness :
    parseExpr declComputedLen 4 (.Ident "int") = some (.ok (some (.BaseElem "" .Int))) ∧
    lenUntranslated (some .Other) = true ∧
    parseExpr declComputedLen 5 exprComputedLen = some (.ok none) ∧
    untranslated exprComputedLen = true ∧
    processLoop declComputedLen 5 [("T", exprComputedLen)] [] [] = some (.ok ([], [])) :=
  ⟨by rfl, by rfl,
    (parseExpr_drops_only_untranslated declComputedLen 4).2.1 .Other (.Ident "int") _
      (by rfl) (by rfl),
    by rfl,
    ((parseExpr_drops_only_untranslated declComputedLen 5).2.2.1 "T" exprComputedLen [] [] []
      (by rfl)).trans (by rfl)⟩

/-! ## The builder: flatten annotations that are refused -/

theorem getFieldTag_flatten_cases (fs : FileSet) (f : Field Expr) (c : Nat)
    (hflat : (annotationParts fs f).tail.head? = some "flatten")
    (hns : (annotationParts fs f).headD "" ≠ "-") :
    (∃ err c1, getFieldTag fs f c = .fail err c1) ∨
    (f.Names = [] ∧ ∃ ext c0, getFieldTag fs f c = .go emptyField ext true c0) := by
  cases hT : f.Tag with
  | none =>
    simp [annotationParts, hT] at hflat
  | some lit =>
    have hparts : annotationParts fs f = stringsSplitComma (tagBody fs.tagName lit) := by
      simp [annotationParts, hT]
    rw [hparts] at hflat hns
    have hfl : decide ((stringsSplitComma (tagBody fs.tagName lit)).tail.head? =
        some "flatten") = true := decide_eq_true hflat
    simp only [List.headD_eq_head?_getD] at hns
    simp only [getFieldTag, hT, List.headD_eq_head?_getD, hfl, hns, if_false]
    simp only [Bool.not_true, Bool.false_eq_true, if_false]
    split
    · split
      · exact Or.inl ⟨_, _, rfl⟩
      · split
        · exact Or.inl ⟨_, _, rfl⟩
        · rename_i hn
          refine Or.inr ⟨?_, _, _, rfl⟩
          cases hN : f.Names with
          | nil => rfl
          | cons a b => simp [hN] at hn
    · split
      · exact Or.inl ⟨_, _, rfl⟩
      · rename_i hn
        refine Or.inr ⟨?_, _, _, rfl⟩
        cases hN : f.Names with
        | nil => rfl
        | cons a b => simp [hN] at hn

theorem getField_fail (fs : FileSet) (n : Nat) (f : Field Expr) (c : Nat) (err : Err)
    (c1 : Nat) (h : getFieldTag fs f c = .fail err c1) :
    getField fs (n + 1) f c = some (c1, .error err) := by
  simp only [getField, h]

/-- C23 (as stated) fails for a flatten annotation whose part 0 is the skip sentinel: the
named field `A int` annotated msg:"-,flatten" gives no field and no error, and the
counter stays where it was. -/
theorem getField_dash_flatten_named_field_is_skipped :
    annotationParts declEmbeddable fieldSkipFlatten = ["-", "flatten"] ∧
    fieldSkipFlatten.Names = ["A"] ∧
    getField declEmbeddable 5 fieldSkipFlatten 7 = some (7, .ok []) := by
  refine ⟨by rfl, by rfl, by rfl⟩

/-- C23 (amended): for a field whose annotation part 1 is flatten and whose part 0 is not
the skip sentinel "-", `getField` fails with an error when the field is named, and when
it is anonymous with a type that is a selector, a pointer, or an identifier that the
unit does not declare as a struct (declared as another type, or not declared). -/
theorem getField_flatten_rejects (fs : FileSet) (f : Field Expr) (c fuel : Nat)
    (hflat : (annotationParts fs f).tail.head? = some "flatten")
    (hns : (annotationParts fs f).headD "" ≠ "-") :
    (f.Names ≠ [] → ∃ c1 err, getField fs (fuel + 1) f c = some (c1, .error err)) ∧
    (f.Names = [] →
      ((∃ x sel, f.Typ = .SelectorExpr x sel) ∨ (∃ x, f.Typ = .StarExpr x) ∨
        (∃ name, f.Typ = .Ident name ∧
          ∀ fields, fs.Specs.lookup name ≠ some (.StructType fields))) →
      ∃ c1 err, getField fs (fuel + 2) f c = some (c1, .error err)) := by
  have hcases := getFieldTag_flatten_cases fs f c hflat hns
  constructor
  · intro hnamed
    rcases hcases with ⟨err, c1, h⟩ | ⟨hnil, _⟩
    · exact ⟨c1, err, getField_fail fs fuel f c err c1 h⟩
    · exact absurd hnil hnamed
  · intro hnil htyp
    rcases hcases with ⟨err, c1, h⟩ | ⟨_, ext, c0, h⟩
    · exact ⟨c1, err, getField_fail fs (fuel + 1) f c err c1 h⟩
    · rcases htyp with ⟨x, sel, ht⟩ | ⟨x, ht⟩ | ⟨name, ht, hspec⟩
      · exact ⟨c0, .embeddedOther, by
          simp only [getField, h, ht, parseExpr, hnil, if_true, getFieldsFromEmbeddedStruct]⟩
      · exact ⟨c0, .starExpr, by simp only [getField, h, ht, parseExpr]⟩
      · refine ⟨c0, .notStructType name, ?_⟩
        simp only [getField, h, ht, parseExpr, hnil, if_true]
        cases hl : fs.Specs.lookup name with
        | none => simp only [getFieldsFromEmbeddedStruct, hl]
        | some d =>
          cases d with
          | StructType fields => exact absurd hl (hspec fields)
          | _ => simp only [getFieldsFromEmbeddedStruct, hl]

/-- The theorem of C23 at the named field `A EmbeddableStructAN` annotated
msg:"32,flatten", and at the anonymous fields `pkg.T` and `Missing` annotated
msg:",flatten". -/
theorem getField_flatten_rejects_witness :
    (annotationParts declEmbeddable fieldNamedFlat).tail.head? = some "flatten" ∧
    (annotationParts declEmbeddable fieldNamedFlat).headD "" ≠ "-" ∧
    fieldNamedFlat.Names ≠ [] ∧
    getField declEmbeddable 5 fieldNamedFlat 7 = some (32, .error .flattenNamed) ∧
    getField declEmbeddable 5 fieldSelectorFlat 7 = some (7, .error .embeddedOther) ∧
    getField declEmbeddable 5 fieldMissingFlat 7 =
      some (7, .error (.notStructType "Missing")) ∧
    (∃ c1 err, getField declEmbeddable (4 + 1) fieldNamedFlat 7 = some (c1, .error err)) ∧
    (∃ c1 err, getField declEmbeddable (3 + 2) fieldMissingFlat 7 = some (c1, .error err)) :=
  ⟨by rfl, by decide, by decide, by rfl, by rfl, by rfl,
    (getField_flatten_rejects declEmbeddable fieldNamedFlat 7 4 (by rfl) (by decide)).1
      (by decide),
    (getField_flatten_rejects declEmbeddable fieldMissingFlat 7 3 (by rfl) (by decide)).2
      (by rfl) (Or.inr (Or.inr ⟨"Missing", rfl, by
        intro fields h
        simp [declEmbeddable, List.lookup] at h⟩))⟩

/-! ## The directive phases -/

theorem splitChars_ne_nil (sep : Char) : ∀ cs : List Char, splitChars sep cs ≠ [] := by
  intro cs
  cases cs with
  | nil => simp [splitChars]
  | cons c rest =>
    simp only [splitChars]
    split
    · simp
    · split <;> simp

theorem stringsSplitSpace_length_pos (d : String) : (stringsSplitSpace d).length > 0 := by
  simp only [stringsSplitSpace, List.length_map]
  exact List.length_pos.2 (splitChars_ne_nil ' ' d.toList)

theorem directiveLoop_eq (registry : Registry) (wrap : List String → Err → Err) :
    ∀ (ds : List String) (f : FileSet) (acc : List String),
      directiveLoop registry wrap ds f acc =
        match invokeAll registry wrap (ds.filter (matched registry)) f with
        | .error err => .error err
        | .ok f1 => .ok (f1, acc ++ ds.filter (fun d => !matched registry d)) := by
  intro ds
  induction ds with
  | nil => intro f acc; simp [directiveLoop, invokeAll]
  | cons d rest ih =>
    intro f acc
    simp only [directiveLoop, stringsSplitSpace_length_pos d, if_true]
    cases hl : registry.lookup ((stringsSplitSpace d).headD "") with
    | some fn =>
      have hm : matched registry d = true := by
        simp only [matched, firstToken, hl, Option.isSome_some]
      simp only [List.filter_cons, hm, if_true, Bool.not_true, Bool.false_eq_true, if_false,
        invokeAll, firstToken, hl]
      cases fn (stringsSplitSpace d) f with
      | error err => rfl
      | ok f1 => exact ih f1 acc
    | none =>
      have hm : matched registry d = false := by
        simp only [matched, firstToken, hl, Option.isSome_none]
      simp only [List.filter_cons, hm, Bool.false_eq_true, if_false, Bool.not_false, if_true]
      rw [ih f (acc ++ [d])]
      simp

/-- C24: `applyDirectives` and `applyEarlyDirectives` each invoke the handlers of the
lines whose first space-separated token is in the registry of the phase, once each and in
line order, and, when none of them fails, leave in `Directives` exactly the other lines
in their original order; the first handler that fails ends the phase with its error
wrapped. After the early phase and then, with the lines it left, the late phase, the
lines remaining are those whose first token is in neither registry. -/
theorem applyDirectives_dispatch (earlyDirectives directives : Registry) (f : FileSet) :
    (applyDirectives directives f =
      match invokeAll directives (fun chunks err => .directiveError chunks err)
          (f.Directives.filter (matched directives)) f with
      | .error err => .error err
      | .ok f1 =>
        .ok { f1 with Directives := f.Directives.filter (fun d => !matched directives d) }) ∧
    (applyEarlyDirectives earlyDirectives f =
      match invokeAll earlyDirectives (fun _ err => .earlyDirectiveError err)
          (f.Directives.filter (matched earlyDirectives)) f with
      | .error err => .error err
      | .ok f1 =>
        .ok { f1 with
          Directives := f.Directives.filter (fun d => !matched earlyDirectives d) }) ∧
    (∀ g h k, applyEarlyDirectives earlyDirectives f = .ok g → h.Directives = g.Directives →
      applyDirectives directives h = .ok k →
      k.Directives = f.Directives.filter
        (fun d => !matched earlyDirectives d && !matched directives d)) := by
  have hlate : ∀ f : FileSet, applyDirectives directives f =
      match invokeAll directives (fun chunks err => .directiveError chunks err)
          (f.Directives.filter (matched directives)) f with
      | .error err => .error err
      | .ok f1 =>
        .ok { f1 with Directives := f.Directives.filter (fun d => !matched directives d) } := by
    intro f
    simp only [applyDirectives, directiveLoop_eq]
    cases invokeAll directives (fun chunks err => .directiveError chunks err)
        (f.Directives.filter (matched directives)) f with
    | error err => rfl
    | ok f1 => simp
  have hearly : applyEarlyDirectives earlyDirectives f =
      match invokeAll earlyDirectives (fun _ err => .earlyDirectiveError err)
          (f.Directives.filter (matched earlyDirectives)) f with
      | .error err => .error err
      | .ok f1 =>
        .ok { f1 with
          Directives := f.Directives.filter (fun d => !matched earlyDirectives d) } := by
    simp only [applyEarlyDirectives, directiveLoop_eq]
    cases invokeAll earlyDirectives (fun _ err => .earlyDirectiveError err)
        (f.Directives.filter (matched earlyDirectives)) f with
    | error err => rfl
    | ok f1 => simp
  refine ⟨hlate f, hearly, ?_⟩
  intro g h k hg hh hk
  rw [hearly] at hg
  rw [hlate h] at hk
  cases h1 : invokeAll earlyDirectives (fun _ err => .earlyDirectiveError err)
      (f.Directives.filter (matched earlyDirectives)) f with
  | error err => rw [h1] at hg; cases hg
  | ok f1 =>
    rw [h1] at hg
    injection hg with hg
    cases h2 : invokeAll directives (fun chunks err => .directiveError chunks err)
        (h.Directives.filter (matched directives)) h with
    | error err => rw [h2] at hk; cases hk
    | ok h1 =>
      rw [h2] at hk
      injection hk with hk
      rw [← hk]
      simp only
      rw [hh, ← hg]
      simp only [List.filter_filter]
      congr 1
      funext d
      exact Bool.and_comm _ _

/-- The theorem of C24 at a unit with the lines `encode ignore A`, `tag mytag`,
`ignore B`, `tuple A`, an early registry knowing `tag` and a late registry knowing
`ignore`: the lines `encode ignore A` and `tuple A` remain. -/
theorem applyDirectives_dispatch_witness :
    applyEarlyDirectives earlyExample declDirectives =
      .ok { declDirectives with
        Directives := ["encode ignore A", "ignore B", "tuple A"], tagName := "mytag" } ∧
    applyDirectives lateExample { declDirectives with
        Directives := ["encode ignore A", "ignore B", "tuple A"], tagName := "mytag" } =
      .ok { Specs := [], Identities := [("A", .BaseElem "A" .Int)],
            Directives := ["encode ignore A", "tuple A"], tagName := "mytag" } ∧
    ["encode ignore A", "tuple A"] = declDirectives.Directives.filter
      (fun d => !matched earlyExample d && !matched lateExample d) :=
  ⟨by rfl, by rfl,
    (applyDirectives_dispatch earlyExample lateExample declDirectives).2.2 _ _
      { Specs := [], Identities := [("A", .BaseElem "A" .Int)],
        Directives := ["encode ignore A", "tuple A"], tagName := "mytag" }
      (by rfl) rfl (by rfl)⟩

/-! ## Nested structs and the tag normaliser -/

/-- C25: on `type T struct { A int; C int }` (tags 0 and 2) and `type S struct { F T;
X struct { A int; C int } }` (inner tags 0 and 2) the pipeline leaves `T` itself dense,
with a placeholder at tag 1, while the copy of `T` inlined into the field F and the
anonymous struct of the field X keep the two fields tagged 0 and 2 without placeholder:
`sortAndFillMsgFields` fills the structs that are entries of the table only. -/
theorem sortAndFillMsgFields_leaves_nested_structs_with_gaps :
    process listOrder 10 declNestedGap = some (tableNestedGap, none) ∧
    propInline 10 tableNestedGap = .ret (tableNestedGapInlined, none) ∧
    sortAndFillMsgFields 10 tableNestedGapInlined =
      some [("T", .Struct "T" [mkTagged 0 "0" "A" (.BaseElem "" .Int), placeholderField 1,
               mkTagged 2 "2" "C" (.BaseElem "" .Int)]),
            ("S", .Struct "S" [mkField 0 "F" (.Struct "T" fieldsGap),
               mkField 1 "X" (.Struct "" fieldsGap)])] ∧
    fieldTags fieldsGap = [0, 2] := by
  refine ⟨by rfl, by rfl, by rfl, by rfl⟩

/-! ## The inlining pass: tags of 256 and more -/

theorem inlineFields_large_tag (nextIn : (Elem → Elem) → Elem → Outcome (Elem × Option Err))
    (plugFields : List SField → Elem) :
    ∀ (rest done : List SField) (tagsValue : List Nat) (err : Option Err),
      (∃ f ∈ rest, 256 ≤ f.FieldTag) →
      ∀ r, inlineFields nextIn plugFields done rest tagsValue err ≠ .ret r := by
  intro rest
  induction rest with
  | nil =>
    intro done tagsValue err h
    obtain ⟨f, hf, _⟩ := h
    simp at hf
  | cons f rest ih =>
    intro done tagsValue err h r
    simp only [inlineFields]
    cases nextIn (fun x => plugFields (done ++ { f with FieldElem := x } :: rest))
        f.FieldElem with
    | diverge => simp
    | panic => simp
    | ret p =>
      obtain ⟨e, err2⟩ := p
      simp only
      by_cases hlt : f.FieldTag < 256
      · have hrest : ∃ g ∈ rest, 256 ≤ g.FieldTag := by
          obtain ⟨g, hg, hbig⟩ := h
          rcases List.mem_cons.1 hg with hg | hg
          · subst hg
            omega
          · exact ⟨g, hg, hbig⟩
        simp only [hlt, if_true]
        split
        · exact ih _ _ _ hrest r
        · exact ih _ _ _ hrest r
      · simp [hlt]

/-- C26: a struct with a field tagged 256 or more makes the inlining pass abort with a
run-time panic: the scratch array `tagsValue` has 256 slots and is indexed with the tag.
This holds for the struct with two fields tagged 300, for a single field tagged 256, and
for a struct nested in a field. A struct whose tags are all below 256 passes. -/
theorem propInline_panics_on_tag_256_or_more :
    process listOrder 10 declTag300 = some (tableTag300, none) ∧
    (∀ fuel, propInline (fuel + 1) tableTag300 = .panic) ∧
    process listOrder 10 declTag256 = some (tableTag256, none) ∧
    (∀ fuel, propInline (fuel + 1) tableTag256 = .panic) ∧
    process listOrder 10 declNestedTag300 = some (tableNestedTag300, none) ∧
    (∀ fuel, propInline (fuel + 2) tableNestedTag300 = .panic) ∧
    propInline 10 tableS = .ret (tableS, none) := by
  refine ⟨by rfl, fun _ => by rfl, by rfl, fun _ => by rfl, by rfl, fun _ => by rfl, by rfl⟩

/-! ## The tag normaliser on the table the inlining pass leaves -/

theorem inlineFields_small_tags (nextIn : (Elem → Elem) → Elem → Outcome (Elem × Option Err))
    (plugFields : List SField → Elem) (fields out : List SField) (tagsValue : List Nat)
    (err err1 : Option Err)
    (h : inlineFields nextIn plugFields [] fields tagsValue err = .ret (out, err1)) :
    ∀ g ∈ out, g.FieldTag < 256 := by
  have hsmall : ∀ f ∈ fields, f.FieldTag < 256 := by
    intro f hf
    by_contra hbig
    exact inlineFields_large_tag nextIn plugFields fields [] tagsValue err
      ⟨f, hf, by omega⟩ (out, err1) h
  obtain ⟨_, processed, hout, hall⟩ := inlineFields_spec _ _ _ _ _ _ _ _ h
  have hp : out = processed := by simpa using hout
  subst hp
  have hgen : ∀ (l1 l2 : List SField),
      List.Forall₂ (fun f g => g.FieldTag = f.FieldTag ∧ g.FieldName = f.FieldName ∧
        ∃ p e2, nextIn p f.FieldElem = .ret (g.FieldElem, e2) ∧ (e2 ≠ none → err1 ≠ none))
        l1 l2 →
      (∀ f ∈ l1, f.FieldTag < 256) → ∀ g ∈ l2, g.FieldTag < 256 := by
    intro l1 l2 h12
    induction h12 with
    | nil => intro _ g hg; simp at hg
    | cons hab _ ih =>
      intro hl g hg
      rcases List.mem_cons.1 hg with hg | hg
      · subst hg
        rw [hab.1]
        exact hl _ (List.mem_cons_self _ _)
      · exact ih (fun f hf => hl f (List.mem_cons_of_mem _ hf)) g hg
  exact hgen fields out hall hsmall

theorem propInlineElem_small_tags (ids : List (String × Elem)) (fuel : Nat) (name : String)
    (el el1 : Elem) (err : Option Err)
    (h : propInlineElem ids fuel name el = .ret (el1, err)) :
    ∀ a fs, el1 = .Struct a fs → ∀ f ∈ fs, f.FieldTag < 256 := by
  intro a fs hel
  cases el with
  | Struct b fields =>
    obtain ⟨fields1, hel1, hin⟩ := propInlineElem_struct ids fuel name b fields el1 err h
    rw [hel1] at hel
    injection hel with _ hfs
    subst hfs
    exact inlineFields_small_tags _ _ _ _ _ _ _ hin
  | Array b sz els =>
    simp only [propInlineElem] at h
    split at h
    · injection h with h
      injection h with h1 _
      rw [← h1] at hel
      cases hel
    · simp at h
    · simp at h
  | Slice b els =>
    simp only [propInlineElem] at h
    split at h
    · injection h with h
      injection h with h1 _
      rw [← h1] at hel
      cases hel
    · simp at h
    · simp at h
  | Map b k v =>
    simp only [propInlineElem] at h
    split at h
    · injection h with h
      injection h with h1 _
      rw [← h1] at hel
      cases hel
    · simp at h
    · simp at h
  | Ptr b v =>
    simp only [propInlineElem] at h
    split at h
    · injection h with h
      injection h with h1 _
      rw [← h1] at hel
      cases hel
    · simp at h
    · simp at h
  | BaseElem b v =>
    simp only [propInlineElem] at h
    injection h with h
    injection h with h1 _
    rw [← h1] at hel
    cases hel
  | CsharpString b =>
    simp only [propInlineElem] at h
    injection h with h
    injection h with h1 _
    rw [← h1] at hel
    cases hel
  | NilPlaceholder b =>
    simp only [propInlineElem] at h
    injection h with h
    injection h with h1 _
    rw [← h1] at hel
    cases hel

theorem propInlineLoop_small_tags (fuel : Nat) :
    ∀ (names : List String) (ids ids1 : List (String × Elem)),
      propInlineLoop fuel names ids = .ret (ids1, none) →
      ∀ name, (name ∈ names ∨
          ∀ a fs, ids.lookup name = some (.Struct a fs) → ∀ f ∈ fs, f.FieldTag < 256) →
        ∀ a fs, ids1.lookup name = some (.Struct a fs) → ∀ f ∈ fs, f.FieldTag < 256 := by
  intro names
  induction names with
  | nil =>
    intro ids ids1 h name hcase
    simp only [propInlineLoop] at h
    injection h with h
    injection h with h1 _
    subst h1
    rcases hcase with hc | hc
    · simp at hc
    · exact hc
  | cons n rest ih =>
    intro ids ids1 h name hcase
    simp only [propInlineLoop] at h
    cases hl : ids.lookup n with
    | none =>
      rw [hl] at h
      simp only at h
      refine ih ids ids1 h name ?_
      rcases hcase with hc | hc
      · rcases List.mem_cons.1 hc with hc | hc
        · right
          intro a fs hlk
          rw [hc, hl] at hlk
          cases hlk
        · exact Or.inl hc
      · exact Or.inr hc
    | some el =>
      rw [hl] at h
      simp only at h
      cases hp : propInlineElem ids fuel n el with
      | diverge => rw [hp] at h; simp at h
      | panic => rw [hp] at h; simp at h
      | ret r =>
        obtain ⟨el1, oerr⟩ := r
        rw [hp] at h
        cases oerr with
        | some e1 => simp at h
        | none =>
          simp only at h
          refine ih _ ids1 h name ?_
          by_cases hname : name = n
          · right
            intro a fs hlk
            rw [hname, lookup_mapSet_self] at hlk
            injection hlk with hlk
            exact propInlineElem_small_tags ids fuel n el el1 none hp a fs hlk
          · rcases hcase with hc | hc
            · rcases List.mem_cons.1 hc with hc | hc
              · exact absurd hc hname
              · exact Or.inl hc
            · right
              intro a fs hlk
              rw [lookup_mapSet_ne _ _ _ _ hname] at hlk
              exact hc a fs hlk

theorem propInline_small_tags (fuel : Nat) (ids ids1 : List (String × Elem))
    (h : propInline fuel ids = .ret (ids1, none)) (name a : String) (fs : List SField)
    (hl : ids1.lookup name = some (.Struct a fs)) : ∀ f ∈ fs, f.FieldTag < 256 := by
  refine propInlineLoop_small_tags fuel _ ids ids1 h name ?_ a fs hl
  by_cases hk : name ∈ ids.map Prod.fst
  · left
    obtain ⟨p, hp, hpn⟩ := List.mem_map.1 hk
    exact List.mem_map.2 ⟨p, (sortGelems_perm ids).mem_iff.2 hp, hpn⟩
  · right
    intro b gs hlk
    rw [(lookup_eq_none_iff ids name).2 hk] at hlk
    cases hlk
theorem keys_mapSet_of_lookup {α : Type} (m : List (String × α)) (k : String) (v w : α)
    (h : m.lookup k = some w) : (mapSet m k v).map Prod.fst = m.map Prod.fst := by
  induction m with
  | nil => simp [List.lookup] at h
  | cons p rest ih =>
    obtain ⟨k2, u⟩ := p
    simp only [mapSet]
    by_cases hk : k2 = k
    · simp [hk]
    · have h1 : (k == k2) = false := by
        simpa using fun h2 : k = k2 => hk h2.symm
      simp only [List.lookup, h1] at h
      simp only [hk, if_false, List.map_cons, ih h]

theorem propInlineLoop_keys (fuel : Nat) :
    ∀ (names : List String) (ids ids1 : List (String × Elem)) (err : Option Err),
      propInlineLoop fuel names ids = .ret (ids1, err) →
      ids1.map Prod.fst = ids.map Prod.fst := by
  intro names
  induction names with
  | nil =>
    intro ids ids1 err h
    simp only [propInlineLoop] at h
    injection h with h
    injection h with h1 _
    rw [h1]
  | cons n rest ih =>
    intro ids ids1 err h
    simp only [propInlineLoop] at h
    cases hl : ids.lookup n with
    | none =>
      rw [hl] at h
      exact ih ids ids1 err h
    | some el =>
      rw [hl] at h
      simp only at h
      cases hp : propInlineElem ids fuel n el with
      | diverge => rw [hp] at h; simp at h
      | panic => rw [hp] at h; simp at h
      | ret r =>
        obtain ⟨el1, oerr⟩ := r
        rw [hp] at h
        cases oerr with
        | some e1 =>
          simp only at h
          injection h with h
          injection h with h1 _
          rw [← h1]
          exact keys_mapSet_of_lookup ids n el1 el hl
        | none =>
          simp only at h
          rw [ih _ ids1 err h]
          exact keys_mapSet_of_lookup ids n el1 el hl

theorem lookup_of_mem_nodup {α : Type} (m : List (String × α))
    (hnd : (m.map Prod.fst).Nodup) (k : String) (v : α) (h : (k, v) ∈ m) :
    m.lookup k = some v := by
  cases hl : m.lookup k with
  | none =>
    exact absurd (List.mem_map.2 ⟨(k, v), h, rfl⟩) ((lookup_eq_none_iff m k).1 hl)
  | some w =>
    rw [unique_of_nodup_keys m hnd k v w h (mem_of_lookup_eq_some m k w hl)]

theorem sortAndFillMsgFields_total (fuel : Nat) :
    ∀ ids : List (String × Elem),
      (∀ p ∈ ids, ∃ el1, sortAndFillElem fuel p.2 = some el1) →
      ∃ ids2, sortAndFillMsgFields fuel ids = some ids2 ∧
        ∀ name el, ids.lookup name = some el →
          ∃ el1, sortAndFillElem fuel el = some el1 ∧ ids2.lookup name = some el1 := by
  intro ids
  induction ids with
  | nil =>
    intro _
    exact ⟨[], rfl, fun name el h => by simp [List.lookup] at h⟩
  | cons p rest ih =>
    obtain ⟨n, e⟩ := p
    intro hall
    obtain ⟨e1, he1⟩ := hall (n, e) (List.mem_cons_self _ _)
    obtain ⟨rest2, hrest, hlk⟩ := ih (fun q hq => hall q (List.mem_cons_of_mem _ hq))
    refine ⟨(n, e1) :: rest2, ?_, ?_⟩
    · simp only at he1
      simp only [sortAndFillMsgFields, he1, hrest]
    · intro name el h
      simp only [List.lookup] at h ⊢
      split at h
      · injection h with h
        subst h
        exact ⟨e1, he1, rfl⟩
      · exact hlk name el h

theorem maxTag_lt_of_small (fields : List SField) (n : Nat) (hn : 0 < n)
    (h : ∀ f ∈ fields, f.FieldTag < n) : maxTag fields < n := by
  rcases foldl_maxTag_mem fields 0 with h0 | h0
  · have : maxTag fields = 0 := h0
    omega
  · obtain ⟨f, hf, hft⟩ := List.mem_map.1 h0
    have := h f hf
    have h1 : maxTag fields = f.FieldTag := hft.symm
    omega

theorem sortAndFillElem_total (fuel : Nat) (hfuel : 256 < fuel) (el : Elem)
    (h : ∀ a fs, el = .Struct a fs → ∀ f ∈ fs, f.FieldTag < 256) :
    ∃ el1, sortAndFillElem fuel el = some el1 := by
  cases el with
  | Struct a fields =>
    have hmax := maxTag_lt_of_small fields 256 (by omega) (h a fields rfl)
    simp only [sortAndFillElem]
    by_cases hne : fields = []
    · subst hne
      exact ⟨.Struct a [], rfl⟩
    · by_cases hfull : fields.length = maxTag fields + 1
      · rw [sortAndFillFields_full fields fuel hne hfull]
        exact ⟨_, rfl⟩
      · rw [sortAndFillFields_gap fields fuel hne hfull (by omega) (by omega)]
        exact ⟨_, rfl⟩
  | _ => exact ⟨_, rfl⟩
theorem gap_length_ne (fields : List SField) (hnd : (fieldTags fields).Nodup)
    (hgap : ∃ t, t < maxTag fields ∧ t ∉ fieldTags fields) :
    fields.length ≠ maxTag fields + 1 := by
  intro hfull
  obtain ⟨t, ht, hnot⟩ := hgap
  have hb : ∀ x ∈ fieldTags fields, x < maxTag fields + 1 := by
    intro x hx
    obtain ⟨f, hf, rfl⟩ := List.mem_map.1 hx
    exact Nat.lt_succ_of_le (le_maxTag fields f hf)
  have hp := nodup_bounded_perm_range _ _ hnd hb (by simp [fieldTags, hfull])
  exact hnot (hp.mem_iff.2 (List.mem_range.2 (by omega)))

theorem sortAndFillFields_fills (fields : List SField) (fuel : Nat) (hne : fields ≠ [])
    (hnd : (fieldTags fields).Nodup)
    (hgap : ∃ t, t < maxTag fields ∧ t ∉ fieldTags fields)
    (hmax : maxTag fields < 65535) (hfuel : maxTag fields + 1 < fuel) :
    ∃ out, sortAndFillFields fuel fields = some out ∧
      out.length = maxTag fields + 1 ∧
      fieldTags out = List.range (maxTag fields + 1) ∧
      (∀ f ∈ fields, out[f.FieldTag]? =
        some { f with FieldElem := fixCsharpStringPointee f.FieldElem }) ∧
      (∀ t, t < maxTag fields + 1 → t ∉ fieldTags fields →
        out[t]? = some (placeholderField t)) := by
  have hfull := gap_length_ne fields hnd hgap
  have hb : ∀ x ∈ fieldTags fields, x < maxTag fields + 1 := by
    intro x hx
    obtain ⟨f, hf, rfl⟩ := List.mem_map.1 hx
    exact Nat.lt_succ_of_le (le_maxTag fields f hf)
  have hperm := sortSlice_perm (fixRangeCopy fields ++
    ((List.range' 0 (maxTag fields + 1)).filter
      (fun j => decide (j ∉ fieldTags fields))).map placeholderField)
  have hp : (fieldTags (sortSlice (fixRangeCopy fields ++
      ((List.range' 0 (maxTag fields + 1)).filter
        (fun j => decide (j ∉ fieldTags fields))).map placeholderField))).Perm
      (List.range (maxTag fields + 1)) := by
    refine (hperm.map _).trans ?_
    rw [show List.map (fun f => f.FieldTag) (fixRangeCopy fields ++
        ((List.range' 0 (maxTag fields + 1)).filter
          (fun j => decide (j ∉ fieldTags fields))).map placeholderField) =
        fieldTags (fixRangeCopy fields ++
        ((List.range' 0 (maxTag fields + 1)).filter
          (fun j => decide (j ∉ fieldTags fields))).map placeholderField) from rfl]
    rw [fieldTags_append, fieldTags_fixRangeCopy, fieldTags_placeholders]
    exact filled_tags_perm_range _ _ hnd hb
  have htags := sorted_perm_range _ _ (sortSlice_sorted _) hp
  generalize hout : sortSlice (fixRangeCopy fields ++
    ((List.range' 0 (maxTag fields + 1)).filter
      (fun j => decide (j ∉ fieldTags fields))).map placeholderField) = out at hperm hp htags
  have hl : out.length = maxTag fields + 1 := by
    have := congrArg List.length htags
    simpa [fieldTags] using this
  have hpos : ∀ t g, out[t]? = some g → g.FieldTag = t ∧
      ((∃ f ∈ fields, f.FieldTag = t ∧
          g = { f with FieldElem := fixCsharpStringPointee f.FieldElem }) ∨
        (t ∉ fieldTags fields ∧ g = placeholderField t)) := by
    intro t g hg
    have hlt : t < maxTag fields + 1 := by
      have := (List.getElem?_eq_some_iff.1 hg).1
      omega
    have h1 : (fieldTags out)[t]? = some g.FieldTag := by
      simp [fieldTags, List.getElem?_map, hg]
    rw [htags, List.getElem?_range hlt] at h1
    injection h1 with h1
    have hmem : g ∈ out := List.mem_iff_getElem?.2 ⟨t, hg⟩
    have hmemL := hperm.mem_iff.1 hmem
    refine ⟨h1.symm, ?_⟩
    have h2 : g.FieldTag = t := h1.symm
    rcases List.mem_append.1 hmemL with hm | hm
    · left
      obtain ⟨f, hf, hfg⟩ := List.mem_map.1 hm
      refine ⟨f, hf, ?_, hfg.symm⟩
      rw [← h2, ← hfg]
    · right
      obtain ⟨j, hj, hjg⟩ := List.mem_map.1 hm
      have hjn : j ∉ fieldTags fields := by
        have := (List.mem_filter.1 hj).2
        simpa using this
      have hjt : j = t := by
        rw [← h2, ← hjg]
        rfl
      subst hjt
      exact ⟨hjn, hjg.symm⟩
  refine ⟨out, ?_, hl, htags, ?_, ?_⟩
  · rw [sortAndFillFields_gap fields fuel hne hfull hmax hfuel, hout]
  · intro f hf
    have hlt : f.FieldTag < out.length := by
      rw [hl]
      exact Nat.lt_succ_of_le (le_maxTag fields f hf)
    have hget : out[f.FieldTag]? = some (out[f.FieldTag]) := List.getElem?_eq_getElem hlt
    obtain ⟨_, hcase⟩ := hpos _ _ hget
    rcases hcase with ⟨f2, hf2, htag, hg⟩ | ⟨hnot, _⟩
    · have hsame : f2 = f :=
        List.inj_on_of_nodup_map hnd hf2 hf htag
      rw [hget, hg, hsame]
    · exact absurd (List.mem_map.2 ⟨f, hf, rfl⟩) hnot
  · intro t ht hnot
    have hlt : t < out.length := by rw [hl]; exact ht
    have hget : out[t]? = some (out[t]) := List.getElem?_eq_getElem hlt
    obtain ⟨_, hcase⟩ := hpos _ _ hget
    rcases hcase with ⟨f2, hf2, htag, _⟩ | ⟨_, hg⟩
    · exact absurd (List.mem_map.2 ⟨f2, hf2, htag⟩) hnot
    · rw [hget, hg]
/-- C2: on every table the inlining pass leaves without error (the only tables `File`
hands to the normaliser; the names of a table are distinct), `sortAndFillMsgFields`
returns, and for every struct entry with at least one field whose tags are pairwise
distinct and leave a gap below the largest tag `max`, the entry ends with exactly `max+1`
fields whose tags are `0, 1, .., max` in this order; position `t` holds the field the
struct had with tag `t` (the same field, its element passed through the localized-string
step) when there was one, and the placeholder field tagged `t` otherwise. -/
theorem sortAndFillMsgFields_fills_gaps (fuel fuel2 : Nat) (ids ids1 : List (String × Elem))
    (hkeys : (ids.map Prod.fst).Nodup)
    (hinl : propInline fuel ids = .ret (ids1, none)) (hfuel : 256 < fuel2) :
    ∃ ids2, sortAndFillMsgFields fuel2 ids1 = some ids2 ∧
      ∀ name a fields, ids1.lookup name = some (.Struct a fields) → fields ≠ [] →
        (fieldTags fields).Nodup → (∃ t, t < maxTag fields ∧ t ∉ fieldTags fields) →
        ∃ out, ids2.lookup name = some (.Struct a out) ∧
          out.length = maxTag fields + 1 ∧
          fieldTags out = List.range (maxTag fields + 1) ∧
          (∀ f ∈ fields, out[f.FieldTag]? =
            some { f with FieldElem := fixCsharpStringPointee f.FieldElem }) ∧
          (∀ t, t < maxTag fields + 1 → t ∉ fieldTags fields →
            out[t]? = some (placeholderField t)) := by
  have hkeys1 : (ids1.map Prod.fst).Nodup := by
    rw [propInlineLoop_keys fuel _ ids ids1 none hinl]
    exact hkeys
  have hsmall : ∀ name a fs, ids1.lookup name = some (.Struct a fs) →
      ∀ f ∈ fs, f.FieldTag < 256 :=
    fun name a fs hl => propInline_small_tags fuel ids ids1 hinl name a fs hl
  have htotal : ∀ p ∈ ids1, ∃ el1, sortAndFillElem fuel2 p.2 = some el1 := by
    intro p hp
    refine sortAndFillElem_total fuel2 hfuel p.2 ?_
    intro a fs hel
    refine hsmall p.1 a fs ?_
    rw [← hel]
    exact lookup_of_mem_nodup ids1 hkeys1 p.1 p.2 hp
  obtain ⟨ids2, hrun, hlk⟩ := sortAndFillMsgFields_total fuel2 ids1 htotal
  refine ⟨ids2, hrun, ?_⟩
  intro name a fields hl hne hnd hgap
  obtain ⟨el1, hel1, hl2⟩ := hlk name _ hl
  have hmax : maxTag fields < 256 :=
    maxTag_lt_of_small fields 256 (by omega) (hsmall name a fields hl)
  obtain ⟨out, hout, h1, h2, h3, h4⟩ :=
    sortAndFillFields_fills fields fuel2 hne hnd hgap (by omega) (by omega)
  refine ⟨out, ?_, h1, h2, h3, h4⟩
  simp only [sortAndFillElem, hout, Option.map_some'] at hel1
  injection hel1 with hel1
  rw [hl2, hel1]

/-- The theorem of C2 at the struct of §8, tagged 0 and 3, which ends with the tags 0, 1,
2, 3 and placeholders at 1 and 2; and the passes run on `AllowNil0` of msgdef.go, which
ends with 37 fields and placeholders at 29 and 34. -/
theorem sortAndFillMsgFields_fills_gaps_witness :
    (tableS.map Prod.fst).Nodup ∧
    propInline 10 tableS = .ret (tableS, none) ∧
    sortAndFillMsgFields 257 tableS =
      some [("S", .Struct "S" [mkTagged 0 "0" "A" (.BaseElem "" .String),
        placeholderField 1, placeholderField 2,
        mkTagged 3 "3" "C" (.BaseElem "" .String)])] ∧
    (∃ ids2, sortAndFillMsgFields 257 tableS = some ids2 ∧
      ∀ name a fields, tableS.lookup name = some (.Struct a fields) → fields ≠ [] →
        (fieldTags fields).Nodup → (∃ t, t < maxTag fields ∧ t ∉ fieldTags fields) →
        ∃ out, ids2.lookup name = some (.Struct a out) ∧
          out.length = maxTag fields + 1 ∧
          fieldTags out = List.range (maxTag fields + 1) ∧
          (∀ f ∈ fields, out[f.FieldTag]? =
            some { f with FieldElem := fixCsharpStringPointee f.FieldElem }) ∧
          (∀ t, t < maxTag fields + 1 → t ∉ fieldTags fields →
            out[t]? = some (placeholderField t))) ∧
    process listOrder 60 declAllowNil0 = some (tableAllowNil0, none) ∧
    propInline 60 tableAllowNil0 = .ret (inlinedAllowNil0, none) ∧
    (sortAndFillMsgFields 257 inlinedAllowNil0).map (fun t => entryTags t "AllowNil0") =
      some [(0, "ABool"), (1, "AInt"), (2, "AInt8"), (3, "AInt16"), (4, "AInt32"),
        (5, "AInt64"), (6, "AUint"), (7, "AUint8"), (8, "AUint16"), (9, "AUint32"),
        (10, "AUint64"), (11, "AFloat32"), (12, "AFloat64"), (13, "AComplex64"),
        (14, "AComplex128"), (15, "ANamedBool"), (16, "ANamedInt"), (17, "ANamedFloat64"),
        (18, "AMapStrStr"), (19, "APtrNamedStr"), (20, "AString"), (21, "ANamedString"),
        (22, "AByteSlice"), (23, "ASliceString"), (24, "ASliceNamedString"),
        (25, "ANamedStruct"), (26, "APtrNamedStruct"), (27, "AUnnamedStruct"),
        (28, "EmbeddableStruct2AN"), (29, ""), (30, "AArrayInt"), (31, "ATime"),
        (32, "SomeEmbed"), (33, "SomeInt32"), (34, ""), (35, "MapStrStr"),
        (36, "MapIntStr")] :=
  ⟨by decide, by rfl, by rfl,
    sortAndFillMsgFields_fills_gaps 10 257 tableS tableS (by decide) (by rfl) (by decide),
    by rfl, by rfl, by rfl⟩

end Csmsgp2go
